import Mathlib

/-!
# OpenApoc cue/bin archiver: sector stream, cue sheet parser, directory tree

A shallow embedding of `framework/fs/physfs_archiver_cue.cpp`.

Conventions of the embedding.

* `uint32_t` values are naturals below `2^32`; an unsigned 32-bit result is
  reduced with `u32`.  `uint64_t` values are naturals below `2^64`, reduced
  with `u64`.  `int32_t` / `int64_t` values are integers.
* When an `int32_t` meets a `uint32_t` in an arithmetic expression the usual
  arithmetic conversions of C++ turn both operands into `uint32_t`; the
  result wraps modulo `2^32` *before* it is widened to 64 bits.
* `std::ifstream` is a record of the file content, the get position and the
  failure flag (see `IfStream`).
* A `std::string` is the list of its bytes (`Str`); `std::regex` is a
  backtracking matcher that lists the matches in the order in which the
  ECMAScript rules try them.
* `readDir` is a function of the stream and the record; a run ends with a
  result, with the fuel of the model used up, or in undefined behaviour
  (`Outcome`).
-/

namespace OpenApoc

/-! ## Machine integers -/

/-- Reduce an integer to the value it has as a `uint32_t`. -/
def u32 (x : Int) : Nat := (x % 4294967296).toNat

/-- Reduce an integer to the value it has as a `uint64_t`. -/
def u64 (x : Int) : Nat := (x % 18446744073709551616).toNat

/-- Reinterpret an integer as an `int64_t` (two's complement). -/
def i64 (x : Int) : Int :=
  (x + 9223372036854775808) % 18446744073709551616 - 9223372036854775808

/-! ## Enumerations -/

/-- The `CUE_FileType` enumeration. -/
inductive CUE_FileType where
  | FT_UNDEFINED
  | FT_BINARY
  | FT_MOTOROLA
  | FT_AIFF
  | FT_WAVE
  | FT_MP3
  deriving DecidableEq, Repr

/-- The `CUE_TrackMode` enumeration. -/
inductive CUE_TrackMode where
  | MODE_UNDEFINED
  | MODE1_2048
  | MODE1_2352
  | MODE2_2048
  | MODE2_2324
  | MODE2_2336
  | MODE2_2352
  deriving DecidableEq, Repr

open CUE_TrackMode CUE_FileType

/-- The six track modes the archiver supports (everything but `MODE_UNDEFINED`). -/
def CUE_TrackMode.supported : CUE_TrackMode → Bool
  | MODE_UNDEFINED => false
  | _ => true

/-- The two "cooked" modes, tested by the fast path of `CueIO::read`:
`trackMode == MODE1_2048 || trackMode == MODE2_2048`. -/
def CUE_TrackMode.cooked (m : CUE_TrackMode) : Bool :=
  m == MODE1_2048 || m == MODE2_2048

/-! ## Track addressing -/

/-- `CueIO::lbaToByteOffset`.  The products are `uint32_t * int`, hence computed
in `uint32_t`; the result is then widened to `int64_t`. -/
def lbaToByteOffset (trackMode : CUE_TrackMode) (lba : Nat) : Int :=
  match trackMode with
  | MODE1_2048 => (u32 (lba * 2048) : Int)
  | MODE2_2048 => (u32 (lba * 2048) : Int)
  | MODE1_2352 => (u32 (lba * 2352 + 12 + 4) : Int)
  | MODE2_2324 => (u32 (lba * 2324) : Int)
  | MODE2_2336 => (u32 (lba * 2336 + 8) : Int)
  | MODE2_2352 => (u32 (lba * 2048 + 12 + 4 + 8) : Int)
  | MODE_UNDEFINED => -1

/-- `CueIO::blockSize`: the "user data" block size. -/
def blockSize (trackMode : CUE_TrackMode) : Int :=
  match trackMode with
  | MODE1_2048 => 2048
  | MODE2_2048 => 2048
  | MODE1_2352 => 2048
  | MODE2_2352 => 2048
  | MODE2_2336 => 2048
  | MODE2_2324 => 2324
  | MODE_UNDEFINED => -1

/-- `CueIO::binBlockSize`: the "binary" block size. -/
def binBlockSize (trackMode : CUE_TrackMode) : Int :=
  match trackMode with
  | MODE1_2048 => 2048
  | MODE2_2048 => 2048
  | MODE1_2352 => 2352
  | MODE2_2352 => 2352
  | MODE2_2336 => 2336
  | MODE2_2324 => 2324
  | MODE_UNDEFINED => -1

/-- `CueIO::binDataOffset`: offset of the user data portion of the block. -/
def binDataOffset (trackMode : CUE_TrackMode) : Int :=
  match trackMode with
  | MODE1_2048 => 0
  | MODE2_2048 => 0
  | MODE2_2324 => 0
  | MODE1_2352 => 12 + 4
  | MODE2_2352 => 12 + 4 + 8
  | MODE2_2336 => 8
  | MODE_UNDEFINED => -1

/-! ## The underlying file stream -/

/-- The files the process can open: a path either names a file with the given
bytes or cannot be opened. -/
abbrev FileSystem := String → Option (List Nat)

/-- A `std::ifstream` opened in binary mode.

`failed` stands for `fail()`: the only operations used on the stream are
`open`, `read`, `seekg`, `tellg`, `gcount`, `good` and `operator!`, and with
these `eofbit` is only ever set together with `failbit` (by a read that comes
up short), so `good()` is `!failed` whenever it is consulted. -/
structure IfStream where
  image : List Nat
  cursor : Nat
  failed : Bool
  deriving DecidableEq, Repr

namespace IfStream

/-- `fileStream.open(name, in | binary)`. -/
def openFile (fs : FileSystem) (name : String) : IfStream :=
  match fs name with
  | some img => { image := img, cursor := 0, failed := false }
  | none => { image := [], cursor := 0, failed := true }

/-- `seekg(off, beg)` / `seekg(pos)`: nothing happens on a failed stream; a
negative position sets `failbit`; a position past the end of the file is
accepted (the next read then comes up short). -/
def seekg (s : IfStream) (off : Int) : IfStream :=
  if s.failed then s
  else if off < 0 then { s with failed := true }
  else { s with cursor := off.toNat }

/-- `tellg()`: `-1` on a failed stream. -/
def tellg (s : IfStream) : Int :=
  if s.failed then -1 else (s.cursor : Int)

/-- `good()`. -/
def good (s : IfStream) : Bool := !s.failed

/-- `read(buf, n)`: the new stream state and the bytes stored into the buffer
(`gcount()` is their number).  A failed stream delivers nothing.  Fewer than `n`
available bytes sets `eofbit | failbit`; so does a negative count. -/
def read (s : IfStream) (n : Int) : IfStream × List Nat :=
  if s.failed then (s, [])
  else if n < 0 then ({ s with failed := true }, [])
  else
    let got := (s.image.drop s.cursor).take n.toNat
    ({ s with cursor := s.cursor + got.length, failed := decide (got.length < n.toNat) }, got)

end IfStream

/-! ## `CueIO` -/

/-- The data members of `class CueIO`. -/
structure CueIO where
  imageFile : String
  lbaStart : Nat
  lbaCurrent : Nat
  posInLba : Nat
  length : Int
  fileType : CUE_FileType
  trackMode : CUE_TrackMode
  fileStream : IfStream
  deriving DecidableEq, Repr

namespace CueIO

/-- The constructor `CueIO(fileName, lbaStart, length, fileType, trackMode)`. -/
def mk' (fs : FileSystem) (fileName : String) (lbaStart : Nat) (length : Int)
    (fileType : CUE_FileType) (trackMode : CUE_TrackMode) : CueIO :=
  { imageFile := fileName, lbaStart := lbaStart, lbaCurrent := lbaStart, posInLba := 0,
    length := length, fileType := fileType, trackMode := trackMode,
    fileStream := (IfStream.openFile fs fileName).seekg (lbaToByteOffset trackMode lbaStart) }

/-- The copy constructor `CueIO(const CueIO& other)`. -/
def copy (fs : FileSystem) (other : CueIO) : CueIO :=
  { imageFile := other.imageFile, lbaStart := other.lbaStart, lbaCurrent := other.lbaCurrent,
    posInLba := other.posInLba, length := other.length, fileType := other.fileType,
    trackMode := other.trackMode,
    fileStream := (IfStream.openFile fs other.imageFile).seekg
      (lbaToByteOffset other.trackMode other.lbaStart + other.posInLba) }

/-- `CueIO::tell`: `blockSize() * (lbaCurrent - lbaStart) + posInLba`, an
expression of type `uint32_t` widened to `PHYSFS_sint64`. -/
def tell (c : CueIO) : Int :=
  (u32 (blockSize c.trackMode * u32 ((c.lbaCurrent : Int) - c.lbaStart) + c.posInLba) : Int)

/-- `CueIO::seek(uint64_t offset)`: the returned `int` and the new state.
`offset > length` compares a `uint64_t` with an `int64_t`, that is, with
`length` converted to `uint64_t`. -/
def seek (c : CueIO) (offset : Nat) : Int × CueIO :=
  if offset > u64 c.length then (0, c)
  else
    let blockOffset : Nat := u32 (offset / u64 (blockSize c.trackMode))
    let posInBlock : Nat := u32 (offset % u64 (blockSize c.trackMode))
    let lbaCurrent : Nat := u32 (c.lbaStart + blockOffset)
    let binOffset : Nat := u64 (lbaToByteOffset c.trackMode lbaCurrent + posInBlock)
    let fileStream := c.fileStream.seekg (i64 binOffset)
    ((if fileStream.good then 1 else 0),
     { c with lbaCurrent := lbaCurrent, posInLba := posInBlock, fileStream := fileStream })

/-- The value of `remainLength` in `CueIO::read`:
`length - (lbaCurrent - lbaStart) * blockSize() - posInLba`, where the product is
a `uint32_t`. -/
def remainLength (c : CueIO) : Int :=
  c.length - u32 (u32 ((c.lbaCurrent : Int) - c.lbaStart) * blockSize c.trackMode) - c.posInLba

/-- What a `read` call produces: the returned count, the bytes stored into the
caller's buffer, and the stream afterwards. -/
structure ReadResult where
  ret : Int
  bytes : List Nat
  io : CueIO
  deriving DecidableEq, Repr

/-- One pass through the body of the `do { ... } while (len > totalRead)` loop
of `CueIO::read`: either the function returns (`Sum.inl`: the early
`return totalRead` after a short read, or the loop condition fails and the
final `return totalRead` is reached) or the loop goes round again with the new
stream state, `totalRead` and buffer content (`Sum.inr`). -/
def readBody (c : CueIO) (len : Nat) (totalRead : Int) (buf : List Nat) :
    ReadResult ⊕ ( CueIO × Int × List Nat) :=
  let readSize : Int :=
    i64 (min (u64 (len - totalRead)) (u32 (blockSize c.trackMode - c.posInLba)))
  let r := c.fileStream.read readSize
  let gcount : Int := r.2.length
  let totalRead := totalRead + gcount
  let buf := buf ++ r.2
  let c := { c with fileStream := r.1 }
  if gcount ≠ readSize then Sum.inl ⟨totalRead, buf, c⟩
  else
    let c := { c with posInLba := u32 (c.posInLba + readSize) }
    let c :=
      if c.posInLba ≥ u32 (blockSize c.trackMode) then
        let c := { c with posInLba := 0, lbaCurrent := u32 (c.lbaCurrent + 1) }
        (c.seek (u32 (u32 ((c.lbaCurrent : Int) - c.lbaStart) * blockSize c.trackMode))).2
      else c
    if len > u64 totalRead then Sum.inr (c, totalRead, buf)
    else Sum.inl ⟨totalRead, buf, c⟩

/-- The `do { ... } while (len > totalRead)` loop of `CueIO::read`; `fuel`
bounds the number of passes through the body. -/
def readLoop : Nat → CueIO → Nat → Int → List Nat → Option ReadResult
  | 0, _, _, _, _ => none
  | fuel + 1, c, len, totalRead, buf =>
    match readBody c len totalRead buf with
    | Sum.inl r => some r
    | Sum.inr (c, totalRead, buf) => readLoop fuel c len totalRead buf

/-- `CueIO::read(buf, len)`.  `none` only if the loop does not finish within
`len + 2` passes; it always does on the states a stream can reach (see
`read_spec` and `read_total`). -/
def read (c : CueIO) (len : Nat) : Option ReadResult :=
  if len = 0 then some ⟨0, [], c⟩
  else if c.trackMode = MODE1_2048 ∨ c.trackMode = MODE2_2048 then
    let c := { c with lbaCurrent := u32 (c.lbaCurrent + len / 2048) }
    let start := c.fileStream.tellg
    let r := c.fileStream.read (i64 len)
    some ⟨r.1.tellg - start, r.2, { c with fileStream := r.1 }⟩
  else
    let remainLength := c.remainLength
    if remainLength < 0 then some ⟨-1, [], c⟩
    else
      let len := if len > u64 remainLength then u64 remainLength else len
      readLoop (len + 2) c len 0 []

end CueIO

/-! ## Stream states a caller can observe -/

/-- The block index `lbaCurrent - lbaStart` as the code computes it (`uint32_t`). -/
def CueIO.blockIndex (c : CueIO) : Nat := u32 ((c.lbaCurrent : Int) - c.lbaStart)

/-- The logical position `(lbaCurrent - lbaStart) * blockSize + posInLba` as an
exact integer (no 32-bit wrap of the product). -/
def CueIO.logicalPosition (c : CueIO) : Int :=
  c.blockIndex * blockSize c.trackMode + c.posInLba

/-- The position as `read` evaluates it for `remainLength`: the product
`(lbaCurrent - lbaStart) * blockSize()` reduced to 32 bits, plus `posInLba`. -/
def CueIO.wrappedPosition (c : CueIO) : Nat :=
  u32 (c.blockIndex * blockSize c.trackMode) + c.posInLba

/-- The states of a stream of track mode `trackMode`: constructed with a
`uint32_t` start block and a logical length `0 ≤ length` (an `int64_t`), then
driven by any sequence of `read` and `seek` calls with `uint64_t` arguments. -/
inductive Reachable (fs : FileSystem) (trackMode : CUE_TrackMode) : CueIO → Prop
  | construct (fileName : String) (lbaStart : Nat) (length : Int) (fileType : CUE_FileType) :
      lbaStart < 4294967296 → 0 ≤ length → length < 9223372036854775808 →
      Reachable fs trackMode ( CueIO.mk' fs fileName lbaStart length fileType trackMode)
  | read (c : CueIO) (len : Nat) (r : CueIO.ReadResult) :
      Reachable fs trackMode c → len < 18446744073709551616 → c.read len = some r →
      Reachable fs trackMode r.io
  | seek (c : CueIO) (offset : Nat) :
      Reachable fs trackMode c → offset < 18446744073709551616 →
      Reachable fs trackMode (c.seek offset).2

/-- The state invariant of a stream whose user-data block size is `B`:
`posInLba` stays inside the block, the position as `read` evaluates it is within
the logical length, and for a stream shorter than 4 GiB the block product does
not wrap (so that position is the exact logical position). -/
structure StreamInv (B : Nat) (c : CueIO) : Prop where
  pos : c.posInLba < B
  wrapped : (c.wrappedPosition : Int) ≤ c.length
  exact : c.length < 4294967296 → c.blockIndex * B < 4294967296

/-- What holds of the stream after the loop of `read`, whatever the file delivers. -/
structure LoopPost (B : Nat) (c : CueIO) (t len : Nat) (r : CueIO.ReadResult) : Prop where
  trackMode : r.io.trackMode = c.trackMode
  lbaStart : r.io.lbaStart = c.lbaStart
  length : r.io.length = c.length
  pos : r.io.posInLba < B
  wrapped : (r.io.wrappedPosition : Int) ≤ c.length
  exact : c.blockIndex * B < 4294967296 → r.io.blockIndex * B < 4294967296
  ret_ge : (t : Int) ≤ r.ret
  ret_le : r.ret ≤ len


/-! ## `PHYSFS_Io` handles -/

/-- The heap of `CueIO` objects created with `new`; an address is an index. -/
abbrev Heap := List CueIO

/-- A `PHYSFS_Io` record.  Its function pointers are the same in every record
made by `createIo`, so only the pointer to the backing `CueIO` object (the
`opaque` member of the C struct) is kept; `none` is `nullptr`. -/
structure PHYSFS_Io where
  object : Option Nat
  deriving DecidableEq, Repr

/-- `CueIO::createIo`: a fresh record whose object pointer is `nullptr`. -/
def createIo : PHYSFS_Io := { object := none }

/-- The `CueIO *cio = ( CueIO *)io->opaque` of the static callbacks; `none` when
the pointer is null or dangling (dereferencing it is undefined). -/
def PHYSFS_Io.deref (heap : Heap) (io : PHYSFS_Io) : Option CueIO :=
  match io.object with
  | none => none
  | some a => heap[a]?

/-- `CueIO::CueIO_tell`. -/
def CueIO_tell (heap : Heap) (io : PHYSFS_Io) : Option Int :=
  (io.deref heap).map CueIO.tell

/-- The outcome of `CueIO_duplicate`: the heap afterwards, the record `io` that
was passed in (the function writes to it) and the returned record. -/
structure DuplicateResult where
  heap : Heap
  io : PHYSFS_Io
  retval : PHYSFS_Io
  deriving DecidableEq, Repr

/-- `CueIO::CueIO_duplicate(io)`. -/
def CueIO_duplicate (fs : FileSystem) (heap : Heap) (io : PHYSFS_Io) : Option DuplicateResult :=
  match io.deref heap with
  | none => none
  | some cio =>
    let retval := createIo
    let io := { io with object := some heap.length }
    some { heap := heap ++ [ CueIO.copy fs cio], io := io, retval := retval }

/-! ## Byte strings -/

/-- A `std::string`: a sequence of bytes (character codes). -/
abbrev Str := List Nat

/-- The bytes of a string literal. -/
def bytesOf (s : String) : Str := s.toList.map Char.toNat

/-- Modelled from the spec: `UString::toUpper` (the `UString` class of
`library/strings.h` is not part of the sources at hand).  The comparisons made
with it are described as case-insensitive; the letters `a`..`z` are mapped to
`A`..`Z` and every other byte is kept. -/
def toUpper (s : Str) : Str := s.map (fun c => if 97 ≤ c ∧ c ≤ 122 then c - 32 else c)

/-! ## `std::regex` (ECMAScript grammar, backtracking) -/

/-- `\d`. -/
def isDigit (c : Nat) : Bool := decide (48 ≤ c ∧ c ≤ 57)

/-- `\w`: letters, digits and the underscore. -/
def isWord (c : Nat) : Bool :=
  decide ((48 ≤ c ∧ c ≤ 57) ∨ (65 ≤ c ∧ c ≤ 90) ∨ (97 ≤ c ∧ c ≤ 122) ∨ c = 95)

/-- `\s`: space, `\t`, `\n`, `\v`, `\f`, `\r`. -/
def isSpace (c : Nat) : Bool := decide (c = 32 ∨ (9 ≤ c ∧ c ≤ 13))

/-- `.`: any character but `\n` and `\r`. -/
def isDot (c : Nat) : Bool := decide (c ≠ 10 ∧ c ≠ 13)

/-- `[\w/]`. -/
def isWordOrSlash (c : Nat) : Bool := isWord c || decide (c = 47)

/-- `\"`. -/
def isQuote (c : Nat) : Bool := decide (c = 34)

/-- `:`. -/
def isColon (c : Nat) : Bool := decide (c = 58)

/-- The regular expressions the parser uses: a greedy repetition `x{min,max}` of a
one-character class (`max = none` for no upper bound), concatenation, a capturing
group with its number, and a back-reference. -/
inductive Regex where
  | rep (cls : Nat → Bool) (min : Nat) (max : Option Nat)
  | seq (a b : Regex)
  | group (i : Nat) (a : Regex)
  | backref (i : Nat)

/-- The state of a match attempt: the input still to be consumed and the groups
captured so far (most recent first). -/
structure MatchState where
  rest : Str
  caps : List (Nat × Str)
  deriving DecidableEq, Repr

/-- The ways a greedy repetition of `cls` can match at the head of the input, as
the inputs left over, in the order a backtracking matcher tries them: one more
character first, stopping here afterwards.  `k` characters are taken already. -/
def repRun (cls : Nat → Bool) (min : Nat) (max : Option Nat) : Nat → Str → List Str
  | k, [] => if min ≤ k then [[]] else []
  | k, c :: t =>
    (if cls c && (match max with | none => true | some m => decide (k < m))
      then repRun cls min max (k + 1) t else [])
    ++ (if min ≤ k then [c :: t] else [])

/-- Whether `p` is a prefix of `s`; if so, what follows it. -/
def dropLeading : Str → Str → Option Str
  | [], s => some s
  | _ :: _, [] => none
  | a :: p, b :: s => if a = b then dropLeading p s else none

/-- All matches of a regular expression at the head of the input, in the
priority order of a backtracking matcher (the first one is the match that
`std::regex` reports). -/
def Regex.run : Regex → MatchState → List MatchState
  | .rep cls min max, st => (repRun cls min max 0 st.rest).map (fun r => { st with rest := r })
  | .seq a b, st => (a.run st).flatMap b.run
  | .group i a, st =>
    (a.run st).map (fun st' =>
      { st' with caps := (i, st.rest.take (st.rest.length - st'.rest.length)) :: st'.caps })
  | .backref i, st =>
    match st.caps.lookup i with
    | none => [st]
    | some s =>
      match dropLeading s st.rest with
      | some r => [{ st with rest := r }]
      | none => []

/-- `std::regex_search` as used through `std::sregex_iterator(begin, end, re)`:
the first match, at the leftmost position where there is one; `none` when the
iterator equals the end iterator. -/
def Regex.search (re : Regex) : Str → Option MatchState
  | [] => (re.run ⟨[], []⟩).head?
  | c :: t =>
    match (re.run ⟨c :: t, []⟩).head? with
    | some m => some m
    | none => re.search t

/-- The text of sub-match `i` (`match[i]`); empty when the group took no part. -/
def MatchState.sub (m : MatchState) (i : Nat) : Str := (m.caps.lookup i).getD []

/-- `commandRegex`: `(\w+)\s+(.*)`. -/
def commandRegex : Regex :=
  .seq (.group 1 (.rep isWord 1 none)) (.seq (.rep isSpace 1 none) (.group 2 (.rep isDot 0 none)))

/-- `fileArgRegex`: `(\"?)(.+)(?:\1)\s+(\w+)`. -/
def fileArgRegex : Regex :=
  .seq (.group 1 (.rep isQuote 0 (some 1)))
    (.seq (.group 2 (.rep isDot 1 none))
      (.seq (.backref 1) (.seq (.rep isSpace 1 none) (.group 3 (.rep isWord 1 none)))))

/-- `trackArgRegex`: `(\d{1,2})\s+([\w/]+)`. -/
def trackArgRegex : Regex :=
  .seq (.group 1 (.rep isDigit 1 (some 2)))
    (.seq (.rep isSpace 1 none) (.group 2 (.rep isWordOrSlash 1 none)))

/-- `indexArgRegex`: `(\d{1,2})\s+(\d{2}):(\d{2}):(\d{2})`. -/
def indexArgRegex : Regex :=
  .seq (.group 1 (.rep isDigit 1 (some 2)))
    (.seq (.rep isSpace 1 none)
      (.seq (.group 2 (.rep isDigit 2 (some 2)))
        (.seq (.rep isColon 1 (some 1))
          (.seq (.group 3 (.rep isDigit 2 (some 2)))
            (.seq (.rep isColon 1 (some 1)) (.group 4 (.rep isDigit 2 (some 2))))))))

/-! ## `CueParser` -/

/-- The parser states of `CueParser`. -/
inductive ParserState where
  | PARSER_START
  | PARSER_FILE
  | PARSER_TRACK
  | PARSER_FINISH
  | PARSER_ERROR
  deriving DecidableEq, Repr

open ParserState

/-- The data members of `class CueParser`. -/
structure CueParser where
  parserState : ParserState
  dataFileName : Str
  fileType : CUE_FileType
  trackMode : CUE_TrackMode
  deriving DecidableEq, Repr

namespace CueParser

/-- `CueParser::parseStart`: the returned `bool` and the parser afterwards. -/
def parseStart (p : CueParser) (command arg : Str) : Bool × CueParser :=
  if toUpper command ≠ bytesOf "FILE" then (false, p)
  else
    match fileArgRegex.search arg with
    | none => (false, { p with parserState := PARSER_ERROR })
    | some m =>
      let p := { p with dataFileName := m.sub 2 }
      let fileTypeStr := m.sub 3
      if toUpper fileTypeStr ≠ bytesOf "BINARY" then
        (false, { p with parserState := PARSER_ERROR, fileType := CUE_FileType.FT_UNDEFINED })
      else (true, { p with fileType := CUE_FileType.FT_BINARY })

/-- The chain of comparisons of `parseFile` that turns the upper-cased mode string
into a track mode (`MODE_UNDEFINED` when none applies). -/
def modeOfString (modeStr : Str) : CUE_TrackMode :=
  if modeStr = bytesOf "MODE1/2048" then CUE_TrackMode.MODE1_2048
  else if modeStr = bytesOf "MODE1/2352" then CUE_TrackMode.MODE1_2352
  else if modeStr = bytesOf "MODE2/2048" then CUE_TrackMode.MODE2_2048
  else if modeStr = bytesOf "MODE2/2324" then CUE_TrackMode.MODE2_2324
  else if modeStr = bytesOf "MODE2/2336" then CUE_TrackMode.MODE2_2336
  else if modeStr = bytesOf "MODE2/2352" then CUE_TrackMode.MODE2_2352
  else CUE_TrackMode.MODE_UNDEFINED

/-- `CueParser::parseFile`: the returned `bool` and the parser afterwards.
`none` stands for undefined behaviour: when the arguments do not match
`trackArgRegex` the function records the error but does not return, and goes on
to dereference the end iterator (`*matchIter`, then `std::stoi(match[1])`).
The track number only feeds a warning. -/
def parseFile (p : CueParser) (command arg : Str) : Option (Bool × CueParser) :=
  if toUpper command ≠ bytesOf "TRACK" then
    some (false, { p with parserState := PARSER_ERROR, fileType := CUE_FileType.FT_UNDEFINED })
  else
    match trackArgRegex.search arg with
    | none => none
    | some m =>
      let modeStr := toUpper (m.sub 2)
      let p := { p with trackMode := modeOfString modeStr }
      if p.trackMode = CUE_TrackMode.MODE_UNDEFINED then
        some (false, { p with parserState := PARSER_ERROR })
      else some (true, p)

/-- `CueParser::parseTrack`: the returned `bool` (the parser is not changed). -/
def parseTrack (command arg : Str) : Bool :=
  if toUpper command ≠ bytesOf "INDEX" then false
  else
    match indexArgRegex.search arg with
    | none => false
    | some _ => true

/-- The `switch (parserState)` of `CueParser::parse` for a line that
`commandRegex` matched with the given command and argument: `none` is undefined
behaviour (see `parseFile`); otherwise the parser afterwards. -/
def dispatch (p : CueParser) (command arg : Str) : Option CueParser :=
  match p.parserState with
  | PARSER_START =>
    let r := p.parseStart command arg
    some (if r.1 then { r.2 with parserState := PARSER_FILE } else r.2)
  | PARSER_FILE =>
    (p.parseFile command arg).map
      (fun r => if r.1 then { r.2 with parserState := PARSER_TRACK } else r.2)
  | PARSER_TRACK =>
    some (if parseTrack command arg then { p with parserState := PARSER_FINISH } else p)
  | _ => some p

/-- The `while (cueFile)` loop of `CueParser::parse` over the lines that
successive `std::getline` calls deliver (the last, failing call delivers an empty
line, which matches nothing).  A line that `commandRegex` does not match is
skipped (`continue`); after a matched line the loop stops as soon as the state is
`PARSER_FINISH` or `PARSER_ERROR`.  `none` is undefined behaviour. -/
def parseLines (p : CueParser) : List Str → Option CueParser
  | [] => some p
  | cueLine :: rest =>
    match commandRegex.search cueLine with
    | none => p.parseLines rest
    | some m =>
      match p.dispatch (m.sub 1) (m.sub 2) with
      | none => none
      | some p =>
        if p.parserState = PARSER_FINISH ∨ p.parserState = PARSER_ERROR then some p
        else p.parseLines rest

/-- The members as the constructor's initialiser list sets them (`dataFileName`
is default-constructed, that is, empty). -/
def fresh : CueParser :=
  { parserState := PARSER_START, dataFileName := [],
    fileType := CUE_FileType.FT_UNDEFINED, trackMode := CUE_TrackMode.MODE_UNDEFINED }

/-- The constructor `CueParser(cueFile)`: the initial members, then `parse`.
`lines` is `none` when the cue file cannot be opened (`parse` then returns at
once). -/
def mk' (lines : Option (List Str)) : Option CueParser :=
  match lines with
  | none => some fresh
  | some ls => fresh.parseLines ls

/-- `CueParser::isValid`. -/
def isValid (p : CueParser) : Bool := decide (p.parserState = PARSER_FINISH)

end CueParser

/-! ## The directory tree -/

/-- The `type` member of `FSEntry`. -/
inductive FSEntryType where
  | FS_FILE
  | FS_DIRECTORY
  deriving DecidableEq, Repr

/-- `struct FSEntry`.  `offset` is a `uint32_t`, `length` a `uint64_t`, `timestamp`
an `int64_t`; `children` is the `std::map<UString, FSEntry>`, kept as the list of
its key/value pairs in the order the map iterates over them. -/
inductive FSEntry where
  | mk (name : Str) (type : FSEntryType) (offset : Nat) (length : Nat) (timestamp : Int)
      (children : List (Str × FSEntry))

namespace FSEntry

/-- The `name` member. -/
def name : FSEntry → Str
  | mk n _ _ _ _ _ => n

/-- The `type` member. -/
def type : FSEntry → FSEntryType
  | mk _ t _ _ _ _ => t

/-- The `offset` member. -/
def offset : FSEntry → Nat
  | mk _ _ o _ _ _ => o

/-- The `length` member. -/
def length : FSEntry → Nat
  | mk _ _ _ l _ _ => l

/-- The `timestamp` member. -/
def timestamp : FSEntry → Int
  | mk _ _ _ _ t _ => t

/-- The `children` member. -/
def children : FSEntry → List (Str × FSEntry)
  | mk _ _ _ _ _ c => c

end FSEntry

/-- Modelled from the spec: the ordering of `UString` keys in the children map
(`UString` is not part of the sources at hand; the spec speaks of a mapping
ordered by name).  Byte-wise lexicographic order, as for `std::string`. -/
def strLt : Str → Str → Bool
  | [], [] => false
  | [], _ :: _ => true
  | _ :: _, [] => false
  | a :: s, b :: t => decide (a < b) || (decide (a = b) && strLt s t)

/-- `std::map::find`: the value stored under a key. -/
def mapFind {V : Type} (key : Str) : List (Str × V) → Option V
  | [] => none
  | (k, v) :: rest => if k = key then some v else mapFind key rest

/-- The assignment `map[key] = value`: the value under an existing key is replaced, a new
key is put at its place in the key order. -/
def mapAssign {V : Type} (key : Str) (value : V) : List (Str × V) → List (Str × V)
  | [] => [(key, value)]
  | (k, v) :: rest =>
    if strLt key k then (key, value) :: (k, v) :: rest
    else if k = key then (k, value) :: rest
    else (k, v) :: mapAssign key value rest

/-- The error codes of PhysicsFS that the archiver sets. -/
inductive PHYSFS_ErrorCode where
  | PHYSFS_ERR_NOT_FOUND
  | PHYSFS_ERR_READ_ONLY
  deriving DecidableEq, Repr

/-- `PHYSFS_FileType`. -/
inductive PHYSFS_FileType where
  | PHYSFS_FILETYPE_REGULAR
  | PHYSFS_FILETYPE_DIRECTORY
  | PHYSFS_FILETYPE_SYMLINK
  | PHYSFS_FILETYPE_OTHER
  deriving DecidableEq, Repr

/-- `PHYSFS_Stat`: the sizes and times are `PHYSFS_sint64`, `readonly` is an `int`. -/
structure PHYSFS_Stat where
  filesize : Int
  modtime : Int
  createtime : Int
  accesstime : Int
  filetype : PHYSFS_FileType
  readonly : Int
  deriving DecidableEq, Repr

/-! ## `CueArchiver` -/

/-- The data members of `class CueArchiver` (`cio` is the archive's own stream
over the image). -/
structure CueArchiver where
  imageFile : String
  fileType : CUE_FileType
  trackMode : CUE_TrackMode
  cio : CueIO
  root : FSEntry

/-- What a call leaves behind besides its return value: the archive, and the code
passed to `PHYSFS_setErrorCode` if the call made one. -/
structure Effect where
  archiver : CueArchiver
  errorCode : Option PHYSFS_ErrorCode

namespace CueArchiver

/-- The `for` loop of `getFsEntry` over the path parts: `none` as soon as a part
is not a key of the children map reached so far. -/
def walk (current : FSEntry) : List Str → Option FSEntry
  | [] => some current
  | ppart :: rest =>
    match mapFind ppart current.children with
    | none => none
    | some subdir => walk subdir rest

/-- `CueArchiver::getFsEntry`: the entry found (`none` for `nullptr`) and the error
code set, if any.  `split` stands for `dname.split("/")` of the `UString` class,
which is not part of the sources at hand. -/
def getFsEntry (a : CueArchiver) (split : Str → List Str) (name : Str) :
    Option FSEntry × Option PHYSFS_ErrorCode :=
  if name.length > 0 then
    match walk a.root (split name) with
    | none => (none, some PHYSFS_ErrorCode.PHYSFS_ERR_NOT_FOUND)
    | some e => (some e, none)
  else (some a.root, none)

/-- `CueArchiver::enumerateFiles`: the names the callback `cb` is invoked with, in
the order of the calls, and the error code set, if any. -/
def enumerateFiles (a : CueArchiver) (split : Str → List Str) (dirname : Str) :
    List Str × Option PHYSFS_ErrorCode :=
  match a.getFsEntry split dirname with
  | (none, err) => ([], err)
  | (some current, err) =>
    if current.type = FSEntryType.FS_DIRECTORY then (current.children.map (fun entry => entry.1), err)
    else ([], err)

/-- `CueIO::getIo`: the heap afterwards and the handle returned (`none` for
`nullptr`, when the file stream of the new object is not usable; the object is
then deleted again). -/
def getIo (fs : FileSystem) (heap : Heap) (fileName : String) (lba : Nat) (length : Int)
    (ftype : CUE_FileType) (tmode : CUE_TrackMode) : Heap × Option PHYSFS_Io :=
  let cio := CueIO.mk' fs fileName lba length ftype tmode
  if cio.fileStream.failed then (heap, none)
  else (heap ++ [cio], some { createIo with object := some heap.length })

/-- `CueArchiver::openRead`: the heap afterwards, the handle returned and the error
code set, if any.  The `uint64_t` length of the entry is passed as the `int64_t`
length of the stream. -/
def openRead (a : CueArchiver) (fs : FileSystem) (heap : Heap) (split : Str → List Str)
    (fnm : Str) : Heap × Option PHYSFS_Io × Option PHYSFS_ErrorCode :=
  match a.getFsEntry split fnm with
  | (none, err) => (heap, none, err)
  | (some entry, err) =>
    if entry.type = FSEntryType.FS_DIRECTORY then (heap, none, err)
    else
      let r := getIo fs heap a.imageFile entry.offset (i64 entry.length) a.fileType a.trackMode
      (r.1, r.2, err)

/-- `CueArchiver::stat`: the returned `int`, the `PHYSFS_Stat` record afterwards and
the error code set, if any. -/
def stat (a : CueArchiver) (split : Str → List Str) (name : Str) (st : PHYSFS_Stat) :
    Int × PHYSFS_Stat × Option PHYSFS_ErrorCode :=
  match a.getFsEntry split name with
  | (none, err) => (0, st, err)
  | (some current, err) =>
    let st := { st with readonly := 1, accesstime := current.timestamp,
                        createtime := current.timestamp, modtime := current.timestamp }
    match current.type with
    | FSEntryType.FS_FILE =>
      (1, { st with filetype := PHYSFS_FileType.PHYSFS_FILETYPE_REGULAR,
                    filesize := i64 current.length }, err)
    | FSEntryType.FS_DIRECTORY =>
      (1, { st with filetype := PHYSFS_FileType.PHYSFS_FILETYPE_DIRECTORY, filesize := 0 }, err)

/-- `CueArchiver::Cue_OpenWrite`: the handle returned (`none` for `nullptr`) and the
effect on the archive and the error code. -/
def Cue_OpenWrite (a : CueArchiver) (_filename : Str) : Option PHYSFS_Io × Effect :=
  (none, ⟨a, some PHYSFS_ErrorCode.PHYSFS_ERR_READ_ONLY⟩)

/-- `CueArchiver::Cue_OpenAppend`. -/
def Cue_OpenAppend (a : CueArchiver) (_filename : Str) : Option PHYSFS_Io × Effect :=
  (none, ⟨a, some PHYSFS_ErrorCode.PHYSFS_ERR_READ_ONLY⟩)

/-- `CueArchiver::Cue_Remove`: the returned `int` and the effect. -/
def Cue_Remove (a : CueArchiver) (_filename : Str) : Int × Effect :=
  (0, ⟨a, some PHYSFS_ErrorCode.PHYSFS_ERR_READ_ONLY⟩)

/-- `CueArchiver::Cue_Mkdir`: the returned `int` and the effect. -/
def Cue_Mkdir (a : CueArchiver) (_filename : Str) : Int × Effect :=
  (0, ⟨a, some PHYSFS_ErrorCode.PHYSFS_ERR_READ_ONLY⟩)

end CueArchiver

/-! ## ISO-9660 directory records -/

/-- Reinterpret an integer as an `int32_t` (two's complement). -/
def i32 (x : Int) : Int := (x + 2147483648) % 4294967296 - 2147483648

/-- The `val` member of an `int32_lsb_msb` that `memcpy` has filled from the given
bytes, on a little-endian host with `BOOST_LITTLE_ENDIAN` defined (`val` is then
the first member): the first four bytes, least significant first. -/
def le32 (b : List Nat) : Nat :=
  b.getD 0 0 % 256 + 256 * (b.getD 1 0 % 256) + 65536 * (b.getD 2 0 % 256)
    + 16777216 * (b.getD 3 0 % 256)

/-- `dir_datetime::toUnixTime` on the seven bytes `year, month, day, hour, minute,
second, gmtOffset`.  Each product is an `int` expression (the `uint8_t` members
are promoted), so it is evaluated in 32 bits, with two's-complement wrap-around
where it overflows, before it is added to the 64-bit `unixSeconds`; `/` truncates
toward zero. -/
def toUnixTime (t : List Nat) : Int :=
  let year : Int := (t.getD 0 0 % 256 : Nat)
  let month : Int := (t.getD 1 0 % 256 : Nat)
  let day : Int := (t.getD 2 0 % 256 : Nat)
  let hour : Int := (t.getD 3 0 % 256 : Nat)
  let minute : Int := (t.getD 4 0 % 256 : Nat)
  let second : Int := (t.getD 5 0 % 256 : Nat)
  let gmtOffset : Int := (t.getD 6 0 % 256 : Nat)
  let unixSeconds : Int := i32 ((year - 70) * 365 * 24 * 60 * 60)
  let gmtCorrection : Int := i32 (15 * (gmtOffset - 48))
  let unixSeconds := unixSeconds + i32 (Int.tdiv (year - 70) 4 * 24 * 60 * 60)
  let unixSeconds := unixSeconds + i32 ((month - 1) * 30 * 24 * 60 * 60)
  let unixSeconds := unixSeconds + i32 ((day - 1) * 24 * 60 * 60)
  let unixSeconds := unixSeconds + i32 (hour * 60 * 60)
  let unixSeconds := unixSeconds + i32 ((minute + gmtCorrection) * 60)
  let unixSeconds := unixSeconds + second
  if unixSeconds < 0 then -1 else unixSeconds

/-- An `IsoDirRecord_hdr` as its 255 bytes: `length` at offset 0, `extentLoc` at 2,
`extentLength` at 10, `recTime` at 18, `flags` at 25, `fnLength` at 32, `fileName`
(222 bytes) at 33. -/
structure IsoDirRecord_hdr where
  bytes : List Nat
  deriving DecidableEq, Repr

namespace IsoDirRecord_hdr

/-- The `length` member. -/
def length (r : IsoDirRecord_hdr) : Nat := r.bytes.getD 0 0

/-- The `extentLoc` member. -/
def extentLoc (r : IsoDirRecord_hdr) : List Nat := (r.bytes.drop 2).take 8

/-- The `extentLength` member. -/
def extentLength (r : IsoDirRecord_hdr) : List Nat := (r.bytes.drop 10).take 8

/-- The `recTime` member. -/
def recTime (r : IsoDirRecord_hdr) : List Nat := (r.bytes.drop 18).take 7

/-- The `flags` member. -/
def flags (r : IsoDirRecord_hdr) : Nat := r.bytes.getD 25 0

/-- The `fnLength` member. -/
def fnLength (r : IsoDirRecord_hdr) : Nat := r.bytes.getD 32 0

/-- The `fileName` member. -/
def fileName (r : IsoDirRecord_hdr) : List Nat := r.bytes.drop 33

/-- The record after `cio->read(&record, len)` has stored `data` at its start. -/
def storeHeader (r : IsoDirRecord_hdr) (data : List Nat) : IsoDirRecord_hdr :=
  ⟨data ++ r.bytes.drop data.length⟩

/-- The record after `cio->read(record.fileName, record.fnLength)` has stored
`data` at the start of `fileName` and `fileName[fnLength] = 0` has run. -/
def storeName (r : IsoDirRecord_hdr) (data : List Nat) : IsoDirRecord_hdr :=
  ⟨r.bytes.take 33 ++ (data ++ r.fileName.drop data.length).set r.fnLength 0⟩

end IsoDirRecord_hdr

/-- The C string that starts a buffer: the bytes before the first NUL. -/
def cString (buf : List Nat) : Str := buf.takeWhile (fun c => c ≠ 0)

/-- `std::strrchr(s, c)` for `c ≠ 0`: the index of the last occurrence of `c` in the
C string `s`, `none` for a null pointer. -/
def strrchr : Str → Nat → Option Nat
  | [], _ => none
  | b :: t, c =>
    match strrchr t c with
    | some i => some (i + 1)
    | none => if b = c then some 0 else none

/-- `std::isalnum` in the "C" locale. -/
def isalnum (c : Nat) : Bool :=
  decide ((48 ≤ c ∧ c ≤ 57) ∨ (65 ≤ c ∧ c ≤ 90) ∨ (97 ≤ c ∧ c ≤ 122))

/-- How a run of `readDir` ends: normally, with the fuel of the model used up, or
in undefined behaviour (a write outside the record buffer). -/
inductive Outcome (α : Type) where
  | ok (a : α)
  | outOfFuel
  | undefined

/-- `FSFLAG_DIRENT`. -/
def FSFLAG_DIRENT : Nat := 2

/-- The locals of `readDir` that its loops change: the stream `cio`, `readpos`
(an `int32_t`), the record buffer `childDirRecord` and `parent.children`. -/
structure DirLoop where
  cio : CueIO
  readpos : Int
  childDirRecord : IsoDirRecord_hdr
  children : List (Str × FSEntry)

namespace DirLoop

/-- The step `if (readpos % 2) { readpos += 1; cio->seek(cio->tell() + 1); }`:
each record starts at an even offset. -/
def alignEven (st : DirLoop) : DirLoop :=
  if Int.tmod st.readpos 2 ≠ 0 then
    { st with readpos := i32 (st.readpos + 1),
              cio := (st.cio.seek (u64 (st.cio.tell + 1))).2 }
  else st

/-- The step `readpos += cio->read(&childDirRecord, 33)`; `none` if the model of
`read` runs out of fuel. -/
def readHeader (st : DirLoop) : Option DirLoop :=
  match st.cio.read 33 with
  | none => none
  | some r =>
    some { st with cio := r.io, readpos := i32 (st.readpos + r.ret),
                   childDirRecord := st.childDirRecord.storeHeader r.bytes }

/-- The body of `if (childDirRecord.length == 0)`: step back to the start of the
block if the read crossed a block boundary, and seek there.  `none` where
`readpos % cio->blockSize()` has no value (`INT_MIN % -1`); `blockSize()` is never 0. -/
def skipEmpty (st : DirLoop) (location : Nat) : Option DirLoop :=
  if blockSize st.cio.trackMode = -1 ∧ st.readpos = -2147483648 then none
  else
    let readpos :=
      if Int.tmod st.readpos (blockSize st.cio.trackMode) < 33 then
        i32 (st.readpos - Int.tmod st.readpos (blockSize st.cio.trackMode))
      else st.readpos
    some { st with readpos := readpos,
                   cio := (st.cio.seek (u32 (blockSize st.cio.trackMode * location + readpos))).2 }

/-- The steps `readpos += cio->read(childDirRecord.fileName, childDirRecord.fnLength);
childDirRecord.fileName[childDirRecord.fnLength] = 0`.  A name length above 221
puts the NUL outside `fileName`: undefined behaviour. -/
def readName (st : DirLoop) : Outcome DirLoop :=
  if st.childDirRecord.fnLength > 221 then Outcome.undefined
  else
    match st.cio.read st.childDirRecord.fnLength with
    | none => Outcome.outOfFuel
    | some r =>
      Outcome.ok { st with cio := r.io, readpos := i32 (st.readpos + r.ret),
                           childDirRecord := st.childDirRecord.storeName r.bytes }

/-- The steps after the recursive call: `cio->seek(pos)` and
`parent.children[childEntry.name] = childEntry`; the record buffer is the one the
call has left. -/
def addChild (st : DirLoop) (pos : Int) (childEntry : FSEntry) (cio : CueIO)
    (childDirRecord : IsoDirRecord_hdr) : DirLoop :=
  { st with cio := (cio.seek (u64 pos)).2, childDirRecord := childDirRecord,
            children := mapAssign childEntry.name childEntry st.children }

end DirLoop

/-- The record after `*semicolonPos = 0` for
`semicolonPos = strrchr(dirRecord.fileName, 59)`. -/
def IsoDirRecord_hdr.cutAtSemicolon (dirRecord : IsoDirRecord_hdr) : IsoDirRecord_hdr :=
  match strrchr (cString dirRecord.fileName) 59 with
  | some i => ⟨dirRecord.bytes.set (33 + i) 0⟩
  | none => dirRecord

mutual

/-- `CueArchiver::readDir(dirRecord, parent)`: the entry `parent` as filled in, the
stream `cio` afterwards and the record `dirRecord` afterwards (the function
writes a NUL over the last `;` of its file name).  `garbage` is the content of the
uninitialised local `childDirRecord`.  A file name without a terminating NUL
makes `strrchr` run off the buffer: undefined behaviour. -/
def readDir (garbage : IsoDirRecord_hdr) :
    Nat → CueIO → IsoDirRecord_hdr → Outcome (FSEntry × CueIO × IsoDirRecord_hdr)
  | 0, _, _ => Outcome.outOfFuel
  | fuel + 1, cio, dirRecord =>
    if 0 ∉ dirRecord.fileName then Outcome.undefined
    else if dirRecord.cutAtSemicolon.flags &&& FSFLAG_DIRENT = 0 then
      Outcome.ok
        (FSEntry.mk (cString dirRecord.cutAtSemicolon.fileName) FSEntryType.FS_FILE
          (le32 dirRecord.extentLoc) (u64 (i32 (le32 dirRecord.extentLength)))
          (toUnixTime dirRecord.recTime) [],
        cio, dirRecord.cutAtSemicolon)
    else
      match readDirLoop garbage fuel (le32 dirRecord.extentLoc)
          (i32 (le32 dirRecord.extentLength))
          ⟨(cio.seek (u32 (blockSize cio.trackMode * le32 dirRecord.extentLoc + 0))).2, 0,
            garbage, []⟩ with
      | Outcome.ok st =>
        Outcome.ok
          (FSEntry.mk (cString dirRecord.cutAtSemicolon.fileName) FSEntryType.FS_DIRECTORY
            (le32 dirRecord.extentLoc) (u64 (i32 (le32 dirRecord.extentLength)))
            (toUnixTime dirRecord.recTime) st.children,
          st.cio, dirRecord.cutAtSemicolon)
      | Outcome.outOfFuel => Outcome.outOfFuel
      | Outcome.undefined => Outcome.undefined

/-- The loops of `readDir`, from the top of the inner `do` body: the inner
`while (childDirRecord.length == 0)`, the two `continue`s and the end of the outer
body all lead back there while their condition holds. -/
def readDirLoop (garbage : IsoDirRecord_hdr) :
    Nat → Nat → Int → DirLoop → Outcome DirLoop
  | 0, _, _, _ => Outcome.outOfFuel
  | fuel + 1, location, length, st =>
    match st.alignEven.readHeader with
    | none => Outcome.outOfFuel
    | some st =>
      if st.readpos ≥ length then Outcome.ok st
      else if st.childDirRecord.length = 0 then
        match st.skipEmpty location with
        | none => Outcome.undefined
        | some st => readDirLoop garbage fuel location length st
      else if st.childDirRecord.fnLength > 0 then
        match st.readName with
        | Outcome.outOfFuel => Outcome.outOfFuel
        | Outcome.undefined => Outcome.undefined
        | Outcome.ok st =>
          if !isalnum (st.childDirRecord.fileName.getD 0 0) then
            if st.childDirRecord.length > 0 then readDirLoop garbage fuel location length st
            else Outcome.ok st
          else
            match readDir garbage fuel st.cio st.childDirRecord with
            | Outcome.outOfFuel => Outcome.outOfFuel
            | Outcome.undefined => Outcome.undefined
            | Outcome.ok (childEntry, cio, childDirRecord) =>
              if childDirRecord.length > 0 then
                readDirLoop garbage fuel location length
                  (st.addChild st.cio.tell childEntry cio childDirRecord)
              else Outcome.ok (st.addChild st.cio.tell childEntry cio childDirRecord)
      else
        if st.childDirRecord.length > 0 then readDirLoop garbage fuel location length st
        else Outcome.ok st

end

mutual

/-- Equality of two entries is decidable. -/
def FSEntry.decEq : (a b : FSEntry) → Decidable (a = b)
  | .mk n t o l ts cs, .mk n' t' o' l' ts' cs' =>
    if h1 : n = n' ∧ t = t' ∧ o = o' ∧ l = l' ∧ ts = ts' then
      match FSEntry.decEqChildren cs cs' with
      | isTrue h => isTrue (by obtain ⟨a, b, c, d, e⟩ := h1; subst a b c d e h; rfl)
      | isFalse h => isFalse (by intro e; cases e; exact h rfl)
    else isFalse (by intro e; cases e; exact h1 ⟨rfl, rfl, rfl, rfl, rfl⟩)

/-- Equality of two `children` maps is decidable. -/
def FSEntry.decEqChildren : (a b : List (Str × FSEntry)) → Decidable (a = b)
  | [], [] => isTrue rfl
  | [], _ :: _ => isFalse (by intro h; cases h)
  | _ :: _, [] => isFalse (by intro h; cases h)
  | (k, e) :: t, (k', e') :: t' =>
    if hk : k = k' then
      match FSEntry.decEq e e' with
      | isTrue he =>
        match FSEntry.decEqChildren t t' with
        | isTrue ht => isTrue (by rw [hk, he, ht])
        | isFalse ht => isFalse (by intro h; cases h; exact ht rfl)
      | isFalse he => isFalse (by intro h; cases h; exact he rfl)
    else isFalse (by intro h; cases h; exact hk rfl)

end

instance : DecidableEq FSEntry := FSEntry.decEq

deriving instance DecidableEq for Outcome

mutual

/-- All the `children` maps of a tree: the one of the entry itself and those of
the entries below it. -/
def FSEntry.maps : FSEntry → List (List (Str × FSEntry))
  | .mk _ _ _ _ _ children => children :: FSEntry.mapsOfChildren children

/-- All the `children` maps of the trees stored in a map. -/
def FSEntry.mapsOfChildren : List (Str × FSEntry) → List (List (Str × FSEntry))
  | [] => []
  | (_, e) :: rest => FSEntry.maps e ++ FSEntry.mapsOfChildren rest

end

/-- What holds of a `children` map that `readDir` has filled: the keys are in
strictly ascending order (it is a `std::map`), each key starts with a character
that `isalnum` accepts, and each key is the name of the entry stored under it. -/
def MapGood (m : List (Str × FSEntry)) : Prop :=
  (m.map (fun kc => kc.1)).Pairwise (fun k1 k2 => strLt k1 k2 = true) ∧
  ∀ kc ∈ m, (∃ b t, kc.1 = b :: t ∧ isalnum b = true) ∧ kc.1 = kc.2.name

/-- The name the specification describes: the name of the record cut at its first
semicolon. -/
def nameCutAtFirstSemicolon (s : Str) : Str := s.takeWhile (fun c => c ≠ 59)

/-! ## The time stamp as the specification gives it -/

/-- The value the specification gives for `toUnixTime`, in exact integers with the
division truncating toward zero, before the test for a negative result. -/
def unixSecondsExact (year month day hour minute second gmtOffset : Nat) : Int :=
  ((year : Int) - 70) * 365 * 86400 + Int.tdiv ((year : Int) - 70) 4 * 86400
    + ((month : Int) - 1) * 30 * 86400 + ((day : Int) - 1) * 86400 + (hour : Int) * 3600
    + ((minute : Int) + 15 * ((gmtOffset : Int) - 48)) * 60 + (second : Int)

/-- The result the specification gives for `toUnixTime`: `unixSecondsExact` if that
is not negative, and `-1` otherwise. -/
def toUnixTimeExact (year month day hour minute second gmtOffset : Nat) : Int :=
  if unixSecondsExact year month day hour minute second gmtOffset ≥ 0 then
    unixSecondsExact year month day hour minute second gmtOffset
  else -1

/-! ## Runs of `readDir` -/

/-- The result of a run that ended normally. -/
def Outcome.result {α : Type} : Outcome α → Option α
  | Outcome.ok a => some a
  | Outcome.outOfFuel => none
  | Outcome.undefined => none

/-- The keys of the children mapping that a run of `readDir` leaves in `parent`. -/
def childKeys (o : Outcome (FSEntry × CueIO × IsoDirRecord_hdr)) : Option (List Str) :=
  o.result.map (fun r => r.1.children.map Prod.fst)

deriving instance DecidableEq for DirLoop

deriving instance DecidableEq for Outcome

/-- The recursive call that the first pass of the record loop makes from the state
`st`, if the pass gets that far: the stream and the record handed to `readDir`. -/
def DirLoop.firstCall (st : DirLoop) (length : Int) : Option ( CueIO × IsoDirRecord_hdr) :=
  match st.alignEven.readHeader with
  | none => none
  | some st =>
    if st.readpos ≥ length then none
    else if st.childDirRecord.length = 0 then none
    else if st.childDirRecord.fnLength > 0 then
      match st.readName with
      | Outcome.ok st =>
        if !isalnum (st.childDirRecord.fileName.getD 0 0) then none
        else some (st.cio, st.childDirRecord)
      | _ => none
    else none

/-- The state in which the record loop starts its next pass after a pass from `st`
that found an empty record, if the pass from `st` is such a one. -/
def DirLoop.emptyPass (st : DirLoop) (location : Nat) (length : Int) : Option DirLoop :=
  match st.alignEven.readHeader with
  | none => none
  | some st =>
    if st.readpos ≥ length then none
    else if st.childDirRecord.length = 0 then st.skipEmpty location
    else none

/-- The state in which the record loop starts its next pass after a pass from `st`
that decodes a file record with an alphanumeric name and adds its entry, if the
pass from `st` is such a one. -/
def DirLoop.filePass (st : DirLoop) (length : Int) : Option DirLoop :=
  match st.alignEven.readHeader with
  | none => none
  | some st =>
    if st.readpos ≥ length then none
    else if st.childDirRecord.length = 0 then none
    else if st.childDirRecord.fnLength > 0 then
      match st.readName with
      | Outcome.ok st =>
        if !isalnum (st.childDirRecord.fileName.getD 0 0) then none
        else if 0 ∉ st.childDirRecord.fileName then none
        else if st.childDirRecord.cutAtSemicolon.flags &&& FSFLAG_DIRENT ≠ 0 then none
        else if st.childDirRecord.cutAtSemicolon.length = 0 then none
        else
          some (st.addChild st.cio.tell
            (FSEntry.mk (cString st.childDirRecord.cutAtSemicolon.fileName) FSEntryType.FS_FILE
              (le32 st.childDirRecord.extentLoc)
              (u64 (i32 (le32 st.childDirRecord.extentLength)))
              (toUnixTime st.childDirRecord.recTime) [])
            st.cio st.childDirRecord.cutAtSemicolon)
      | _ => none
    else none

/-- The locals of `readDir` at the recursive call that the first pass of the record
loop makes from the state `st`, if the pass gets that far. -/
def DirLoop.atCall (st : DirLoop) (length : Int) : Option DirLoop :=
  match st.alignEven.readHeader with
  | none => none
  | some st =>
    if st.readpos ≥ length then none
    else if st.childDirRecord.length = 0 then none
    else if st.childDirRecord.fnLength > 0 then
      match st.readName with
      | Outcome.ok st =>
        if !isalnum (st.childDirRecord.fileName.getD 0 0) then none else some st
      | _ => none
    else none

/-! ## Tracks whose first bytes are in the image file -/

namespace CueIO

/-- The block size of the stream's track as a natural number. -/
def blockBytes (c : CueIO) : Nat := (blockSize c.trackMode).toNat

/-- The position in the image file of the byte at the logical offset `y` of the
stream: `lbaToByteOffset(lbaStart + y / blockSize) + y % blockSize`. -/
def filePos (c : CueIO) (y : Nat) : Nat :=
  (lbaToByteOffset c.trackMode (c.lbaStart + y / c.blockBytes)).toNat + y % c.blockBytes

/-- The byte of the image file at the logical offset `y` of the stream. -/
def byteAt (c : CueIO) (y : Nat) : Nat := c.fileStream.image.getD (c.filePos y) 0

/-- The `n` bytes of the image file at the logical offsets `x, x + 1, ...` of the
stream. -/
def window (c : CueIO) (x n : Nat) : List Nat := (List.range n).map (fun i => c.byteAt (x + i))

/-- The stream `c` standing at the logical offset `x` with a usable file stream:
the state that a successful `seek(x)` leaves. -/
def atOffset (c : CueIO) (x : Nat) : CueIO :=
  { c with lbaCurrent := c.lbaStart + x / c.blockBytes,
           posInLba := x % c.blockBytes,
           fileStream := ⟨c.fileStream.image, c.filePos x, false⟩ }

/-- The image file holds the first `n` bytes of the track of `c`, a track in one of
the four modes that `read` handles block by block: `n` is within the logical
length (an `int64_t`), offsets up to `n` fit the `uint32_t` arithmetic of `seek`
and `tell`, the block numbers fit `uint32_t`, and each logical offset below `n`
has its byte in the file. -/
structure Covers (c : CueIO) (n : Nat) : Prop where
  mode : c.trackMode = MODE1_2352 ∨ c.trackMode = MODE2_2324 ∨ c.trackMode = MODE2_2336
    ∨ c.trackMode = MODE2_2352
  length_lt : c.length < 9223372036854775808
  le_length : (n : Int) ≤ c.length
  lt : n < 4294967296
  lba : c.lbaStart + n / c.blockBytes < 4294967296
  image : ∀ y : Nat, y < n → c.filePos y < c.fileStream.image.length

end CueIO

/-- The stream `c'` is a state of the track of `c` with a usable file stream: the
same image file, start block, length and track mode. -/
structure CueIO.OnTrack (c c' : CueIO) : Prop where
  imageFile : c'.imageFile = c.imageFile
  lbaStart : c'.lbaStart = c.lbaStart
  length : c'.length = c.length
  fileType : c'.fileType = c.fileType
  trackMode : c'.trackMode = c.trackMode
  image : c'.fileStream.image = c.fileStream.image
  good : c'.fileStream.failed = false

/-! ## Well-nested directories -/

namespace CueIO

/-- The record buffer filled with the 255 bytes of the track that start at the offset
`o` of the directory extent at block `location`. -/
def recordAt (c : CueIO) (location o : Nat) : IsoDirRecord_hdr :=
  ⟨c.window (c.blockBytes * location + o) 255⟩

/-- The running offset `readpos` at the end of the pass of the record loop that
reads the record at offset `o`: after an empty record, 33 bytes further or the
start of the block that the 33 bytes reached into; after any other record, the end
of its name. -/
def passEnd (c : CueIO) (location o : Nat) : Nat :=
  if (c.recordAt location o).length = 0 then
    if (o + 33) % c.blockBytes < 33 then (o + 33) - (o + 33) % c.blockBytes else o + 33
  else o + 33 + (c.recordAt location o).fnLength

/-- The offset at which the record loop reads the record after the one at `o`: the
end of the pass, made even. -/
def nextRecord (c : CueIO) (location o : Nat) : Nat :=
  c.passEnd location o + c.passEnd location o % 2

/-- The offsets of a directory extent of `length` bytes at which the record loop
reads a record: offset 0, and the offset after each record whose 33-byte header
ends before the end of the extent. -/
inductive Scanned (c : CueIO) (location length : Nat) : Nat → Prop
  | start : Scanned c location length 0
  | next (o : Nat) : Scanned c location length o → o + 33 < length →
      Scanned c location length (c.nextRecord location o)

/-- The directory extent of `length` bytes at block `location` can be scanned among
the first `m` bytes of the track: the running offset, which passes `length` by up
to 34, fits `int32_t`; the extent lies inside the track; the extent and the 34
bytes after it, as far as the track goes, are among the first `m` bytes; each
record that is not empty has a name of at most 221 bytes that ends inside the
extent; and the extent of each record that is a directory with an alphanumeric
name satisfies `child`. -/
def DirOk (c : CueIO) (m : Nat) (child : Nat → Nat → Prop) (location length : Nat) : Prop :=
  length + 34 < 2147483648 ∧
  ((c.blockBytes * location + length : Nat) : Int) ≤ c.length ∧
  min (c.blockBytes * location + length + 34) c.length.toNat ≤ m ∧
  ∀ o, c.Scanned location length o → o + 33 < length →
    (c.recordAt location o).length ≠ 0 →
      (c.recordAt location o).fnLength ≤ 221 ∧
      o + 33 + (c.recordAt location o).fnLength ≤ length ∧
      (0 < (c.recordAt location o).fnLength →
        isalnum ((c.recordAt location o).fileName.getD 0 0) = true →
        (c.recordAt location o).flags &&& FSFLAG_DIRENT ≠ 0 →
        child (le32 (c.recordAt location o).extentLoc)
          (le32 (c.recordAt location o).extentLength))

/-- The directory extent of `length` bytes at block `location` can be scanned among
the first `m` bytes of the track, and so can its subdirectories, which nest at
most `depth` levels deep. -/
def Nested (c : CueIO) (m : Nat) : Nat → Nat → Nat → Prop
  | 0 => c.DirOk m (fun _ _ => False)
  | depth + 1 => c.DirOk m (c.Nested m depth)

end CueIO

/-- The locals of `readDir` at the top of a pass of the record loop over the extent
at block `location` of the track of `c`: the stream stands at the running offset
`readpos` of the extent and the record buffer has its 255 bytes. -/
structure DirLoop.AtPass (c : CueIO) (location readpos : Nat) (st : DirLoop) : Prop where
  cio : st.cio = c.atOffset (c.blockBytes * location + readpos)
  readpos : st.readpos = (readpos : Int)
  buffer : st.childDirRecord.bytes.length = 255

/-- Every run of `readDir` from an offset among the first `m` bytes of the track,
on a directory record that points at the extent of `length` bytes at block
`location`, ends normally, given enough fuel, and leaves the stream at such an
offset. -/
def CueIO.DirEnds (c : CueIO) (m : Nat) (g : IsoDirRecord_hdr) (location length : Nat) : Prop :=
  ∀ (x : Nat) (r : IsoDirRecord_hdr), x ≤ m → 0 ∈ r.fileName →
    r.flags &&& FSFLAG_DIRENT ≠ 0 → le32 r.extentLoc = location →
    le32 r.extentLength = length →
    ∃ (n : Nat) (e : FSEntry) (x' : Nat), x' ≤ m ∧
      ∀ fuel, n ≤ fuel →
        readDir g fuel (c.atOffset x) r = Outcome.ok (e, c.atOffset x', r.cutAtSemicolon)

/-! ## Example inputs -/

/-- A file system in which every name opens an image of `n` zero bytes. -/
def zeroImage (n : Nat) : FileSystem := fun _ => some (List.replicate n 0)

/-- An image of two raw 2352-byte sectors: bytes `0 .. 2375` are 0 and bytes
`2376 .. 4703` are 1, so that the user data of sector 1 in `MODE2_2352`
(which starts at byte `2352 + 24`) is all ones and everything before it is zero. -/
def markedImage : List Nat := List.replicate 2376 0 ++ List.replicate 2328 1

/-- A file system in which every name opens `markedImage`. -/
def markedFs : FileSystem := fun _ => some markedImage

/-- The bytes of a directory record: `length`, the extent location and length
(each a byte below 256, stored in both byte orders), a time stamp, `flags` and
the file name. -/
def recordBytes (length location extentLength flags : Nat) (name : List Nat) : List Nat :=
  [length, 0, location, 0, 0, 0, 0, 0, 0, location, extentLength, 0, 0, 0, 0, 0, 0,
    extentLength, 100, 1, 1, 0, 0, 0, 48, flags, 0, 0, 1, 0, 0, 1, name.length] ++ name

/-- The content of a directory extent: the records `.` and `..`, a record with an
empty name, a record `_X`, a directory `SUB` with an empty extent and a file
`A.DAT;1`; each record starts at an even offset. -/
def exampleDirectory : List Nat :=
  recordBytes 34 0 214 2 [0] ++ recordBytes 34 0 214 2 [1] ++ (recordBytes 34 0 0 0 [] ++ [0])
    ++ (recordBytes 36 0 9 0 (bytesOf "_X") ++ [0]) ++ recordBytes 36 0 0 2 (bytesOf "SUB")
    ++ recordBytes 40 5 77 0 (bytesOf "A.DAT;1")

/-- A `MODE1/2352` image whose block 0 starts with `exampleDirectory`. -/
def exampleImage : FileSystem :=
  fun _ => some (List.replicate 16 255 ++ exampleDirectory ++ List.replicate 40 0)

/-- The archive's stream over `exampleImage`. -/
def exampleCio : CueIO :=
  CueIO.mk' exampleImage "game.bin" 0 256 CUE_FileType.FT_BINARY CUE_TrackMode.MODE1_2352

/-- The root record of `exampleImage`: a directory at block 0 of 214 bytes. -/
def exampleRoot : IsoDirRecord_hdr := ⟨recordBytes 34 0 214 2 [0] ++ List.replicate 221 0⟩

/-- The tree that `readDir` builds from `exampleImage`: a root holding the file
`A.DAT` and the directory `SUB`. -/
def exampleTree : FSEntry :=
  FSEntry.mk [] FSEntryType.FS_DIRECTORY 0 214 946684800
    [(bytesOf "A.DAT", FSEntry.mk (bytesOf "A.DAT") FSEntryType.FS_FILE 5 77 946684800 []),
     (bytesOf "SUB", FSEntry.mk (bytesOf "SUB") FSEntryType.FS_DIRECTORY 0 0 946684800 [])]

/-- A record of a file whose name `A;B;1` holds two semicolons. -/
def exampleRecordTwoSemicolons : IsoDirRecord_hdr :=
  ⟨recordBytes 38 5 77 0 (bytesOf "A;B;1") ++ [0]⟩

/-- An archive over `exampleImage` with the tree `exampleTree`. -/
def exampleArchive : CueArchiver :=
  ⟨"game.bin", CUE_FileType.FT_BINARY, CUE_TrackMode.MODE1_2352, exampleCio, exampleTree⟩

/-- A record of a file `BIG` whose extent length has all 32 bits set. -/
def exampleRecordHuge : IsoDirRecord_hdr :=
  ⟨[38, 0, 5, 0, 0, 0, 0, 0, 0, 5, 255, 255, 255, 255, 255, 255, 255, 255, 100, 1, 1, 0, 0, 0, 48,
    0, 0, 0, 1, 0, 0, 1, 3] ++ bytesOf "BIG" ++ [0]⟩

/-- The entry that `readDir` makes of `exampleRecordHuge`. -/
def exampleEntryHuge : FSEntry :=
  FSEntry.mk (bytesOf "BIG") FSEntryType.FS_FILE 5 18446744073709551615 946684800 []

/-- An archive whose root holds `exampleEntryHuge`. -/
def exampleArchiveHuge : CueArchiver :=
  ⟨"game.bin", CUE_FileType.FT_BINARY, CUE_TrackMode.MODE1_2352, exampleCio,
    FSEntry.mk [] FSEntryType.FS_DIRECTORY 0 214 946684800 [(bytesOf "BIG", exampleEntryHuge)]⟩

/-- A stand-in for `UString::split` on paths without a separator: the path is its
only part. -/
def splitSingle (s : Str) : List Str := [s]

/-- A well-formed directory extent of one 2048-byte block at block 0: the records
`.` and `..`, the files `A;1` (block 1, 5 bytes) and `B;1` (block 2, 7 bytes), and
zeros up to the end of the block. -/
def twoFileDirectory : List Nat :=
  [34, 0, 0, 0, 0, 0, 0, 0, 0, 0, 0, 8, 0, 0, 0, 0, 8, 0, 100, 1, 1, 0, 0, 0, 48, 2, 0, 0, 1, 0,
    0, 1, 1, 0]
  ++ [34, 0, 0, 0, 0, 0, 0, 0, 0, 0, 0, 8, 0, 0, 0, 0, 8, 0, 100, 1, 1, 0, 0, 0, 48, 2, 0, 0, 1,
    0, 0, 1, 1, 1]
  ++ recordBytes 36 1 5 0 (bytesOf "A;1") ++ recordBytes 36 2 7 0 (bytesOf "B;1")
  ++ List.replicate 1908 0

/-- The record of the directory `twoFileDirectory`: block 0, 2048 bytes. -/
def twoFileRoot : IsoDirRecord_hdr :=
  ⟨[34, 0, 0, 0, 0, 0, 0, 0, 0, 0, 0, 8, 0, 0, 0, 0, 8, 0, 100, 1, 1, 0, 0, 0, 48, 2, 0, 0, 1, 0,
    0, 1, 1, 0] ++ List.replicate 221 0⟩

/-- A `MODE1/2048` stream over an image of three blocks that starts with
`twoFileDirectory`. -/
def twoFileCooked : CueIO :=
  CueIO.mk' (fun _ => some (twoFileDirectory ++ List.replicate 4096 7)) "game.iso" 0 6144
    CUE_FileType.FT_BINARY CUE_TrackMode.MODE1_2048

/-- A `MODE1/2352` stream over an image whose block 0 holds `twoFileDirectory` as
user data, followed by the start of block 1. -/
def twoFileRaw : CueIO :=
  CueIO.mk' (fun _ => some (List.replicate 16 255 ++ twoFileDirectory ++ List.replicate 400 7))
    "game.bin" 0 2148 CUE_FileType.FT_BINARY CUE_TrackMode.MODE1_2352

/-- A `MODE1/2352` image of one sector whose user data starts with the record of a
directory `SUB` at block 0 of 200 bytes: the directory at block 0 lists itself. -/
def selfRefImage : FileSystem :=
  fun _ => some (List.replicate 16 255 ++ recordBytes 36 0 200 2 (bytesOf "SUB")
    ++ List.replicate 2300 0)

/-- The stream over `selfRefImage`. -/
def selfRefCio : CueIO :=
  CueIO.mk' selfRefImage "game.bin" 0 2048 CUE_FileType.FT_BINARY CUE_TrackMode.MODE1_2352

/-- The record of the directory at block 0 of `selfRefImage`, as the record buffer
holds it. -/
def selfRefRoot : IsoDirRecord_hdr :=
  ⟨recordBytes 36 0 200 2 (bytesOf "SUB") ++ List.replicate 219 0⟩

/-- A `MODE1/2352` stream of 2048 bytes over an image file cut off after the 16
bytes of the first sector header. -/
def truncatedCio : CueIO :=
  CueIO.mk' (zeroImage 16) "game.bin" 0 2048 CUE_FileType.FT_BINARY CUE_TrackMode.MODE1_2352

/-- The locals of `readDir` after the first pass of the record loop over
`truncatedCio`: the stream has failed. -/
def truncatedLoop : DirLoop :=
  ⟨{ truncatedCio with fileStream := { truncatedCio.fileStream with failed := true } }, 0,
    ⟨List.replicate 255 0⟩, []⟩

/-- The stream that the archive's constructor makes of `exampleImage`,
`new CueIO(fileName, 0, fsize, ftype, tmode)`: start block 0 and, as logical
length, the size of the image file, 270 bytes.  The file holds the first 254
bytes of this track. -/
def exampleArchiveStream : CueIO :=
  CueIO.mk' exampleImage "game.bin" 0 270 CUE_FileType.FT_BINARY CUE_TrackMode.MODE1_2352

/-- The record of a file `AB` whose extent starts at block 5: an extended attribute
record of one block and 17920 bytes of data; the file unit size is 2. -/
def shiftedRecord : List Nat :=
  [36, 1, 5, 0, 0, 0, 0, 0, 0, 5, 0, 70, 0, 0, 0, 0, 70, 0, 100, 1, 1, 0, 0, 0, 48, 0, 2, 0, 1, 0,
    0, 1, 2, 65, 66, 0]

/-- A directory extent of one 2048-byte block: the record `shiftedRecord` and zeros
up to the end of the block. -/
def shiftedDirectory : List Nat := shiftedRecord ++ List.replicate 2012 0

/-- A `MODE1/2048` stream over a complete image of 15 blocks: the directory
`shiftedDirectory` at block 0 and the extent of the file `AB` in blocks 5 to 14.
The logical length is the size of the file, 30720 bytes. -/
def shiftedCooked : CueIO :=
  CueIO.mk' (fun _ => some (shiftedDirectory ++ List.replicate 28672 7)) "game.iso" 0 30720
    CUE_FileType.FT_BINARY CUE_TrackMode.MODE1_2048

/-- A `MODE1/2352` stream over an image of 15 raw sectors whose blocks hold the same
user data.  The logical length is the size of the file, 35280 bytes. -/
def shiftedRaw : CueIO :=
  CueIO.mk' (fun _ => some (List.replicate 16 255 ++ shiftedDirectory ++ List.replicate 33216 7))
    "game.bin" 0 35280 CUE_FileType.FT_BINARY CUE_TrackMode.MODE1_2352

/-- The record buffer after the record loop over `shiftedCooked` has read 33 and
then 65 bytes from offset 1 of the directory: the bytes of `shiftedRecord` moved
down by one.  These decode as a directory at block 0 of 70 bytes. -/
def shiftedChild : IsoDirRecord_hdr := ⟨shiftedRecord.drop 1 ++ List.replicate 220 0⟩

/-- A complete `MODE1/2352` image of two raw sectors: block 0 is a directory that
holds the record of the directory `SUB`, block 1 is the extent of `SUB`, a block
of zeros. -/
def lastSectorImage : List Nat :=
  List.replicate 16 255 ++ ([36, 0, 1, 0, 0, 0, 0, 0, 0, 1, 0, 8, 0, 0, 0, 0, 8, 0, 100, 1, 1, 0,
    0, 0, 48, 2, 0, 0, 1, 0, 0, 1, 3] ++ bytesOf "SUB") ++ List.replicate 2012 0
  ++ List.replicate 288 0 ++ List.replicate 16 255 ++ List.replicate 2048 0
  ++ List.replicate 288 0

/-- The stream that the archive's constructor makes of `lastSectorImage`: start block
0 and the size of the file, 4704 bytes, as logical length. -/
def lastSectorCio : CueIO :=
  CueIO.mk' (fun _ => some lastSectorImage) "game.bin" 0 4704 CUE_FileType.FT_BINARY
    CUE_TrackMode.MODE1_2352

/-- The record buffer with the record of `SUB` as the record loop over
`lastSectorCio` has read it. -/
def lastSectorRecord : IsoDirRecord_hdr :=
  ⟨[36, 0, 1, 0, 0, 0, 0, 0, 0, 1, 0, 8, 0, 0, 0, 0, 8, 0, 100, 1, 1, 0, 0, 0, 48, 2, 0, 0, 1, 0,
    0, 1, 3] ++ bytesOf "SUB" ++ List.replicate 219 0⟩

/-- The entry that `readDir` makes of `SUB`. -/
def lastSectorEntry : FSEntry :=
  FSEntry.mk (bytesOf "SUB") FSEntryType.FS_DIRECTORY 1 2048 946684800 []

/-- The stream over `lastSectorImage` with a file stream that has failed, at the
block `lbaCurrent` and the offset `posInLba`. -/
def lastSectorFailed (lbaCurrent posInLba : Nat) : CueIO :=
  ⟨"game.bin", 0, lbaCurrent, posInLba, 4704, CUE_FileType.FT_BINARY,
    CUE_TrackMode.MODE1_2352, ⟨lastSectorImage, 4720, true⟩⟩

/-- The locals of `readDir` over `lastSectorCio` at the recursive call for `SUB`. -/
def lastSectorCall : DirLoop :=
  ⟨⟨"game.bin", 0, 0, 36, 4704, CUE_FileType.FT_BINARY, CUE_TrackMode.MODE1_2352,
    ⟨lastSectorImage, 52, false⟩⟩, 36, lastSectorRecord, []⟩

/-- The locals of `readDir` over `lastSectorCio` after the call for `SUB` has returned
and its entry has been added: the last header read of the call reached past the
end of the image file, so the stream has failed. -/
def lastSectorResumed : DirLoop :=
  ⟨lastSectorFailed 0 36, 36, lastSectorRecord, [(bytesOf "SUB", lastSectorEntry)]⟩

/-! ## Track addressing: theorems -/

open CueIO

theorem u32_of_lt {x : Int} (h0 : 0 ≤ x) (h : x < 4294967296) : (u32 x : Int) = x := by
  unfold u32; omega

theorem u64_of_lt {x : Int} (h0 : 0 ≤ x) (h : x < 18446744073709551616) : (u64 x : Int) = x := by
  unfold u64; omega

theorem u32_lt (x : Int) : u32 x < 4294967296 := by unfold u32; omega

theorem u32_natCast_le (n : Nat) : u32 (n : Int) ≤ n := by
  unfold u32; omega

theorem u32_natCast_of_lt (n : Nat) (h : n < 4294967296) : u32 (n : Int) = n := by
  unfold u32; omega

theorem u32_add_sub (s : Nat) (b : Int) : u32 ((u32 ((s : Int) + b) : Int) - s) = u32 b := by
  unfold u32; omega

theorem i64_of_lt {x : Int} (h0 : -9223372036854775808 ≤ x) (h : x < 9223372036854775808) :
    i64 x = x := by
  unfold i64; omega

/-- In every mode but `MODE2_2352` the byte offset of a block is
`lba * binBlockSize + binDataOffset` as long as that value fits 32 bits. -/
theorem lbaToByteOffset_eq (m : CUE_TrackMode) (n : Nat) (hs : m.supported = true)
    (hm : m ≠ MODE2_2352) (hn : n * binBlockSize m + binDataOffset m < 4294967296) :
    lbaToByteOffset m n = n * binBlockSize m + binDataOffset m := by
  cases m <;> simp_all [lbaToByteOffset, binBlockSize, binDataOffset, CUE_TrackMode.supported] <;>
    (unfold u32; omega)

/-- C1 (as the code behaves): in mode `MODE2_2352` block 1 starts at byte
`1 * 2048 + 24 = 2072`, whereas the physical stride and data offset of that mode
give `1 * 2352 + 24 = 2376`; consecutive blocks are 2048 bytes apart, not the
physical stride 2352. -/
theorem lbaToByteOffset_mode2_2352_wrong_stride :
    lbaToByteOffset MODE2_2352 1 = 2072 ∧
    1 * binBlockSize MODE2_2352 + binDataOffset MODE2_2352 = 2376 ∧
    1 * binBlockSize MODE2_2352 + binDataOffset MODE2_2352 < 4294967296 ∧
    lbaToByteOffset MODE2_2352 (0 + 1) - lbaToByteOffset MODE2_2352 0 = 2048 ∧
    binBlockSize MODE2_2352 = 2352 := by
  decide

/-- C2: for each of the six track modes the triple (`binBlockSize`, `blockSize`,
`binDataOffset`) is the one of the table of constants. -/
theorem track_mode_constants :
    (binBlockSize MODE1_2048, blockSize MODE1_2048, binDataOffset MODE1_2048) = (2048, 2048, 0) ∧
    (binBlockSize MODE2_2048, blockSize MODE2_2048, binDataOffset MODE2_2048) = (2048, 2048, 0) ∧
    (binBlockSize MODE1_2352, blockSize MODE1_2352, binDataOffset MODE1_2352) = (2352, 2048, 16) ∧
    (binBlockSize MODE2_2352, blockSize MODE2_2352, binDataOffset MODE2_2352) = (2352, 2048, 24) ∧
    (binBlockSize MODE2_2336, blockSize MODE2_2336, binDataOffset MODE2_2336) = (2336, 2048, 8) ∧
    (binBlockSize MODE2_2324, blockSize MODE2_2324, binDataOffset MODE2_2324) = (2324, 2324, 0) := by
  decide

/-! ## `seek` and `tell` -/

/-- The guard of `seek` on a stream of non-negative length: an offset beyond the
logical length is rejected and nothing moves. -/
theorem seek_beyond_length_of_nonneg (c : CueIO) (x : Nat) (h0 : 0 ≤ c.length)
    (hx : c.length < x) : c.seek x = (0, c) := by
  unfold seek
  have : x > u64 c.length := by unfold u64; omega
  simp [this]

/-- `seek` when the offset passes the guard. -/
theorem seek_of_le (c : CueIO) (x : Nat) (h : ¬ (x > u64 c.length)) :
    c.seek x =
      ((if (c.fileStream.seekg (i64 (u64 (lbaToByteOffset c.trackMode
            (u32 (c.lbaStart + u32 (x / u64 (blockSize c.trackMode))))
            + u32 (x % u64 (blockSize c.trackMode)))))).good then 1 else 0),
       { c with
          lbaCurrent := u32 (c.lbaStart + u32 (x / u64 (blockSize c.trackMode))),
          posInLba := u32 (x % u64 (blockSize c.trackMode)),
          fileStream := c.fileStream.seekg (i64 (u64 (lbaToByteOffset c.trackMode
            (u32 (c.lbaStart + u32 (x / u64 (blockSize c.trackMode))))
            + u32 (x % u64 (blockSize c.trackMode))))) }) := by
  simp [seek, h]

theorem blockSize_cases (m : CUE_TrackMode) (hm : m.supported = true) :
    (blockSize m = 2048 ∧ u64 (blockSize m) = 2048 ∧ u32 (blockSize m) = 2048) ∨
    (blockSize m = 2324 ∧ u64 (blockSize m) = 2324 ∧ u32 (blockSize m) = 2324) := by
  cases m <;> simp_all [blockSize, CUE_TrackMode.supported] <;> decide

theorem lbaToByteOffset_nonneg (m : CUE_TrackMode) (lba : Nat) (hm : m.supported = true) :
    0 ≤ lbaToByteOffset m lba := by
  cases m <;> simp_all [lbaToByteOffset, CUE_TrackMode.supported]

theorem lbaToByteOffset_lt (m : CUE_TrackMode) (lba : Nat) :
    lbaToByteOffset m lba < 4294967296 := by
  cases m <;> simp only [lbaToByteOffset] <;> first | omega | (unfold u32; omega)

theorem IfStream.seekg_good (s : IfStream) (off : Int) (hf : s.failed = false) (h : 0 ≤ off) :
    (s.seekg off).good = true := by
  have : ¬ off < 0 := by omega
  simp [IfStream.seekg, IfStream.good, hf, this]

theorem i64_u64_of_lt {x : Int} (h0 : 0 ≤ x) (h : x < 9223372036854775808) :
    i64 (u64 x) = x := by
  unfold i64 u64; omega

/-- C4, counterexample: a `MODE1_2048` stream of logical length `2^32`; seeking
to offset `2^32` (which is within the length) succeeds, but `tell()` then
reports 0. -/
theorem seek_tell_roundtrip_fails_at_4GiB :
    (0 : Int) ≤ 4294967296 ∧
    (4294967296 : Int) ≤ (mk' (zeroImage 0) "image.bin" 0 4294967296 FT_BINARY MODE1_2048).length ∧
    ((mk' (zeroImage 0) "image.bin" 0 4294967296 FT_BINARY MODE1_2048).seek 4294967296).1 = 1 ∧
    ((mk' (zeroImage 0) "image.bin" 0 4294967296 FT_BINARY MODE1_2048).seek 4294967296).2.tell
      = 0 := by
  decide

/-- C4, amended: for every supported track mode, every stream of logical length
`L` and every offset `x` with `0 ≤ x ≤ L` and `x < 2^32`, `seek(x)` moves the
stream so that `tell()` returns exactly `x`, and it reports success when the
underlying file stream is usable. -/
theorem seek_tell_roundtrip (c : CueIO) (x : Nat) (hm : c.trackMode.supported = true)
    (hL : c.length < 9223372036854775808) (hx : (x : Int) ≤ c.length) (hx32 : x < 4294967296) :
    (c.fileStream.failed = false → (c.seek x).1 = 1) ∧ (c.seek x).2.tell = x := by
  have hg : ¬ (x > u64 c.length) := by unfold u64; omega
  rw [seek_of_le c x hg]
  constructor
  · intro hf
    have h0 := lbaToByteOffset_nonneg c.trackMode
      (u32 (c.lbaStart + u32 (x / u64 (blockSize c.trackMode)))) hm
    have h1 := lbaToByteOffset_lt c.trackMode
      (u32 (c.lbaStart + u32 (x / u64 (blockSize c.trackMode))))
    have h2 : (u32 (x % u64 (blockSize c.trackMode)) : Int) < 4294967296 := by unfold u32; omega
    rw [i64_u64_of_lt (by omega) (by omega), IfStream.seekg_good _ _ hf (by omega)]
    rfl
  · simp only [ CueIO.tell]
    rw [u32_add_sub]
    rcases blockSize_cases c.trackMode hm with ⟨h, h', -⟩ | ⟨h, h', -⟩ <;> rw [h', h]
    · have h1 : u32 (u32 ((x : Int) / (2048 : Nat)) : Int) = x / 2048 := by unfold u32; omega
      have h2 : u32 ((x : Int) % (2048 : Nat)) = x % 2048 := by unfold u32; omega
      rw [h1, h2]; unfold u32; omega
    · have h1 : u32 (u32 ((x : Int) / (2324 : Nat)) : Int) = x / 2324 := by unfold u32; omega
      have h2 : u32 ((x : Int) % (2324 : Nat)) = x % 2324 := by unfold u32; omega
      rw [h1, h2]; unfold u32; omega

/-- Witness for C4: a `MODE2_2352` stream of length 4096 starting at block 16,
offset 2049. -/
theorem seek_tell_roundtrip_witness :
    (mk' (zeroImage 0) "image.bin" 16 4096 FT_BINARY MODE2_2352).trackMode.supported = true ∧
    ((mk' (zeroImage 0) "image.bin" 16 4096 FT_BINARY MODE2_2352).fileStream.failed = false →
      ((mk' (zeroImage 0) "image.bin" 16 4096 FT_BINARY MODE2_2352).seek 2049).1 = 1) ∧
    ((mk' (zeroImage 0) "image.bin" 16 4096 FT_BINARY MODE2_2352).seek 2049).2.tell
      = (2049 : Nat) :=
  ⟨by decide, seek_tell_roundtrip _ 2049 (by decide) (by decide) (by decide) (by decide)⟩

/-- C5 (as the code behaves): a `MODE1_2352` stream whose logical length is `-1`
(what `openRead` passes for a directory record whose extent length is
`0xFFFFFFFF`).  Offset 5 is greater than the logical length, yet `seek(5)`
is not rejected: it returns 1, moves `posInLba` from 0 to 5, moves the file
cursor from 16 to 21 and changes `tell()` from 0 to 5. -/
theorem seek_negative_length_not_rejected :
    (mk' (zeroImage 0) "image.bin" 0 (-1) FT_BINARY MODE1_2352).length < 5 ∧
    ((mk' (zeroImage 0) "image.bin" 0 (-1) FT_BINARY MODE1_2352).seek 5).1 = 1 ∧
    (mk' (zeroImage 0) "image.bin" 0 (-1) FT_BINARY MODE1_2352).posInLba = 0 ∧
    ((mk' (zeroImage 0) "image.bin" 0 (-1) FT_BINARY MODE1_2352).seek 5).2.posInLba = 5 ∧
    (mk' (zeroImage 0) "image.bin" 0 (-1) FT_BINARY MODE1_2352).fileStream.cursor = 16 ∧
    ((mk' (zeroImage 0) "image.bin" 0 (-1) FT_BINARY MODE1_2352).seek 5).2.fileStream.cursor = 21 ∧
    (mk' (zeroImage 0) "image.bin" 0 (-1) FT_BINARY MODE1_2352).tell = 0 ∧
    ((mk' (zeroImage 0) "image.bin" 0 (-1) FT_BINARY MODE1_2352).seek 5).2.tell = 5 := by
  decide

/-! ## `read`: the guard against reading past the end -/

theorem readSize_eq (B p len t : Nat) (bs : Int) (hB : bs = B) (hp : p < B) (hB32 : B < 4294967296)
    (ht : t ≤ len) (hlen : len < 18446744073709551616) :
    i64 (min (u64 ((len : Int) - (t : Int))) (u32 (bs - (p : Int)))) = ((min (len - t) (B - p) : Nat) : Int) := by
  subst hB
  have h1 : u64 ((len : Int) - (t : Int)) = len - t := by unfold u64; omega
  have h2 : u32 ((B : Int) - (p : Int)) = B - p := by unfold u32; omega
  rw [h1, h2]
  unfold i64; omega

theorem IfStream.read_length_le (s : IfStream) (n : Nat) : (s.read n).2.length ≤ n := by
  unfold IfStream.read
  split
  · simp
  · split
    · simp
    · simp

theorem IfStream.read_full (s : IfStream) (n : Nat) (hf : s.failed = false)
    (h : s.cursor + n ≤ s.image.length) :
    s.read n = ({ s with cursor := s.cursor + n }, (s.image.drop s.cursor).take n) := by
  have hl : ((s.image.drop s.cursor).take n).length = n := by
    simp; omega
  obtain ⟨img, cur, fl⟩ := s
  simp only at hf h hl
  subst hf
  simp [IfStream.read, hl]

theorem readBody_short (c : CueIO) (len t : Nat) (buf : List Nat) (B : Nat)
    (hB : blockSize c.trackMode = B) (hB32 : B < 4294967296) (hp : c.posInLba < B)
    (ht : t ≤ len) (hlen : len < 18446744073709551616)
    (hs : (c.fileStream.read ((min (len - t) (B - c.posInLba) : Nat) : Int)).2.length
      ≠ min (len - t) (B - c.posInLba)) :
    readBody c len t buf = Sum.inl
      ⟨t + (c.fileStream.read ((min (len - t) (B - c.posInLba) : Nat) : Int)).2.length,
       buf ++ (c.fileStream.read ((min (len - t) (B - c.posInLba) : Nat) : Int)).2,
       { c with fileStream := (c.fileStream.read ((min (len - t) (B - c.posInLba) : Nat) : Int)).1 }⟩ := by
  unfold readBody
  simp only [readSize_eq B c.posInLba len t (blockSize c.trackMode) hB hp hB32 ht hlen]
  rw [if_pos]
  exact_mod_cast hs

theorem readBody_inblock (c : CueIO) (len t : Nat) (buf : List Nat) (B : Nat)
    (hB : blockSize c.trackMode = B) (hB32 : B < 4294967296) (hB' : u32 (blockSize c.trackMode) = B)
    (hp : c.posInLba < B)
    (ht : t ≤ len) (hlen : len < 18446744073709551616)
    (hs : (c.fileStream.read ((min (len - t) (B - c.posInLba) : Nat) : Int)).2.length
      = min (len - t) (B - c.posInLba))
    (hin : c.posInLba + (len - t) < B) :
    readBody c len t buf = Sum.inl
      ⟨len,
       buf ++ (c.fileStream.read ((len - t : Nat) : Int)).2,
       { c with fileStream := (c.fileStream.read ((len - t : Nat) : Int)).1,
                posInLba := c.posInLba + (len - t) }⟩ := by
  unfold readBody
  simp only [readSize_eq B c.posInLba len t (blockSize c.trackMode) hB hp hB32 ht hlen]
  have hmin : min (len - t) (B - c.posInLba) = len - t := by omega
  rw [hmin] at hs ⊢
  have h0 : ¬ (((c.fileStream.read ((len - t : Nat) : Int)).2.length : Int) ≠ ((len - t : Nat) : Int)) := by
    rw [hs]; simp
  have h1 : u32 ((c.posInLba : Int) + ((len - t : Nat) : Int)) = c.posInLba + (len - t) := by
    unfold u32; omega
  have h2 : u64 ((t : Int) + ((len - t : Nat) : Int)) = len := by unfold u64; omega
  have h3 : (t : Int) + ((len - t : Nat) : Int) = len := by omega
  have h4 : ¬ (c.posInLba + (len - t) ≥ B) := by omega
  have h5 : ¬ (len > len) := by omega
  have h6 : u64 (len : Int) = len := by unfold u64; omega
  simp only [hs, hB', h1, if_neg h4, h2, h3, h6]
  simp

theorem readBody_cross (c : CueIO) (len t : Nat) (buf : List Nat) (B : Nat)
    (hB : blockSize c.trackMode = B) (hB32 : B < 4294967296) (hB' : u32 (blockSize c.trackMode) = B)
    (hp : c.posInLba < B)
    (ht : t ≤ len) (hlen : len < 18446744073709551616)
    (hs : (c.fileStream.read ((min (len - t) (B - c.posInLba) : Nat) : Int)).2.length
      = min (len - t) (B - c.posInLba))
    (hin : B ≤ c.posInLba + (len - t)) :
    readBody c len t buf =
      if len > t + (B - c.posInLba) then
        Sum.inr
          (( CueIO.seek
              { c with fileStream := (c.fileStream.read ((B - c.posInLba : Nat) : Int)).1,
                       posInLba := 0, lbaCurrent := u32 (c.lbaCurrent + 1) }
              (u32 (u32 ((u32 (c.lbaCurrent + 1) : Int) - c.lbaStart) * B))).2,
           ((t + (B - c.posInLba) : Nat) : Int),
           buf ++ (c.fileStream.read ((B - c.posInLba : Nat) : Int)).2)
      else
        Sum.inl
          ⟨len, buf ++ (c.fileStream.read ((B - c.posInLba : Nat) : Int)).2,
           ( CueIO.seek
              { c with fileStream := (c.fileStream.read ((B - c.posInLba : Nat) : Int)).1,
                       posInLba := 0, lbaCurrent := u32 (c.lbaCurrent + 1) }
              (u32 (u32 ((u32 (c.lbaCurrent + 1) : Int) - c.lbaStart) * B))).2⟩ := by
  unfold readBody
  simp only [readSize_eq B c.posInLba len t (blockSize c.trackMode) hB hp hB32 ht hlen]
  have hmin : min (len - t) (B - c.posInLba) = B - c.posInLba := by omega
  rw [hmin] at hs ⊢
  have h0 : ¬ (((c.fileStream.read ((B - c.posInLba : Nat) : Int)).2.length : Int)
      ≠ ((B - c.posInLba : Nat) : Int)) := by
    rw [hs]; simp
  have h1 : u32 ((c.posInLba : Int) + ((B - c.posInLba : Nat) : Int)) = B := by
    unfold u32; omega
  have h2 : u64 ((t : Int) + ((B - c.posInLba : Nat) : Int)) = t + (B - c.posInLba) := by
    unfold u64; omega
  have h4 : B ≥ B := le_refl _
  have h7 : u32 (B : Int) = B := by unfold u32; omega
  simp only [hs, hB', hB, h1, if_pos h4, h2]
  by_cases hgt : len > t + (B - c.posInLba)
  · simp [if_pos hgt, h7]
  · have h3 : (t : Int) + ((B - c.posInLba : Nat) : Int) = len := by omega
    simp [if_neg hgt, h3, h7]

/-- `remainLength` is `length` minus the position as `read` evaluates it. -/
theorem remainLength_eq (c : CueIO) :
    c.remainLength = c.length - (c.wrappedPosition : Int) := by
  unfold remainLength wrappedPosition blockIndex
  push_cast
  omega

theorem seek_state (c : CueIO) (x B : Nat) (hBv : B = 2048 ∨ B = 2324)
    (hB : blockSize c.trackMode = B) (hx : (x : Int) ≤ c.length)
    (hL : c.length < 9223372036854775808) (hx32 : x < 4294967296)
    (hm : c.trackMode.supported = true) :
    (c.seek x).2 =
      { c with lbaCurrent := u32 ((c.lbaStart : Int) + ((x / B : Nat) : Int)),
               posInLba := x % B,
               fileStream := c.fileStream.seekg
                 (lbaToByteOffset c.trackMode (u32 ((c.lbaStart : Int) + ((x / B : Nat) : Int)))
                   + ((x % B : Nat) : Int)) } := by
  have hg : ¬ (x > u64 c.length) := by unfold u64; omega
  rw [seek_of_le c x hg]
  have hB64 : u64 (blockSize c.trackMode) = B := by
    rw [hB]; rcases hBv with rfl | rfl <;> decide
  have h1 : u32 ((x : Int) / (B : Int)) = x / B := by
    rcases hBv with rfl | rfl <;> (unfold u32; omega)
  have h2 : u32 ((x : Int) % (B : Int)) = x % B := by
    rcases hBv with rfl | rfl <;> (unfold u32; omega)
  simp only [hB64, h1, h2]
  have h0 := lbaToByteOffset_nonneg c.trackMode (u32 ((c.lbaStart : Int) + ((x / B : Nat) : Int))) hm
  have h3 := lbaToByteOffset_lt c.trackMode (u32 ((c.lbaStart : Int) + ((x / B : Nat) : Int)))
  have h4 : (x % B : Nat) < 4294967296 := by
    rcases hBv with rfl | rfl <;> omega
  rw [i64_u64_of_lt (by omega) (by omega)]

/-! ## The loop of `read` -/

theorem cross_offset_le (a s B : Nat) (hBv : B = 2048 ∨ B = 2324) :
    u32 (u32 ((u32 ((a : Int) + 1) : Int) - s) * (B : Int))
      ≤ u32 (u32 ((a : Int) - s) * (B : Int)) + B := by
  rcases hBv with rfl | rfl <;> (unfold u32; omega)

theorem blockIndex_after_seek (s x B : Nat) (hBv : B = 2048 ∨ B = 2324) (hx : x < 4294967296) :
    u32 ((u32 ((s : Int) + ((x / B : Nat) : Int)) : Int) - s) = x / B := by
  rcases hBv with rfl | rfl <;> (unfold u32; omega)

theorem wrapped_after_seek (x B : Nat) (hBv : B = 2048 ∨ B = 2324) (hx : x < 4294967296) :
    u32 (((x / B : Nat) : Int) * (B : Int)) + x % B = x := by
  rcases hBv with rfl | rfl <;> (unfold u32; omega)

theorem readLoop_spec (B : Nat) (hBv : B = 2048 ∨ B = 2324) (len : Nat)
    (hlen : len < 18446744073709551616) :
    ∀ (fuel : Nat) (c : CueIO) (t : Nat) (buf : List Nat),
      blockSize c.trackMode = B → c.trackMode.supported = true → c.posInLba < B → t ≤ len →
      (c.wrappedPosition : Int) + (len - t : Nat) ≤ c.length → c.length < 9223372036854775808 →
      len - t + 1 ≤ fuel →
      ∃ r, readLoop fuel c len t buf = some r ∧ LoopPost B c t len r := by
  have hB32 : B < 4294967296 := by rcases hBv with rfl | rfl <;> omega
  intro fuel
  induction fuel with
  | zero => intro c t buf _ _ _ _ _ _ hf; omega
  | succ fuel ih =>
    intro c t buf hB hm hp ht hW hL hf
    have hB' : u32 (blockSize c.trackMode) = B := by
      rw [hB]; unfold u32; omega
    simp only [readLoop]
    by_cases hs : (c.fileStream.read ((min (len - t) (B - c.posInLba) : Nat) : Int)).2.length
        = min (len - t) (B - c.posInLba)
    · by_cases hin : c.posInLba + (len - t) < B
      · rw [readBody_inblock c len t buf B hB hB32 hB' hp ht hlen hs hin]
        refine ⟨_, rfl, ⟨rfl, rfl, rfl, ?_, ?_, ?_, ?_, ?_⟩⟩
        · simpa using hin
        · simp only [wrappedPosition, blockIndex] at hW ⊢
          push_cast at hW ⊢
          omega
        · intro h; simpa [blockIndex] using h
        · simp; omega
        · simp
      · have hoff := cross_offset_le c.lbaCurrent c.lbaStart B hBv
        rw [readBody_cross c len t buf B hB hB32 hB' hp ht hlen hs (by omega)]
        have hWc : c.wrappedPosition = u32 (u32 ((c.lbaCurrent : Int) - c.lbaStart) * (B : Int))
            + c.posInLba := by
          simp only [wrappedPosition, blockIndex, hB]
        have hx32 := u32_lt (u32 ((u32 ((c.lbaCurrent : Int) + 1) : Int) - c.lbaStart) * (B : Int))
        rw [seek_state
          { c with fileStream := (c.fileStream.read ((B - c.posInLba : Nat) : Int)).1,
                   posInLba := 0, lbaCurrent := u32 (c.lbaCurrent + 1) }
          _ B hBv hB (by simp only []; omega) hL hx32 hm]
        generalize hoffdef :
          u32 (u32 ((u32 ((c.lbaCurrent : Int) + 1) : Int) - c.lbaStart) * (B : Int)) = off
          at hoff hx32 ⊢
        have hidx := blockIndex_after_seek c.lbaStart off B hBv hx32
        have hwr := wrapped_after_seek off B hBv hx32
        have hmod : off % B < B := Nat.mod_lt _ (by omega)
        have hdiv : off / B * B ≤ off := Nat.div_mul_le_self off B
        by_cases hgt : len > t + (B - c.posInLba)
        · simp only [if_pos hgt]
          obtain ⟨r, hr, post⟩ := ih
            { c with lbaCurrent := u32 ((c.lbaStart : Int) + ((off / B : Nat) : Int)),
                     posInLba := off % B,
                     fileStream := (c.fileStream.read ((B - c.posInLba : Nat) : Int)).1.seekg
                       (lbaToByteOffset c.trackMode
                          (u32 ((c.lbaStart : Int) + ((off / B : Nat) : Int)))
                         + ((off % B : Nat) : Int)) }
            (t + (B - c.posInLba)) (buf ++ (c.fileStream.read ((B - c.posInLba : Nat) : Int)).2)
            hB hm hmod (by omega)
            (by simp only [wrappedPosition, blockIndex, hidx, hB, hwr]; omega) hL (by omega)
          refine ⟨r, hr, ⟨post.trackMode, post.lbaStart, post.length, post.pos, post.wrapped,
            ?_, ?_, post.ret_le⟩⟩
          · intro _
            apply post.exact
            simp only [blockIndex, hidx]; omega
          · have := post.ret_ge; omega
        · simp only [if_neg hgt]
          refine ⟨_, rfl, ⟨rfl, rfl, rfl, hmod, ?_, ?_, ?_, ?_⟩⟩
          · simp only [wrappedPosition, blockIndex, hidx, hB, hwr]; omega
          · intro _
            simp only [blockIndex, hidx]; omega
          · simp; omega
          · simp
    · rw [readBody_short c len t buf B hB hB32 hp ht hlen hs]
      have hle := IfStream.read_length_le c.fileStream (min (len - t) (B - c.posInLba))
      refine ⟨_, rfl, ⟨rfl, rfl, rfl, hp, ?_, ?_, ?_, ?_⟩⟩
      · simp only [wrappedPosition, blockIndex] at hW ⊢
        omega
      · intro h; simpa [blockIndex] using h
      · simp
      · simp only []; omega

/-! ## The state invariant -/

theorem read_spec (c : CueIO) (len B : Nat) (hBv : B = 2048 ∨ B = 2324)
    (hB : blockSize c.trackMode = B) (hm : c.trackMode.supported = true)
    (hc : c.trackMode.cooked = false) (hlen : len < 18446744073709551616)
    (hL0 : 0 ≤ c.length) (hL : c.length < 9223372036854775808) (hinv : StreamInv B c) :
    ∃ r, c.read len = some r ∧ r.io.trackMode = c.trackMode ∧ r.io.lbaStart = c.lbaStart ∧
      r.io.length = c.length ∧ StreamInv B r.io := by
  have h1 : ¬ (c.trackMode = MODE1_2048 ∨ c.trackMode = MODE2_2048) := by
    simpa [CUE_TrackMode.cooked] using hc
  have hrem := remainLength_eq c
  have hw := hinv.wrapped
  by_cases h0 : len = 0
  · subst h0
    exact ⟨⟨0, [], c⟩, by simp [ CueIO.read], rfl, rfl, rfl, hinv⟩
  · have hr : ¬ (c.remainLength < 0) := by omega
    simp only [ CueIO.read, if_neg h0, if_neg h1, if_neg hr]
    have hu : (u64 c.remainLength : Int) = c.remainLength := u64_of_lt (by omega) (by omega)
    have hlen' : (if len > u64 c.remainLength then u64 c.remainLength else len)
        < 18446744073709551616 := by
      split <;> omega
    have hle : ((if len > u64 c.remainLength then u64 c.remainLength else len : Nat) : Int)
        ≤ c.remainLength := by
      split <;> omega
    generalize (if len > u64 c.remainLength then u64 c.remainLength else len) = n at hlen' hle ⊢
    obtain ⟨r, hr, post⟩ := readLoop_spec B hBv n hlen' (n + 2) c 0 [] hB hm hinv.pos (by omega)
      (by simp only [Nat.sub_zero]; omega) hL (by omega)
    refine ⟨r, hr, post.trackMode, post.lbaStart, post.length, ⟨post.pos, ?_, ?_⟩⟩
    · rw [post.length]; exact post.wrapped
    · rw [post.length]; intro h; exact post.exact (hinv.exact h)

theorem seek_inv (c : CueIO) (x B : Nat) (hBv : B = 2048 ∨ B = 2324)
    (hB : blockSize c.trackMode = B)
    (hL0 : 0 ≤ c.length) (hL : c.length < 9223372036854775808) (hinv : StreamInv B c) :
    (c.seek x).2.trackMode = c.trackMode ∧ (c.seek x).2.lbaStart = c.lbaStart ∧
      (c.seek x).2.length = c.length ∧ StreamInv B (c.seek x).2 := by
  by_cases hg : x > u64 c.length
  · have : c.seek x = (0, c) := by simp [seek, hg]
    rw [this]
    exact ⟨rfl, rfl, rfl, hinv⟩
  · rw [seek_of_le c x hg]
    have hxL : (x : Int) ≤ c.length := by
      have := u64_of_lt hL0 (by omega : c.length < 18446744073709551616)
      omega
    have hB64 : u64 (blockSize c.trackMode) = B := by
      rw [hB]; rcases hBv with rfl | rfl <;> decide
    have hB64' : u64 (B : Int) = B := by rw [← hB]; exact hB64
    have hBpos : 0 < B := by rcases hBv with rfl | rfl <;> omega
    have hmodlt : x % B < B := Nat.mod_lt _ hBpos
    have hmod : u32 ((x : Int) % (B : Int)) = x % B := by
      have e : (x : Int) % (B : Int) = ((x % B : Nat) : Int) := by push_cast; rfl
      rw [e]; exact u32_natCast_of_lt _ (by rcases hBv with rfl | rfl <;> omega)
    have hdiv : u32 ((x : Int) / (B : Int)) ≤ x / B := by
      have e : (x : Int) / (B : Int) = ((x / B : Nat) : Int) := by push_cast; rfl
      rw [e]; exact u32_natCast_le _
    have hdm : x / B * B + x % B = x := Nat.div_add_mod' x B
    refine ⟨rfl, rfl, rfl, ⟨?_, ?_, ?_⟩⟩
    · simp only [hB64, hmod]; exact hmodlt
    · simp only [wrappedPosition, blockIndex, hB, hB64', u32_add_sub, hmod]
      have ha32 := u32_lt ((x : Int) / (B : Int))
      generalize u32 ((x : Int) / (B : Int)) = a at hdiv ha32
      rw [u32_natCast_of_lt a ha32]
      have hmul : u32 ((a : Int) * (B : Int)) ≤ a * B := by
        have e : (a : Int) * (B : Int) = ((a * B : Nat) : Int) := by push_cast; rfl
        rw [e]; exact u32_natCast_le _
      have hle : a * B ≤ x / B * B := Nat.mul_le_mul_right B hdiv
      omega
    · simp only [blockIndex, hB64, u32_add_sub]
      intro h
      have ha32 := u32_lt ((x : Int) / (B : Int))
      generalize u32 ((x : Int) / (B : Int)) = a at hdiv ha32
      rw [u32_natCast_of_lt a ha32]
      have hle : a * B ≤ x / B * B := Nat.mul_le_mul_right B hdiv
      omega

theorem mk'_inv (fs : FileSystem) (fileName : String) (lbaStart : Nat) (length : Int)
    (fileType : CUE_FileType) (m : CUE_TrackMode) (B : Nat) (hB : 0 < B) (h0 : 0 ≤ length) :
    StreamInv B (mk' fs fileName lbaStart length fileType m) := by
  have hz : u32 ((lbaStart : Int) - lbaStart) = 0 := by unfold u32; omega
  refine ⟨hB, ?_, ?_⟩
  · simp only [wrappedPosition, blockIndex, mk', hz]
    simpa [u32] using h0
  · intro _
    simp only [blockIndex, mk', hz]; omega

theorem reachable_inv (fs : FileSystem) (m : CUE_TrackMode) (B : Nat)
    (hBv : B = 2048 ∨ B = 2324) (hB : blockSize m = B) (hm : m.supported = true)
    (hc : m.cooked = false) (c : CueIO) (h : Reachable fs m c) :
    c.trackMode = m ∧ 0 ≤ c.length ∧ c.length < 9223372036854775808 ∧ StreamInv B c := by
  induction h with
  | construct fileName lbaStart length fileType _ h0 hL =>
    exact ⟨rfl, h0, hL, mk'_inv fs fileName lbaStart length fileType m B
      (by rcases hBv with rfl | rfl <;> omega) h0⟩
  | read c len r _ hlen hr ih =>
    obtain ⟨hmode, h0, hL, hinv⟩ := ih
    obtain ⟨r', hr', h1, _, h3, h4⟩ := read_spec c len B hBv (by rw [hmode]; exact hB)
      (by rw [hmode]; exact hm) (by rw [hmode]; exact hc) hlen h0 hL hinv
    rw [hr] at hr'
    cases hr'
    exact ⟨by rw [h1, hmode], by rw [h3]; exact h0, by rw [h3]; exact hL, h4⟩
  | seek c offset _ _ ih =>
    obtain ⟨hmode, h0, hL, hinv⟩ := ih
    obtain ⟨h1, _, h3, h4⟩ := seek_inv c offset B hBv (by rw [hmode]; exact hB) h0 hL hinv
    exact ⟨by rw [h1, hmode], by rw [h3]; exact h0, by rw [h3]; exact hL, h4⟩

/-- On every state a stream of a non-cooked supported mode can reach, `read`
returns (the loop finishes within its fuel). -/
theorem read_total (fs : FileSystem) (m : CUE_TrackMode) (c : CueIO) (len : Nat)
    (hm : m.supported = true) (hc : m.cooked = false) (h : Reachable fs m c)
    (hlen : len < 18446744073709551616) : ∃ r, c.read len = some r := by
  rcases blockSize_cases m hm with ⟨hB, -, -⟩ | ⟨hB, -, -⟩
  · obtain ⟨hmode, h0, hL, hinv⟩ := reachable_inv fs m 2048 (Or.inl rfl) hB hm hc c h
    obtain ⟨r, hr, -⟩ := read_spec c len 2048 (Or.inl rfl) (by rw [hmode]; exact hB)
      (by rw [hmode]; exact hm) (by rw [hmode]; exact hc) hlen h0 hL hinv
    exact ⟨r, hr⟩
  · obtain ⟨hmode, h0, hL, hinv⟩ := reachable_inv fs m 2324 (Or.inr rfl) hB hm hc c h
    obtain ⟨r, hr, -⟩ := read_spec c len 2324 (Or.inr rfl) (by rw [hmode]; exact hB)
      (by rw [hmode]; exact hm) (by rw [hmode]; exact hc) hlen h0 hL hinv
    exact ⟨r, hr⟩

/-- The cooked fast path of `read`. -/
theorem read_cooked (c : CueIO) (len : Nat) (hlen : 0 < len) (hc : c.trackMode.cooked = true) :
    c.read len = some
      ⟨(c.fileStream.read (i64 len)).1.tellg - c.fileStream.tellg,
       (c.fileStream.read (i64 len)).2,
       { c with lbaCurrent := u32 (c.lbaCurrent + len / 2048),
                fileStream := (c.fileStream.read (i64 len)).1 }⟩ := by
  have h1 : c.trackMode = MODE1_2048 ∨ c.trackMode = MODE2_2048 := by
    simpa [CUE_TrackMode.cooked] using hc
  have h2 : len ≠ 0 := by omega
  simp [ CueIO.read, h1, h2]

/-- C8, counterexample: a `MODE1_2048` stream of logical length 100 over an image
of 2048 bytes; `read(2048)` delivers 2048 bytes and leaves the logical position at
2048, beyond the logical length. -/
theorem cooked_read_passes_logical_length :
    MODE1_2048.supported = true ∧
    (0 : Int) ≤ (mk' (zeroImage 2048) "image.bin" 0 100 FT_BINARY MODE1_2048).length ∧
    ∃ r, (mk' (zeroImage 2048) "image.bin" 0 100 FT_BINARY MODE1_2048).read 2048 = some r ∧
      r.ret = 2048 ∧ r.io.length = 100 ∧ r.io.logicalPosition = 2048 ∧ r.io.tell = 2048 ∧
      ¬ (r.io.logicalPosition ≤ r.io.length) := by
  refine ⟨by decide, by decide, _, read_cooked _ 2048 (by decide) (by decide), ?_, by decide,
    by decide, by decide, by decide⟩
  have hs : (mk' (zeroImage 2048) "image.bin" 0 100 FT_BINARY MODE1_2048).fileStream
      = ⟨List.replicate 2048 0, 0, false⟩ := rfl
  have hi : i64 ((2048 : Nat) : Int) = ((2048 : Nat) : Int) := by decide
  simp only [hs, hi]
  rw [IfStream.read_full _ 2048 rfl (by simp only [List.length_replicate]; omega)]
  decide

/-- C8, amended: for every non-cooked supported track mode and every stream
constructed with logical length `≥ 0`, after construction and after any sequence
of `read` and `seek` calls the logical position
`blockSize * (lbaCurrent - lbaStart) + posInLba` that `tell()` reports is at most
the logical length; when the length is below `2^32` the same holds of the
position computed without 32-bit wrap-around. -/
theorem logical_position_le_length (fs : FileSystem) (m : CUE_TrackMode) (c : CueIO)
    (hm : m.supported = true) (hc : m.cooked = false) (h : Reachable fs m c) :
    c.tell ≤ c.length ∧ (c.length < 4294967296 → c.logicalPosition ≤ c.length) := by
  rcases blockSize_cases m hm with ⟨hB, -, -⟩ | ⟨hB, -, -⟩
  · obtain ⟨hmode, h0, hL, hinv⟩ := reachable_inv fs m 2048 (Or.inl rfl) hB hm hc c h
    have hw := hinv.wrapped
    have he := hinv.exact
    simp only [wrappedPosition, CueIO.tell, logicalPosition, blockIndex, hmode, hB] at hw he ⊢
    constructor
    · unfold u32 at hw ⊢; omega
    · intro hl; have := he hl; unfold u32 at hw this ⊢; omega
  · obtain ⟨hmode, h0, hL, hinv⟩ := reachable_inv fs m 2324 (Or.inr rfl) hB hm hc c h
    have hw := hinv.wrapped
    have he := hinv.exact
    simp only [wrappedPosition, CueIO.tell, logicalPosition, blockIndex, hmode, hB] at hw he ⊢
    constructor
    · unfold u32 at hw ⊢; omega
    · intro hl; have := he hl; unfold u32 at hw this ⊢; omega

/-- Witness for C8: a `MODE1_2352` stream of length 4096 after `seek(100)`. -/
theorem logical_position_le_length_witness :
    ((mk' (zeroImage 0) "image.bin" 16 4096 FT_BINARY MODE1_2352).seek 100).2.tell
      ≤ ((mk' (zeroImage 0) "image.bin" 16 4096 FT_BINARY MODE1_2352).seek 100).2.length ∧
    (((mk' (zeroImage 0) "image.bin" 16 4096 FT_BINARY MODE1_2352).seek 100).2.length
        < 4294967296 →
      ((mk' (zeroImage 0) "image.bin" 16 4096 FT_BINARY MODE1_2352).seek 100).2.logicalPosition
        ≤ ((mk' (zeroImage 0) "image.bin" 16 4096 FT_BINARY MODE1_2352).seek 100).2.length) :=
  logical_position_le_length (zeroImage 0) MODE1_2352 _ (by decide) (by decide)
    (Reachable.seek _ 100
      (Reachable.construct "image.bin" 16 4096 FT_BINARY (by decide) (by decide) (by decide))
      (by decide))

/-! ## `read`: clamping of the requested length -/

theorem IfStream.seekg_of_nonneg (s : IfStream) (off : Int) (hf : s.failed = false)
    (h : 0 ≤ off) : s.seekg off = { s with cursor := off.toNat } := by
  have : ¬ off < 0 := by omega
  simp [IfStream.seekg, hf, this]

theorem IfStream.read_bytes (s : IfStream) (n : Nat) (hf : s.failed = false) :
    (s.read (n : Int)).2 = (s.image.drop s.cursor).take n := by
  have : ¬ ((n : Int) < 0) := by omega
  simp [IfStream.read, hf, this]

/-- Reading exactly one block of user data from the start of a block. -/
theorem read_one_block (c : CueIO) (B : Nat) (hBv : B = 2048 ∨ B = 2324)
    (hB : blockSize c.trackMode = B) (hc : c.trackMode.cooked = false)
    (hp : c.posInLba = 0) (hrem : (B : Int) ≤ c.remainLength)
    (hL : c.length < 9223372036854775808) (hfail : c.fileStream.failed = false) :
    ∃ r, c.read B = some r ∧
      r.bytes = (c.fileStream.image.drop c.fileStream.cursor).take B ∧
      (c.fileStream.cursor + B ≤ c.fileStream.image.length → r.ret = B) := by
  have hB32 : B < 4294967296 := by rcases hBv with rfl | rfl <;> omega
  have hBpos : 0 < B := by rcases hBv with rfl | rfl <;> omega
  have hB' : u32 (blockSize c.trackMode) = B := by rw [hB]; unfold u32; omega
  have h1 : ¬ (c.trackMode = MODE1_2048 ∨ c.trackMode = MODE2_2048) := by
    simpa [CUE_TrackMode.cooked] using hc
  have h0 : B ≠ 0 := by omega
  have hr' : ¬ (c.remainLength < 0) := by omega
  have hrw := remainLength_eq c
  have hu : (u64 c.remainLength : Int) = c.remainLength := u64_of_lt (by omega) (by omega)
  have hn : ¬ (B > u64 c.remainLength) := by omega
  simp only [ CueIO.read, if_neg h0, if_neg h1, if_neg hr', if_neg hn, readLoop]
  have hmin : min (B - 0) (B - c.posInLba) = B := by omega
  have hbytes := IfStream.read_bytes c.fileStream B hfail
  by_cases hs : (c.fileStream.read ((min (B - 0) (B - c.posInLba) : Nat) : Int)).2.length
      = min (B - 0) (B - c.posInLba)
  · have e := readBody_cross c B 0 [] B hB hB32 hB' (by omega) (by omega) (by omega) hs
      (by omega)
    rw [Nat.cast_zero] at e
    rw [e]
    have hgt : ¬ (B > 0 + B) := by omega
    simp only [hp, Nat.sub_zero, List.nil_append, hbytes, if_neg hgt]
    exact ⟨_, rfl, rfl, fun _ => rfl⟩
  · have e := readBody_short c B 0 [] B hB hB32 (by omega) (by omega) (by omega) hs
    rw [Nat.cast_zero] at e
    rw [e]
    rw [hmin] at hs ⊢
    simp only [List.nil_append, hbytes]
    refine ⟨_, rfl, rfl, fun h => ?_⟩
    exfalso
    apply hs
    rw [hbytes]
    simp only [List.length_take, List.length_drop]
    omega

theorem seek_read_block (c : CueIO) (k B : Nat) (hBv : B = 2048 ∨ B = 2324)
    (hB : blockSize c.trackMode = B) (hm : c.trackMode.supported = true)
    (hc : c.trackMode.cooked = false) (hlen : ((k * B + B : Nat) : Int) ≤ c.length)
    (hL : c.length < 9223372036854775808) (hk : k * B + B < 4294967296)
    (hfail : c.fileStream.failed = false) :
    ∃ r, (c.seek (k * B)).2.read B = some r ∧
      r.bytes = (c.fileStream.image.drop
        (lbaToByteOffset c.trackMode (u32 ((c.lbaStart : Int) + k))).toNat).take B ∧
      ((lbaToByteOffset c.trackMode (u32 ((c.lbaStart : Int) + k))).toNat + B
          ≤ c.fileStream.image.length → r.ret = B) := by
  have hB32 : B < 4294967296 := by rcases hBv with rfl | rfl <;> omega
  have hBpos : 0 < B := by rcases hBv with rfl | rfl <;> omega
  have hdiv : k * B / B = k := Nat.mul_div_cancel k hBpos
  have hmod : k * B % B = 0 := Nat.mul_mod_left k B
  have hlbo := lbaToByteOffset_nonneg c.trackMode (u32 ((c.lbaStart : Int) + k)) hm
  rw [seek_state c (k * B) B hBv hB (by omega) hL (by omega) hm]
  simp only [hdiv, hmod]
  rw [IfStream.seekg_of_nonneg _ _ hfail (by simpa using hlbo)]
  simp only [Nat.cast_zero, add_zero]
  have hkB : u32 (((k : Nat) : Int) * (B : Int)) = k * B := by
    have : ((k : Int) * (B : Int)) = ((k * B : Nat) : Int) := by push_cast; rfl
    rw [this]; exact u32_natCast_of_lt _ (by omega)
  have hk32 : u32 ((k : Nat) : Int) = k := u32_natCast_of_lt _ (by
    rcases hBv with rfl | rfl <;> omega)
  exact read_one_block _ B hBv hB hc rfl
    (by
      rw [remainLength_eq]
      simp only [wrappedPosition, blockIndex, u32_add_sub, hB, hk32, hkB]
      push_cast at hlen ⊢
      omega)
    hL hfail

theorem markedImage_length : markedImage.length = 4704 := by
  simp only [markedImage, List.length_append, List.length_replicate]

theorem markedImage_at_2072 : ((markedImage.drop 2072).take 2048).head? = some 0 := by
  rw [List.head?_take, if_neg (by decide), List.head?_drop, markedImage,
    List.getElem?_append_left (by simp only [List.length_replicate]; omega),
    List.getElem?_replicate, if_pos (by omega)]

theorem markedImage_at_2376 : ((markedImage.drop 2376).take 2048).head? = some 1 := by
  rw [List.head?_take, if_neg (by decide), List.head?_drop, markedImage,
    List.getElem?_append_right (by simp only [List.length_replicate]; omega),
    List.getElem?_replicate, if_pos (by simp only [List.length_replicate]; omega)]

/-- C3 (as the code behaves): a `MODE2_2352` stream with start block `s = 0` and
logical length 4096 over `markedImage` (two whole raw sectors); block index
`k = 1`.  `seek(1 * 2048)` followed by `read(2048)` returns 2048 bytes, but they
are the image bytes from position `1 * 2048 + 24 = 2072` on (the first of them
is 0, a byte of the tail of sector 0), not the bytes from
`(0 + 1) * 2352 + 24 = 2376` on (the user data of sector 1, whose first byte
is 1). -/
theorem seek_read_mode2_2352_wrong_bytes :
    markedImage.length = 2 * 2352 ∧
    (0 + 1) * binBlockSize MODE2_2352 + binDataOffset MODE2_2352 = 2376 ∧
    ((markedImage.drop 2376).take 2048).head? = some 1 ∧
    ∃ r, ((mk' markedFs "image.bin" 0 4096 FT_BINARY MODE2_2352).seek (1 * 2048)).2.read 2048
        = some r ∧
      r.ret = 2048 ∧ r.bytes = (markedImage.drop 2072).take 2048 ∧ r.bytes.head? = some 0 := by
  refine ⟨markedImage_length, by decide, markedImage_at_2376, ?_⟩
  obtain ⟨r, h, hb, hret⟩ := seek_read_block
    (mk' markedFs "image.bin" 0 4096 FT_BINARY MODE2_2352) 1 2048 (Or.inl rfl) rfl (by decide)
    (by decide) (by decide) (by decide) (by decide) (by decide)
  have himg : (mk' markedFs "image.bin" 0 4096 FT_BINARY MODE2_2352).fileStream.image
      = markedImage := rfl
  have hoff : (lbaToByteOffset (mk' markedFs "image.bin" 0 4096 FT_BINARY MODE2_2352).trackMode
      (u32 (((mk' markedFs "image.bin" 0 4096 FT_BINARY MODE2_2352).lbaStart : Int)
        + ((1 : Nat) : Int)))).toNat = 2072 := by decide
  rw [himg, hoff] at hb hret
  refine ⟨r, h, ?_, hb, ?_⟩
  · exact hret (by rw [markedImage_length]; omega)
  · rw [hb]; exact markedImage_at_2072

/-! ## Duplicating a stream -/

/-- The copy constructor copies the five logical fields and the path. -/
theorem copy_fields (fs : FileSystem) (other : CueIO) :
    (copy fs other).lbaStart = other.lbaStart ∧ (copy fs other).lbaCurrent = other.lbaCurrent ∧
    (copy fs other).posInLba = other.posInLba ∧ (copy fs other).length = other.length ∧
    (copy fs other).trackMode = other.trackMode ∧ (copy fs other).imageFile = other.imageFile :=
  ⟨rfl, rfl, rfl, rfl, rfl, rfl⟩

/-- C10 (as the code behaves): a `MODE1_2048` stream with `lbaStart = 0` that has
been moved to logical offset 2048 (`lbaCurrent = 1`, `posInLba = 0`, file cursor
2048).  Its copy has the same logical fields and `tell()`, but the copy's file
cursor is at `lbaToByteOffset(lbaStart) + posInLba = 0`, not at
`lbaToByteOffset(lbaCurrent) + posInLba = 2048`. -/
theorem copy_cursor_at_start_block :
    ((mk' (zeroImage 0) "image.bin" 0 4096 FT_BINARY MODE1_2048).seek 2048).2.lbaCurrent = 1 ∧
    ((mk' (zeroImage 0) "image.bin" 0 4096 FT_BINARY MODE1_2048).seek 2048).2.posInLba = 0 ∧
    ((mk' (zeroImage 0) "image.bin" 0 4096 FT_BINARY MODE1_2048).seek 2048).2.fileStream.cursor
      = 2048 ∧
    (copy (zeroImage 0)
      ((mk' (zeroImage 0) "image.bin" 0 4096 FT_BINARY MODE1_2048).seek 2048).2).lbaCurrent = 1 ∧
    (copy (zeroImage 0)
      ((mk' (zeroImage 0) "image.bin" 0 4096 FT_BINARY MODE1_2048).seek 2048).2).tell = 2048 ∧
    lbaToByteOffset MODE1_2048 1 + ((0 : Nat) : Int) = 2048 ∧
    (copy (zeroImage 0)
      ((mk' (zeroImage 0) "image.bin" 0 4096 FT_BINARY MODE1_2048).seek 2048).2).fileStream.cursor
      = 0 := by
  decide

/-- C9 (as the code behaves): for every handle `io` backed by a stream `c`,
`CueIO_duplicate(io)` returns a handle whose object pointer is null (so it has no
`tell()`), and it is the handle passed in that is re-pointed to the freshly
copied stream: afterwards `io` is no longer backed by its own stream object. -/
theorem CueIO_duplicate_returns_null_handle (fs : FileSystem) (heap : Heap) (io : PHYSFS_Io)
    (a : Nat) (c : CueIO) (ha : io.object = some a) (hc : heap[a]? = some c) :
    ∃ r, CueIO_duplicate fs heap io = some r ∧
      r.retval.object = none ∧ CueIO_tell r.heap r.retval = none ∧
      r.io.object = some heap.length ∧ r.io.object ≠ io.object ∧
      r.io.deref r.heap = some (copy fs c) := by
  have hlt : a < heap.length := by
    rcases Nat.lt_or_ge a heap.length with h | h
    · exact h
    · rw [List.getElem?_eq_none h] at hc; cases hc
  have hd : io.deref heap = some c := by simp [PHYSFS_Io.deref, ha, hc]
  refine ⟨⟨heap ++ [copy fs c], ⟨some heap.length⟩, createIo⟩,
    by simp only [ CueIO_duplicate, hd], rfl, rfl, rfl, ?_, ?_⟩
  · simp only [ha, ne_eq, Option.some.injEq]; omega
  · simp [PHYSFS_Io.deref]

/-- Witness for C9: the heap holds one `MODE1_2352` stream at address 0 and the
handle points to it. -/
theorem CueIO_duplicate_returns_null_handle_witness :
    ∃ r, CueIO_duplicate (zeroImage 0)
        [mk' (zeroImage 0) "image.bin" 16 4096 FT_BINARY MODE1_2352] ⟨some 0⟩ = some r ∧
      r.retval.object = none ∧ CueIO_tell r.heap r.retval = none ∧
      r.io.object
        = some [mk' (zeroImage 0) "image.bin" 16 4096 FT_BINARY MODE1_2352].length ∧
      r.io.object ≠ (⟨some 0⟩ : PHYSFS_Io).object ∧
      r.io.deref r.heap
        = some (copy (zeroImage 0) (mk' (zeroImage 0) "image.bin" 16 4096 FT_BINARY MODE1_2352)) :=
  CueIO_duplicate_returns_null_handle (zeroImage 0)
    [mk' (zeroImage 0) "image.bin" 16 4096 FT_BINARY MODE1_2352] ⟨some 0⟩ 0
    (mk' (zeroImage 0) "image.bin" 16 4096 FT_BINARY MODE1_2352) rfl rfl

/-! ## The regular-expression matcher: first match -/

theorem repRun_append_all (cls : Nat → Bool) (min : Nat) (T : Str) :
    ∀ (f : Str) (k : Nat), (∀ c ∈ f, cls c = true) →
      ∃ Z, repRun cls min none k (f ++ T) = repRun cls min none (k + f.length) T ++ Z := by
  intro f
  induction f with
  | nil => intro k _; exact ⟨[], by simp⟩
  | cons c f ih =>
    intro k h
    obtain ⟨Z, hZ⟩ := ih (k + 1) (fun d hd => h d (List.mem_cons_of_mem _ hd))
    refine ⟨Z ++ (if min ≤ k then [c :: (f ++ T)] else []), ?_⟩
    have hc : cls c = true := h c (List.mem_cons_self _ _)
    have e : k + 1 + f.length = k + (f.length + 1) := by omega
    rw [e] at hZ
    simp only [List.cons_append, repRun, hc, Bool.and_self, if_true, List.length_cons]
    rw [show f.append T = f ++ T from rfl, hZ, List.append_assoc]

theorem repRun_head_nil (cls : Nat → Bool) (min : Nat) (f : Str) (k : Nat)
    (h : ∀ c ∈ f, cls c = true) (hmin : min ≤ k + f.length) :
    (repRun cls min none k f).head? = some [] := by
  obtain ⟨Z, hZ⟩ := repRun_append_all cls min [] f k h
  rw [List.append_nil] at hZ
  rw [hZ]
  simp [repRun, hmin]

theorem run_seq_head (a b : Regex) (st st1 st2 : MatchState)
    (h1 : (a.run st).head? = some st1) (h2 : (b.run st1).head? = some st2) :
    ((Regex.seq a b).run st).head? = some st2 := by
  simp only [Regex.run]
  cases hl : a.run st with
  | nil => rw [hl] at h1; cases h1
  | cons x xs =>
    rw [hl] at h1
    simp only [List.head?_cons, Option.some.injEq] at h1
    subst h1
    cases hb : b.run x with
    | nil => rw [hb] at h2; cases h2
    | cons y ys =>
      rw [hb] at h2
      simp only [List.head?_cons, Option.some.injEq] at h2
      subst h2
      simp [List.flatMap_cons, hb]

theorem run_seq_skip (a b : Regex) (st x st2 : MatchState) (pre post : List MatchState)
    (h : a.run st = pre ++ x :: post) (hpre : ∀ y ∈ pre, b.run y = [])
    (h2 : (b.run x).head? = some st2) :
    ((Regex.seq a b).run st).head? = some st2 := by
  simp only [Regex.run, h, List.flatMap_append, List.flatMap_cons]
  have : pre.flatMap b.run = [] := by
    simp only [List.flatMap_eq_nil_iff]
    exact hpre
  rw [this, List.nil_append]
  cases hb : b.run x with
  | nil => rw [hb] at h2; cases h2
  | cons y ys =>
    rw [hb] at h2
    simp only [List.head?_cons, Option.some.injEq] at h2
    subst h2
    simp

theorem run_group_head (i : Nat) (a : Regex) (st st' : MatchState)
    (h : (a.run st).head? = some st') :
    ((Regex.group i a).run st).head?
      = some { st' with caps := (i, st.rest.take (st.rest.length - st'.rest.length)) :: st'.caps } := by
  simp only [Regex.run, List.head?_map, h, Option.map_some']

theorem run_rep_head (cls : Nat → Bool) (min : Nat) (max : Option Nat) (st : MatchState) (r : Str)
    (h : (repRun cls min max 0 st.rest).head? = some r) :
    ((Regex.rep cls min max).run st).head? = some { st with rest := r } := by
  simp only [Regex.run, List.head?_map, h, Option.map_some']

theorem search_of_head (re : Regex) (s : Str) (m : MatchState)
    (h : (re.run ⟨s, []⟩).head? = some m) : re.search s = some m := by
  cases s with
  | nil => simpa [Regex.search] using h
  | cons c t => simp [Regex.search, h]

theorem bytesOf_file_line (f : Str) :
    bytesOf "FILE \"" ++ f ++ bytesOf "\" BINARY"
      = 70 :: 73 :: 76 :: 69 :: 32 :: 34 :: (f ++ [34, 32, 66, 73, 78, 65, 82, 89]) := by
  have h1 : bytesOf "FILE \"" = [70, 73, 76, 69, 32, 34] := by decide
  have h2 : bytesOf "\" BINARY" = [34, 32, 66, 73, 78, 65, 82, 89] := by decide
  rw [h1, h2]; simp

/-- `commandRegex` on the line `FILE "f" BINARY`. -/
theorem commandRegex_file_line (f : Str) (h10 : 10 ∉ f) (h13 : 13 ∉ f) :
    commandRegex.search (bytesOf "FILE \"" ++ f ++ bytesOf "\" BINARY")
      = some ⟨[], [(2, 34 :: (f ++ [34, 32, 66, 73, 78, 65, 82, 89])), (1, [70, 73, 76, 69])]⟩ := by
  rw [bytesOf_file_line]
  apply search_of_head
  have hdot : ∀ c ∈ 34 :: (f ++ [34, 32, 66, 73, 78, 65, 82, 89]), isDot c = true := by
    intro c hc
    simp only [List.mem_cons, List.mem_append, List.not_mem_nil, or_false] at hc
    have : c ≠ 10 ∧ c ≠ 13 := by
      rcases hc with rfl | hc | rfl | rfl | rfl | rfl | rfl | rfl | rfl | rfl
      · decide
      · exact ⟨fun e => h10 (e ▸ hc), fun e => h13 (e ▸ hc)⟩
      all_goals decide
    simpa [isDot] using this
  have h1 := run_group_head 1 (.rep isWord 1 none)
    ⟨70 :: 73 :: 76 :: 69 :: 32 :: 34 :: (f ++ [34, 32, 66, 73, 78, 65, 82, 89]), []⟩ _
    (run_rep_head isWord 1 none _ (32 :: 34 :: (f ++ [34, 32, 66, 73, 78, 65, 82, 89]))
      (by simp [repRun, isWord]))
  have h2 := run_rep_head isSpace 1 none
    ⟨32 :: 34 :: (f ++ [34, 32, 66, 73, 78, 65, 82, 89]),
      [(1, [70, 73, 76, 69])]⟩ (34 :: (f ++ [34, 32, 66, 73, 78, 65, 82, 89]))
    (by simp [repRun, isSpace])
  have h3 := run_group_head 2 (.rep isDot 0 none)
    ⟨34 :: (f ++ [34, 32, 66, 73, 78, 65, 82, 89]), [(1, [70, 73, 76, 69])]⟩ _
    (run_rep_head isDot 0 none _ []
      (repRun_head_nil isDot 0 _ 0 hdot (Nat.zero_le _)))
  have h1' : ((Regex.group 1 (.rep isWord 1 none)).run
      ⟨70 :: 73 :: 76 :: 69 :: 32 :: 34 :: (f ++ [34, 32, 66, 73, 78, 65, 82, 89]), []⟩).head?
      = some ⟨32 :: 34 :: (f ++ [34, 32, 66, 73, 78, 65, 82, 89]), [(1, [70, 73, 76, 69])]⟩ := by
    rw [h1]; simp
  have h3' : ((Regex.group 2 (.rep isDot 0 none)).run
      ⟨34 :: (f ++ [34, 32, 66, 73, 78, 65, 82, 89]), [(1, [70, 73, 76, 69])]⟩).head?
      = some ⟨[], [(2, 34 :: (f ++ [34, 32, 66, 73, 78, 65, 82, 89])), (1, [70, 73, 76, 69])]⟩ := by
    rw [h3]; simp
  exact run_seq_head _ _ _ _ _ h1' (run_seq_head _ _ _ _ _ h2 h3')

theorem repRun_opt_taken (cls : Nat → Bool) (R : Str) : repRun cls 0 (some 1) 1 R = [R] := by
  cases R <;> simp [repRun]

/-- `fileArgRegex` on the argument `"f" BINARY`: the greedy `.+` is cut back to
`f`, the only place where the closing quote follows. -/
theorem fileArgRegex_quoted (f : Str) (hne : f ≠ []) (h34 : 34 ∉ f) (h10 : 10 ∉ f)
    (h13 : 13 ∉ f) :
    fileArgRegex.search (34 :: (f ++ [34, 32, 66, 73, 78, 65, 82, 89]))
      = some ⟨[], [(3, [66, 73, 78, 65, 82, 89]), (2, f), (1, [34])]⟩ := by
  apply search_of_head
  have hK : 1 ≤ f.length := by
    cases f with
    | nil => exact absurd rfl hne
    | cons c t => simp
  have hdot : ∀ c ∈ f, isDot c = true := by
    intro c hc
    have : c ≠ 10 ∧ c ≠ 13 := ⟨fun e => h10 (e ▸ hc), fun e => h13 (e ▸ hc)⟩
    simpa [isDot] using this
  -- group 1: the opening quote
  have g1 : ((Regex.group 1 (.rep isQuote 0 (some 1))).run
      ⟨34 :: (f ++ [34, 32, 66, 73, 78, 65, 82, 89]), []⟩).head?
      = some ⟨f ++ [34, 32, 66, 73, 78, 65, 82, 89], [(1, [34])]⟩ := by
    rw [run_group_head 1 _ _ _ (run_rep_head isQuote 0 (some 1) _
      (f ++ [34, 32, 66, 73, 78, 65, 82, 89])
      (by simp [repRun, isQuote, repRun_opt_taken]))]
    simp
  -- group 2: all the ways `.+` can match, longest first
  obtain ⟨Z, hZ⟩ := repRun_append_all isDot 1 [34, 32, 66, 73, 78, 65, 82, 89] f 0 hdot
  have hT : repRun isDot 1 none (0 + f.length) [34, 32, 66, 73, 78, 65, 82, 89]
      = [[], [89], [82, 89], [65, 82, 89], [78, 65, 82, 89], [73, 78, 65, 82, 89],
         [66, 73, 78, 65, 82, 89], [32, 66, 73, 78, 65, 82, 89]]
        ++ [[34, 32, 66, 73, 78, 65, 82, 89]] := by
    simp [repRun, isDot, hK]
  -- the state a candidate of `.+` leads to
  have hrun : (Regex.group 2 (.rep isDot 1 none)).run
        ⟨f ++ [34, 32, 66, 73, 78, 65, 82, 89], [(1, [34])]⟩
      = ([[], [89], [82, 89], [65, 82, 89], [78, 65, 82, 89], [73, 78, 65, 82, 89],
          [66, 73, 78, 65, 82, 89], [32, 66, 73, 78, 65, 82, 89]].map
          (fun r => (⟨r, [(2, (f ++ [34, 32, 66, 73, 78, 65, 82, 89]).take
              ((f ++ [34, 32, 66, 73, 78, 65, 82, 89]).length - r.length)), (1, [34])]⟩ :
            MatchState)))
        ++ ⟨[34, 32, 66, 73, 78, 65, 82, 89], [(2, f), (1, [34])]⟩
          :: Z.map (fun r => (⟨r, [(2, (f ++ [34, 32, 66, 73, 78, 65, 82, 89]).take
              ((f ++ [34, 32, 66, 73, 78, 65, 82, 89]).length - r.length)), (1, [34])]⟩ :
            MatchState)) := by
    simp only [Regex.run, hZ, hT, List.map_append, List.map_map, List.map_cons, List.map_nil,
      List.append_assoc, List.singleton_append, Function.comp]
    simp
  -- after `.+`: the back-reference, the blank and the type word
  have hb : ((Regex.seq (.backref 1) (.seq (.rep isSpace 1 none)
        (.group 3 (.rep isWord 1 none)))).run
        ⟨[34, 32, 66, 73, 78, 65, 82, 89], [(2, f), (1, [34])]⟩).head?
      = some ⟨[], [(3, [66, 73, 78, 65, 82, 89]), (2, f), (1, [34])]⟩ := by
    simp [Regex.run, List.lookup, dropLeading, repRun, isSpace, isWord]
  refine run_seq_head _ _ _ _ _ g1 (run_seq_skip _ _ _ _ _ _ _ hrun ?_ hb)
  intro y hy
  simp only [List.map_cons, List.map_nil, List.mem_cons, List.not_mem_nil, or_false] at hy
  rcases hy with rfl | rfl | rfl | rfl | rfl | rfl | rfl | rfl <;>
    simp [Regex.run, List.lookup, dropLeading]

/-! ## `CueParser`: theorems -/

section Parser

open CueParser

/-- Once the parser is in `PARSER_FINISH` or `PARSER_ERROR`, no further line
changes it. -/
theorem parseLines_terminal (p : CueParser)
    (h : p.parserState = PARSER_FINISH ∨ p.parserState = PARSER_ERROR) (ls : List Str) :
    p.parseLines ls = some p := by
  induction ls with
  | nil => rfl
  | cons l ls ih =>
    have hd : ∀ c a, p.dispatch c a = some p := by
      intro c a
      rcases h with h | h <;> simp [dispatch, h]
    simp only [parseLines]
    cases hs : commandRegex.search l with
    | none => simpa using ih
    | some m => simp [hd, h]

/-- C14: the parser consumes only the first FILE/TRACK/INDEX triple.  For every
parser `p`, every list of lines `A` on which parsing ends in `PARSER_FINISH` or
`PARSER_ERROR` and every list of lines `B`, parsing `A` followed by `B` gives
the same parser (state, hence validity, `dataFileName`, `fileType` and
`trackMode`) as parsing `A` alone; in particular for the parser the constructor
starts with. -/
theorem parseLines_append_of_terminal (p p' : CueParser) (A B : List Str)
    (hA : p.parseLines A = some p')
    (ht : p'.parserState = PARSER_FINISH ∨ p'.parserState = PARSER_ERROR) :
    p.parseLines (A ++ B) = some p' := by
  induction A generalizing p with
  | nil =>
    simp only [parseLines, Option.some.injEq] at hA
    subst hA
    exact parseLines_terminal p ht B
  | cons l A ih =>
    simp only [List.cons_append, parseLines] at hA ⊢
    cases hs : commandRegex.search l with
    | none =>
      rw [hs] at hA
      exact ih p hA
    | some m =>
      rw [hs] at hA
      simp only at hA ⊢
      cases hd : p.dispatch (m.sub 1) (m.sub 2) with
      | none => rw [hd] at hA; cases hA
      | some q =>
        rw [hd] at hA
        simp only at hA ⊢
        by_cases hq : q.parserState = PARSER_FINISH ∨ q.parserState = PARSER_ERROR
        · rw [if_pos hq] at hA ⊢; exact hA
        · rw [if_neg hq] at hA ⊢; exact ih q hA

/-- Witness for C14: a sheet with two FILE/TRACK/INDEX triples; the second one
(another file, another mode) has no effect. -/
theorem parseLines_append_of_terminal_witness :
    fresh.parseLines
      ([bytesOf "FILE \"game.bin\" BINARY", bytesOf "  TRACK 01 MODE2/2352",
          bytesOf "    INDEX 01 00:00:00"]
        ++ [bytesOf "FILE \"other.bin\" BINARY", bytesOf "  TRACK 02 MODE1/2048",
          bytesOf "    INDEX 01 00:00:00"])
      = some ⟨PARSER_FINISH, bytesOf "game.bin", FT_BINARY, MODE2_2352⟩ :=
  parseLines_append_of_terminal fresh _ _ _ (by decide) (by decide)

/-- C12: a FILE command met in the `PARSER_START` state whose arguments match
`fileArgRegex`.  If the upper-cased type word is not `BINARY`, the parser goes to
`PARSER_ERROR` with `fileType = FT_UNDEFINED`, and parsing stops there whatever
lines follow, invalid.  If the upper-cased type word is `BINARY` (the type word
in any letter case), the line takes the parser to `PARSER_FILE` with
`fileType = FT_BINARY`. -/
theorem file_type_must_be_binary (p : CueParser) (cueLine : Str) (rest : List Str)
    (mc m : MatchState) (hs : p.parserState = PARSER_START)
    (hc : commandRegex.search cueLine = some mc) (hcmd : toUpper (mc.sub 1) = bytesOf "FILE")
    (ha : fileArgRegex.search (mc.sub 2) = some m) :
    (toUpper (m.sub 3) ≠ bytesOf "BINARY" →
      ∃ p', p.parseLines (cueLine :: rest) = some p' ∧ p'.parserState = PARSER_ERROR ∧
        p'.isValid = false ∧ p'.fileType = FT_UNDEFINED) ∧
    (toUpper (m.sub 3) = bytesOf "BINARY" →
      ∃ p', p.dispatch (mc.sub 1) (mc.sub 2) = some p' ∧ p'.parserState = PARSER_FILE ∧
        p'.fileType = FT_BINARY ∧
        p.parseLines (cueLine :: rest) = p'.parseLines rest) := by
  constructor
  · intro ht
    refine ⟨{ p with dataFileName := m.sub 2, parserState := PARSER_ERROR,
                     fileType := FT_UNDEFINED }, ?_, rfl, rfl, rfl⟩
    simp [parseLines, hc, dispatch, hs, parseStart, hcmd, ha, ht]
  · intro ht
    refine ⟨{ p with dataFileName := m.sub 2, parserState := PARSER_FILE,
                     fileType := FT_BINARY }, ?_, rfl, rfl, ?_⟩
    · simp [dispatch, hs, parseStart, hcmd, ha, ht]
    · simp [parseLines, hc, dispatch, hs, parseStart, hcmd, ha, ht]

/-- Witness for C12: the line `FILE "game.bin" WAVE`. -/
theorem file_type_must_be_binary_witness :
    (toUpper ((⟨[], [(3, bytesOf "WAVE"), (2, bytesOf "game.bin"), (1, bytesOf "\"")]⟩ :
        MatchState).sub 3) ≠ bytesOf "BINARY" →
      ∃ p', fresh.parseLines (bytesOf "FILE \"game.bin\" WAVE" :: []) = some p' ∧
        p'.parserState = PARSER_ERROR ∧ p'.isValid = false ∧ p'.fileType = FT_UNDEFINED) ∧
    (toUpper ((⟨[], [(3, bytesOf "WAVE"), (2, bytesOf "game.bin"), (1, bytesOf "\"")]⟩ :
        MatchState).sub 3) = bytesOf "BINARY" →
      ∃ p', fresh.dispatch
          ((⟨[], [(2, bytesOf "\"game.bin\" WAVE"), (1, bytesOf "FILE")]⟩ : MatchState).sub 1)
          ((⟨[], [(2, bytesOf "\"game.bin\" WAVE"), (1, bytesOf "FILE")]⟩ : MatchState).sub 2)
          = some p' ∧
        p'.parserState = PARSER_FILE ∧ p'.fileType = FT_BINARY ∧
        fresh.parseLines (bytesOf "FILE \"game.bin\" WAVE" :: []) = p'.parseLines []) :=
  file_type_must_be_binary fresh (bytesOf "FILE \"game.bin\" WAVE") []
    ⟨[], [(2, bytesOf "\"game.bin\" WAVE"), (1, bytesOf "FILE")]⟩
    ⟨[], [(3, bytesOf "WAVE"), (2, bytesOf "game.bin"), (1, bytesOf "\"")]⟩
    (by decide) (by decide) (by decide) (by decide)

/-- The mode strings and the track modes they stand for. -/
theorem modeOfString_table :
    modeOfString (bytesOf "MODE1/2048") = MODE1_2048 ∧
    modeOfString (bytesOf "MODE1/2352") = MODE1_2352 ∧
    modeOfString (bytesOf "MODE2/2048") = MODE2_2048 ∧
    modeOfString (bytesOf "MODE2/2324") = MODE2_2324 ∧
    modeOfString (bytesOf "MODE2/2336") = MODE2_2336 ∧
    modeOfString (bytesOf "MODE2/2352") = MODE2_2352 := by
  decide

theorem modeOfString_undefined (s : Str)
    (h : s ≠ bytesOf "MODE1/2048" ∧ s ≠ bytesOf "MODE1/2352" ∧ s ≠ bytesOf "MODE2/2048" ∧
      s ≠ bytesOf "MODE2/2324" ∧ s ≠ bytesOf "MODE2/2336" ∧ s ≠ bytesOf "MODE2/2352") :
    modeOfString s = MODE_UNDEFINED := by
  obtain ⟨h1, h2, h3, h4, h5, h6⟩ := h
  simp [modeOfString, h1, h2, h3, h4, h5, h6]

/-- C13: a TRACK command met in the `PARSER_FILE` state whose arguments match
`trackArgRegex` (`n mode`, `n` one or two digits).  Whatever the track number:
if the upper-cased mode string is one of the six supported ones, the line takes
the parser to `PARSER_TRACK` with the corresponding track mode; for any other
mode string the parser goes to `PARSER_ERROR` and parsing stops there, invalid. -/
theorem track_mode_string (p : CueParser) (cueLine : Str) (rest : List Str)
    (mc m : MatchState) (hs : p.parserState = PARSER_FILE)
    (hc : commandRegex.search cueLine = some mc) (hcmd : toUpper (mc.sub 1) = bytesOf "TRACK")
    (ha : trackArgRegex.search (mc.sub 2) = some m) :
    (∀ str mode, (str, mode) ∈
        [(bytesOf "MODE1/2048", MODE1_2048), (bytesOf "MODE1/2352", MODE1_2352),
         (bytesOf "MODE2/2048", MODE2_2048), (bytesOf "MODE2/2324", MODE2_2324),
         (bytesOf "MODE2/2336", MODE2_2336), (bytesOf "MODE2/2352", MODE2_2352)] →
      toUpper (m.sub 2) = str →
      ∃ p', p.dispatch (mc.sub 1) (mc.sub 2) = some p' ∧ p'.parserState = PARSER_TRACK ∧
        p'.trackMode = mode ∧ p.parseLines (cueLine :: rest) = p'.parseLines rest) ∧
    ((∀ str mode, (str, mode) ∈
        [(bytesOf "MODE1/2048", MODE1_2048), (bytesOf "MODE1/2352", MODE1_2352),
         (bytesOf "MODE2/2048", MODE2_2048), (bytesOf "MODE2/2324", MODE2_2324),
         (bytesOf "MODE2/2336", MODE2_2336), (bytesOf "MODE2/2352", MODE2_2352)] →
        toUpper (m.sub 2) ≠ str) →
      ∃ p', p.parseLines (cueLine :: rest) = some p' ∧ p'.parserState = PARSER_ERROR ∧
        p'.isValid = false) := by
  constructor
  · intro str mode hmem hstr
    have hmode : modeOfString (toUpper (m.sub 2)) = mode ∧ mode ≠ MODE_UNDEFINED := by
      rw [hstr]
      simp only [List.mem_cons, Prod.mk.injEq, List.mem_singleton, List.not_mem_nil,
        or_false] at hmem
      rcases hmem with ⟨rfl, rfl⟩ | ⟨rfl, rfl⟩ | ⟨rfl, rfl⟩ | ⟨rfl, rfl⟩ | ⟨rfl, rfl⟩ | ⟨rfl, rfl⟩ <;>
        decide
    obtain ⟨hm1, hm2⟩ := hmode
    refine ⟨{ p with trackMode := mode, parserState := PARSER_TRACK }, ?_, rfl, rfl, ?_⟩
    · simp [dispatch, hs, parseFile, hcmd, ha, hm1, hm2]
    · simp [parseLines, hc, dispatch, hs, parseFile, hcmd, ha, hm1, hm2]
  · intro hne
    have hu : modeOfString (toUpper (m.sub 2)) = MODE_UNDEFINED := by
      apply modeOfString_undefined
      refine ⟨hne _ MODE1_2048 (by simp), hne _ MODE1_2352 (by simp), hne _ MODE2_2048 (by simp),
        hne _ MODE2_2324 (by simp), hne _ MODE2_2336 (by simp), hne _ MODE2_2352 (by simp)⟩
    refine ⟨{ p with trackMode := MODE_UNDEFINED, parserState := PARSER_ERROR }, ?_, rfl, rfl⟩
    simp [parseLines, hc, dispatch, hs, parseFile, hcmd, ha, hu]

/-- Witness for C13: the line `TRACK 7 mode2/2352` (track number 7, mode in lower
case) met in the `PARSER_FILE` state. -/
theorem track_mode_string_witness :
    ∃ p', (⟨PARSER_FILE, bytesOf "game.bin", FT_BINARY, MODE_UNDEFINED⟩ : CueParser).dispatch
          ((⟨[], [(2, bytesOf "7 mode2/2352"), (1, bytesOf "TRACK")]⟩ : MatchState).sub 1)
          ((⟨[], [(2, bytesOf "7 mode2/2352"), (1, bytesOf "TRACK")]⟩ : MatchState).sub 2)
          = some p' ∧
        p'.parserState = PARSER_TRACK ∧ p'.trackMode = MODE2_2352 ∧
        (⟨PARSER_FILE, bytesOf "game.bin", FT_BINARY, MODE_UNDEFINED⟩ : CueParser).parseLines
          (bytesOf "TRACK 7 mode2/2352" :: []) = p'.parseLines [] :=
  (track_mode_string ⟨PARSER_FILE, bytesOf "game.bin", FT_BINARY, MODE_UNDEFINED⟩
    (bytesOf "TRACK 7 mode2/2352") []
    ⟨[], [(2, bytesOf "7 mode2/2352"), (1, bytesOf "TRACK")]⟩
    ⟨[], [(2, bytesOf "mode2/2352"), (1, bytesOf "7")]⟩
    (by decide) (by decide) (by decide) (by decide)).1
    (bytesOf "MODE2/2352") MODE2_2352 (by decide) (by decide)

/-- A matched TRACK line with a supported mode string, in `PARSER_FILE`. -/
theorem parseLines_track (p : CueParser) (cueLine : Str) (rest : List Str)
    (mc m : MatchState) (mode : CUE_TrackMode) (hs : p.parserState = PARSER_FILE)
    (hc : commandRegex.search cueLine = some mc) (hcmd : toUpper (mc.sub 1) = bytesOf "TRACK")
    (ha : trackArgRegex.search (mc.sub 2) = some m)
    (hm1 : modeOfString (toUpper (m.sub 2)) = mode) (hm2 : mode ≠ MODE_UNDEFINED) :
    p.dispatch (mc.sub 1) (mc.sub 2)
        = some { p with trackMode := mode, parserState := PARSER_TRACK } ∧
      p.parseLines (cueLine :: rest)
        = ({ p with trackMode := mode, parserState := PARSER_TRACK } : CueParser).parseLines rest := by
  constructor
  · simp [dispatch, hs, parseFile, hcmd, ha, hm1, hm2]
  · simp [parseLines, hc, dispatch, hs, parseFile, hcmd, ha, hm1, hm2]

/-- The line `INDEX 01 00:00:00` in `PARSER_TRACK` finishes the parse. -/
theorem parseLines_index (p : CueParser) (rest : List Str) (hs : p.parserState = PARSER_TRACK) :
    p.parseLines (bytesOf "INDEX 01 00:00:00" :: rest)
      = some { p with parserState := PARSER_FINISH } := by
  have hc : commandRegex.search (bytesOf "INDEX 01 00:00:00")
      = some ⟨[], [(2, bytesOf "01 00:00:00"), (1, bytesOf "INDEX")]⟩ := by decide
  have ht : parseTrack (bytesOf "INDEX") (bytesOf "01 00:00:00") = true := by decide
  simp [parseLines, hc, dispatch, hs, MatchState.sub, List.lookup, ht]

/-- The line `FILE "f" BINARY` in `PARSER_START`. -/
theorem parseLines_file (p : CueParser) (f : Str) (rest : List Str)
    (hs : p.parserState = PARSER_START) (hne : f ≠ []) (h34 : 34 ∉ f) (h10 : 10 ∉ f)
    (h13 : 13 ∉ f) :
    p.parseLines ((bytesOf "FILE \"" ++ f ++ bytesOf "\" BINARY") :: rest)
      = ({ p with dataFileName := f, fileType := FT_BINARY, parserState := PARSER_FILE } :
          CueParser).parseLines rest := by
  have hu1 : toUpper [70, 73, 76, 69] = bytesOf "FILE" := by decide
  have hu2 : toUpper [66, 73, 78, 65, 82, 89] = bytesOf "BINARY" := by decide
  simp only [parseLines]
  rw [commandRegex_file_line f h10 h13]
  simp [dispatch, hs, parseStart, MatchState.sub, List.lookup, hu1, hu2,
    fileArgRegex_quoted f hne h34 h10 h13]

/-- C11: for every data file name `f` (non-empty, with no double quote, `\\n` or
`\\r`) and each of the six mode strings, the cue sheet with the lines
`FILE "f" BINARY`, `TRACK 01 <mode>`, `INDEX 01 00:00:00` (whatever lines
follow) parses successfully: the parser is valid, `dataFileName = f`,
`fileType = FT_BINARY` and `trackMode` is the mode the string names. -/
theorem parse_minimal_sheet (f : Str) (modeStr : Str) (mode : CUE_TrackMode) (rest : List Str)
    (hne : f ≠ []) (h34 : 34 ∉ f) (h10 : 10 ∉ f) (h13 : 13 ∉ f)
    (hmode : (modeStr, mode) ∈
        [(bytesOf "MODE1/2048", MODE1_2048), (bytesOf "MODE1/2352", MODE1_2352),
         (bytesOf "MODE2/2048", MODE2_2048), (bytesOf "MODE2/2324", MODE2_2324),
         (bytesOf "MODE2/2336", MODE2_2336), (bytesOf "MODE2/2352", MODE2_2352)]) :
    ∃ p, CueParser.mk' (some ((bytesOf "FILE \"" ++ f ++ bytesOf "\" BINARY")
        :: (bytesOf "TRACK 01 " ++ modeStr) :: bytesOf "INDEX 01 00:00:00" :: rest)) = some p ∧
      p.isValid = true ∧ p.dataFileName = f ∧ p.fileType = FT_BINARY ∧ p.trackMode = mode := by
  refine ⟨⟨PARSER_FINISH, f, FT_BINARY, mode⟩, ?_, rfl, rfl, rfl, rfl⟩
  simp only [CueParser.mk']
  rw [parseLines_file fresh f _ rfl hne h34 h10 h13]
  have key : ∀ (mc m : MatchState),
      commandRegex.search (bytesOf "TRACK 01 " ++ modeStr) = some mc →
      toUpper (mc.sub 1) = bytesOf "TRACK" → trackArgRegex.search (mc.sub 2) = some m →
      modeOfString (toUpper (m.sub 2)) = mode → mode ≠ MODE_UNDEFINED →
      ({ fresh with dataFileName := f, fileType := FT_BINARY, parserState := PARSER_FILE } :
          CueParser).parseLines
        ((bytesOf "TRACK 01 " ++ modeStr) :: bytesOf "INDEX 01 00:00:00" :: rest)
        = some ⟨PARSER_FINISH, f, FT_BINARY, mode⟩ := by
    intro mc m hc hcmd ha hm1 hm2
    rw [(parseLines_track _ _ _ mc m mode rfl hc hcmd ha hm1 hm2).2, parseLines_index _ _ rfl]
  simp only [List.mem_cons, Prod.mk.injEq, List.mem_singleton, List.not_mem_nil,
    or_false] at hmode
  rcases hmode with ⟨rfl, rfl⟩ | ⟨rfl, rfl⟩ | ⟨rfl, rfl⟩ | ⟨rfl, rfl⟩ | ⟨rfl, rfl⟩ | ⟨rfl, rfl⟩
  · exact key ⟨[], [(2, bytesOf "01 MODE1/2048"), (1, bytesOf "TRACK")]⟩
      ⟨[], [(2, bytesOf "MODE1/2048"), (1, bytesOf "01")]⟩
      (by decide) (by decide) (by decide) (by decide) (by decide)
  · exact key ⟨[], [(2, bytesOf "01 MODE1/2352"), (1, bytesOf "TRACK")]⟩
      ⟨[], [(2, bytesOf "MODE1/2352"), (1, bytesOf "01")]⟩
      (by decide) (by decide) (by decide) (by decide) (by decide)
  · exact key ⟨[], [(2, bytesOf "01 MODE2/2048"), (1, bytesOf "TRACK")]⟩
      ⟨[], [(2, bytesOf "MODE2/2048"), (1, bytesOf "01")]⟩
      (by decide) (by decide) (by decide) (by decide) (by decide)
  · exact key ⟨[], [(2, bytesOf "01 MODE2/2324"), (1, bytesOf "TRACK")]⟩
      ⟨[], [(2, bytesOf "MODE2/2324"), (1, bytesOf "01")]⟩
      (by decide) (by decide) (by decide) (by decide) (by decide)
  · exact key ⟨[], [(2, bytesOf "01 MODE2/2336"), (1, bytesOf "TRACK")]⟩
      ⟨[], [(2, bytesOf "MODE2/2336"), (1, bytesOf "01")]⟩
      (by decide) (by decide) (by decide) (by decide) (by decide)
  · exact key ⟨[], [(2, bytesOf "01 MODE2/2352"), (1, bytesOf "TRACK")]⟩
      ⟨[], [(2, bytesOf "MODE2/2352"), (1, bytesOf "01")]⟩
      (by decide) (by decide) (by decide) (by decide) (by decide)

/-- Witness for C11: `f = game.bin` with `MODE2/2352`. -/
theorem parse_minimal_sheet_witness :
    ∃ p, CueParser.mk' (some ((bytesOf "FILE \"" ++ bytesOf "game.bin" ++ bytesOf "\" BINARY")
        :: (bytesOf "TRACK 01 " ++ bytesOf "MODE2/2352") :: bytesOf "INDEX 01 00:00:00" :: []))
        = some p ∧
      p.isValid = true ∧ p.dataFileName = bytesOf "game.bin" ∧ p.fileType = FT_BINARY ∧
      p.trackMode = MODE2_2352 :=
  parse_minimal_sheet (bytesOf "game.bin") (bytesOf "MODE2/2352") MODE2_2352 []
    (by decide) (by decide) (by decide) (by decide) (by decide)

end Parser

/-! ## C strings -/

theorem strrchr_none_iff (s : Str) (c : Nat) : strrchr s c = none ↔ c ∉ s := by
  induction s with
  | nil => simp [strrchr]
  | cons b t ih =>
    simp only [strrchr, List.mem_cons, not_or]
    cases h : strrchr t c with
    | none =>
      have := ih.mp h
      by_cases hb : b = c
      · simp [hb]
      · simp [hb, this, Ne.symm hb]
    | some i =>
      have : c ∈ t := by
        by_contra hc
        rw [ih.mpr hc] at h
        cases h
      simp [this]

theorem strrchr_append (p q : Str) (c : Nat) (hq : c ∉ q) :
    strrchr (p ++ c :: q) c = some p.length := by
  induction p with
  | nil => simp [strrchr, (strrchr_none_iff q c).mpr hq]
  | cons b t ih => simp [strrchr, ih]

theorem strrchr_spec (s : Str) (c i : Nat) (h : strrchr s c = some i) :
    s = s.take i ++ c :: s.drop (i + 1) ∧ c ∉ s.drop (i + 1) ∧ i < s.length := by
  induction s generalizing i with
  | nil => simp [strrchr] at h
  | cons b t ih =>
    simp only [strrchr] at h
    cases ht : strrchr t c with
    | none =>
      rw [ht] at h
      simp only at h
      split at h
      · rename_i hb
        cases h
        have := (strrchr_none_iff t c).mp ht
        simp [hb, this]
      · cases h
    | some j =>
      rw [ht] at h
      simp only [Option.some.injEq] at h
      subst h
      obtain ⟨h1, h2, h3⟩ := ih j ht
      refine ⟨?_, ?_, ?_⟩
      · simp only [List.take_succ_cons, List.drop_succ_cons, List.cons_append]
        rw [← h1]
      · simpa using h2
      · simpa using h3

theorem cString_nil : cString [] = [] := rfl

theorem cString_cons_zero (t : List Nat) : cString (0 :: t) = [] := by
  simp [cString]

theorem cString_cons_ne (b : Nat) (t : List Nat) (hb : b ≠ 0) :
    cString (b :: t) = b :: cString t := by
  simp [cString, List.takeWhile, hb]

theorem cString_length_le (l : List Nat) : (cString l).length ≤ l.length := by
  induction l with
  | nil => simp [cString]
  | cons b t ih =>
    by_cases hb : b = 0
    · subst hb
      simp [cString_cons_zero]
    · rw [cString_cons_ne b t hb]
      simpa using ih

theorem cString_append_zero (p q : Str) (hp : 0 ∉ p) : cString (p ++ 0 :: q) = p := by
  induction p with
  | nil => exact cString_cons_zero q
  | cons b t ih =>
    have hb : b ≠ 0 := fun h => hp (by simp [h])
    have ht : 0 ∉ t := fun h => hp (by simp [h])
    rw [List.cons_append, cString_cons_ne _ _ hb, ih ht]

theorem cString_no_zero (l : List Nat) : 0 ∉ cString l := by
  induction l with
  | nil => simp [cString]
  | cons b t ih =>
    by_cases hb : b = 0
    · subst hb
      simp [cString_cons_zero]
    · rw [cString_cons_ne b t hb]
      simp only [List.mem_cons, not_or]
      exact ⟨fun h => hb h.symm, ih⟩

theorem cString_split (l : List Nat) (h : 0 ∈ l) :
    ∃ q, l = cString l ++ 0 :: q := by
  induction l with
  | nil => simp at h
  | cons b t ih =>
    by_cases hb : b = 0
    · subst hb
      exact ⟨t, by simp [cString_cons_zero]⟩
    · have ht : 0 ∈ t := by
        rcases List.mem_cons.mp h with h | h
        · exact absurd h.symm hb
        · exact h
      obtain ⟨q, hq⟩ := ih ht
      refine ⟨q, ?_⟩
      rw [cString_cons_ne b t hb, List.cons_append, ← hq]

theorem cString_take (l : List Nat) (i : Nat) (hi : i ≤ (cString l).length) :
    l.take i = (cString l).take i := by
  induction l generalizing i with
  | nil => simp [cString]
  | cons b t ih =>
    cases i with
    | zero => simp
    | succ j =>
      by_cases hb : b = 0
      · subst hb
        simp [cString_cons_zero] at hi
      · rw [cString_cons_ne b t hb] at hi ⊢
        simp only [List.length_cons, Nat.add_le_add_iff_right] at hi
        simp only [List.take_succ_cons]
        rw [ih j hi]

theorem cString_set (l : List Nat) (i : Nat) (hi : i < (cString l).length) :
    cString (l.set i 0) = (cString l).take i := by
  have hsub := cString_length_le l
  have hil : i < l.length := by omega
  have e3 : l.set i 0 = l.take i ++ 0 :: l.drop (i + 1) := by
    rw [List.set_eq_take_append_cons_drop]
    simp [hil]
  rw [e3, cString_take l i (by omega)]
  apply cString_append_zero
  intro h
  exact cString_no_zero l (List.mem_of_mem_take h)

theorem drop_set_add (l : List Nat) (n i x : Nat) :
    (l.set (n + i) x).drop n = (l.drop n).set i x := by
  induction n generalizing l with
  | zero => simp
  | succ m ih =>
    cases l with
    | nil => simp
    | cons b t =>
      have e : m + 1 + i = (m + i) + 1 := by omega
      rw [e]
      simp only [List.set_cons_succ, List.drop_succ_cons]
      exact ih t

theorem cutAtSemicolon_name (dirRecord : IsoDirRecord_hdr) :
    cString dirRecord.cutAtSemicolon.fileName =
      match strrchr (cString dirRecord.fileName) 59 with
      | some i => (cString dirRecord.fileName).take i
      | none => cString dirRecord.fileName := by
  unfold IsoDirRecord_hdr.cutAtSemicolon
  cases hs : strrchr (cString dirRecord.fileName) 59 with
  | none => rfl
  | some i =>
    simp only [IsoDirRecord_hdr.fileName]
    rw [drop_set_add]
    exact cString_set _ i (strrchr_spec _ _ _ hs).2.2

theorem readDir_name_eq (g : IsoDirRecord_hdr) (fuel : Nat) (cio : CueIO)
    (dirRecord : IsoDirRecord_hdr) (e : FSEntry) (c : CueIO) (r : IsoDirRecord_hdr)
    (h : readDir g fuel cio dirRecord = Outcome.ok (e, c, r)) :
    e.name = cString dirRecord.cutAtSemicolon.fileName := by
  cases fuel with
  | zero => simp [readDir] at h
  | succ n =>
    simp only [readDir] at h
    split at h
    · cases h
    · split at h
      · cases h
        rfl
      · split at h
        · cases h
          rfl
        · cases h
        · cases h

theorem readDir_name_head (g : IsoDirRecord_hdr) (fuel : Nat) (cio : CueIO)
    (dirRecord : IsoDirRecord_hdr) (e : FSEntry) (c : CueIO) (r : IsoDirRecord_hdr)
    (h : readDir g fuel cio dirRecord = Outcome.ok (e, c, r))
    (ha : isalnum (dirRecord.fileName.getD 0 0) = true) :
    ∃ b t, e.name = b :: t ∧ isalnum b = true := by
  rw [readDir_name_eq g fuel cio dirRecord e c r h, cutAtSemicolon_name]
  cases hf : dirRecord.fileName with
  | nil =>
    rw [hf] at ha
    simp [isalnum] at ha
  | cons b t =>
    rw [hf] at ha
    simp only [List.getD_cons_zero] at ha
    have hb0 : b ≠ 0 := by
      intro h0
      subst h0
      simp [isalnum] at ha
    have hb59 : b ≠ 59 := by
      intro h0
      subst h0
      simp [isalnum] at ha
    rw [cString_cons_ne b t hb0]
    simp only [strrchr]
    cases hs : strrchr (cString t) 59 with
    | none => exact ⟨b, cString t, by simp [hb59], ha⟩
    | some i => exact ⟨b, (cString t).take i, by simp, ha⟩

/-! ## The key order of the `children` map -/

theorem strLt_irrefl (a : Str) : strLt a a = false := by
  induction a with
  | nil => rfl
  | cons x t ih => simp [strLt, ih]

theorem strLt_trans (a b c : Str) (h1 : strLt a b = true) (h2 : strLt b c = true) :
    strLt a c = true := by
  induction a generalizing b c with
  | nil =>
    cases b with
    | nil => simp [strLt] at h1
    | cons y s =>
      cases c with
      | nil => simp [strLt] at h2
      | cons z u => simp [strLt]
  | cons x t ih =>
    cases b with
    | nil => simp [strLt] at h1
    | cons y s =>
      cases c with
      | nil => simp [strLt] at h2
      | cons z u =>
        simp only [strLt, Bool.or_eq_true, decide_eq_true_eq, Bool.and_eq_true] at h1 h2 ⊢
        rcases h1 with h1 | ⟨h1, h1'⟩
        · rcases h2 with h2 | ⟨h2, _⟩
          · left; omega
          · left; omega
        · rcases h2 with h2 | ⟨h2, h2'⟩
          · left; omega
          · right
            exact ⟨by omega, ih s u h1' h2'⟩

theorem strLt_total (a b : Str) (h1 : strLt a b = false) (h2 : b ≠ a) : strLt b a = true := by
  induction a generalizing b with
  | nil =>
    cases b with
    | nil => exact absurd rfl h2
    | cons y s => simp [strLt] at h1
  | cons x t ih =>
    cases b with
    | nil => rfl
    | cons y s =>
      simp only [strLt, Bool.or_eq_false_iff, decide_eq_false_iff_not, Bool.and_eq_false_imp,
        decide_eq_true_eq] at h1
      simp only [strLt, Bool.or_eq_true, decide_eq_true_eq, Bool.and_eq_true]
      obtain ⟨h1, h1'⟩ := h1
      by_cases hxy : x = y
      · right
        subst hxy
        refine ⟨rfl, ih s (h1' rfl) ?_⟩
        intro hs
        exact h2 (by rw [hs])
      · left; omega

theorem mem_mapAssign {V : Type} (key : Str) (value : V) (l : List (Str × V))
    (kc : Str × V) (h : kc ∈ mapAssign key value l) : kc = (key, value) ∨ kc ∈ l := by
  induction l with
  | nil =>
    simp only [mapAssign, List.mem_singleton] at h
    exact Or.inl h
  | cons a rest ih =>
    obtain ⟨k, v⟩ := a
    simp only [mapAssign] at h
    split at h
    · rcases List.mem_cons.mp h with h | h
      · exact Or.inl h
      · exact Or.inr h
    · split at h
      · rename_i hk
        rcases List.mem_cons.mp h with h | h
        · left
          rw [h, hk]
        · exact Or.inr (List.mem_cons_of_mem _ h)
      · rcases List.mem_cons.mp h with h | h
        · right
          rw [h]
          exact List.mem_cons_self _ _
        · rcases ih h with h | h
          · exact Or.inl h
          · exact Or.inr (List.mem_cons_of_mem _ h)

/-- The assignment `map[key] = value` keeps the keys in strictly ascending order. -/
theorem mapAssign_sorted {V : Type} (key : Str) (value : V) (l : List (Str × V))
    (h : (l.map (fun kc => kc.1)).Pairwise (fun k1 k2 => strLt k1 k2 = true)) :
    ((mapAssign key value l).map (fun kc => kc.1)).Pairwise
      (fun k1 k2 => strLt k1 k2 = true) := by
  induction l with
  | nil => simp [mapAssign]
  | cons a rest ih =>
    obtain ⟨k, v⟩ := a
    simp only [List.map_cons, List.pairwise_cons] at h
    obtain ⟨hk, hrest⟩ := h
    simp only [mapAssign]
    split
    · rename_i hlt
      simp only [List.map_cons, List.pairwise_cons, List.mem_cons, forall_eq_or_imp]
      exact ⟨⟨hlt, fun k2 hk2 => strLt_trans _ _ _ hlt (hk k2 hk2)⟩, hk, hrest⟩
    · rename_i hlt
      split
      · simp only [List.map_cons, List.pairwise_cons]
        exact ⟨hk, hrest⟩
      · rename_i hne
        simp only [List.map_cons, List.pairwise_cons]
        refine ⟨?_, ih hrest⟩
        intro k2 hk2
        obtain ⟨kc, hkc, rfl⟩ := List.mem_map.mp hk2
        rcases mem_mapAssign _ _ _ _ hkc with hkc | hkc
        · rw [hkc]
          exact strLt_total _ _ (by simpa using hlt) hne
        · exact hk _ (List.mem_map.mpr ⟨kc, hkc, rfl⟩)

theorem mem_mapsOfChildren (cs : List (Str × FSEntry)) (m : List (Str × FSEntry)) :
    m ∈ FSEntry.mapsOfChildren cs ↔ ∃ kc ∈ cs, m ∈ kc.2.maps := by
  induction cs with
  | nil => simp [FSEntry.mapsOfChildren]
  | cons a rest ih =>
    obtain ⟨k, e⟩ := a
    simp only [FSEntry.mapsOfChildren, List.mem_append, ih, List.mem_cons, exists_eq_or_imp]

theorem alignEven_children (st : DirLoop) : st.alignEven.children = st.children := by
  unfold DirLoop.alignEven
  split <;> rfl

theorem readHeader_children (st st' : DirLoop) (h : st.readHeader = some st') :
    st'.children = st.children := by
  unfold DirLoop.readHeader at h
  split at h
  · cases h
  · cases h
    rfl

theorem skipEmpty_children (st st' : DirLoop) (location : Nat)
    (h : st.skipEmpty location = some st') : st'.children = st.children := by
  unfold DirLoop.skipEmpty at h
  split at h
  · cases h
  · cases h
    rfl

theorem readName_children (st st' : DirLoop) (h : st.readName = Outcome.ok st') :
    st'.children = st.children := by
  unfold DirLoop.readName at h
  split at h
  · cases h
  · split at h
    · cases h
    · cases h
      rfl

/-- Every `children` map of a tree that `readDir` returns is good, and the loop of
`readDir` keeps the map it fills good. -/
theorem readDir_maps_good (g : IsoDirRecord_hdr) (fuel : Nat) :
    (∀ cio dirRecord e c r, readDir g fuel cio dirRecord = Outcome.ok (e, c, r) →
      ∀ m ∈ e.maps, MapGood m) ∧
    (∀ location length st st', readDirLoop g fuel location length st = Outcome.ok st' →
      (MapGood st.children ∧ ∀ kc ∈ st.children, ∀ m ∈ kc.2.maps, MapGood m) →
      (MapGood st'.children ∧ ∀ kc ∈ st'.children, ∀ m ∈ kc.2.maps, MapGood m)) := by
  induction fuel with
  | zero =>
    constructor
    · intro cio dirRecord e c r h
      simp [readDir] at h
    · intro location length st st' h
      simp [readDirLoop] at h
  | succ n ih =>
    obtain ⟨ihD, ihL⟩ := ih
    constructor
    · intro cio dirRecord e c r h
      simp only [readDir] at h
      split at h
      · cases h
      · split at h
        · cases h
          intro m hm
          simp only [FSEntry.maps, FSEntry.mapsOfChildren, List.mem_singleton,
            List.not_mem_nil, List.mem_cons, or_false] at hm
          subst hm
          exact ⟨by simp, by simp⟩
        · split at h
          · rename_i st hst
            cases h
            have := ihL _ _ _ _ hst ⟨⟨by simp, by simp⟩, by simp⟩
            intro m hm
            simp only [FSEntry.maps, List.mem_cons, mem_mapsOfChildren] at hm
            rcases hm with rfl | ⟨kc, hkc, hm⟩
            · exact this.1
            · exact this.2 kc hkc m hm
          · cases h
          · cases h
    · intro location length st st' h hgood
      simp only [readDirLoop] at h
      split at h
      · cases h
      · rename_i st1 hst1
        have hc1 : st1.children = st.children := by
          rw [readHeader_children _ _ hst1, alignEven_children]
        rw [← hc1] at hgood
        split at h
        · cases h
          exact hgood
        · split at h
          · split at h
            · cases h
            · rename_i st2 hst2
              refine ihL _ _ _ _ h ?_
              rw [skipEmpty_children _ _ _ hst2]
              exact hgood
          · split at h
            · split at h
              · cases h
              · cases h
              · rename_i st2 hst2
                have hc2 := readName_children _ _ hst2
                rw [← hc2] at hgood
                split at h
                · split at h
                  · exact ihL _ _ _ _ h hgood
                  · cases h
                    exact hgood
                · rename_i hal
                  split at h
                  · cases h
                  · cases h
                  · rename_i childEntry cio2 rec2 hrd
                    have hnew : MapGood (st2.addChild st2.cio.tell childEntry cio2 rec2).children ∧
                        ∀ kc ∈ (st2.addChild st2.cio.tell childEntry cio2 rec2).children,
                          ∀ m ∈ kc.2.maps, MapGood m := by
                      refine ⟨⟨mapAssign_sorted _ _ _ hgood.1.1, ?_⟩, ?_⟩
                      · intro kc hkc
                        rcases mem_mapAssign _ _ _ _ hkc with hk | hk
                        · subst hk
                          refine ⟨?_, rfl⟩
                          refine readDir_name_head _ _ _ _ _ _ _ hrd ?_
                          simpa using hal
                        · exact hgood.1.2 kc hk
                      · intro kc hkc
                        rcases mem_mapAssign _ _ _ _ hkc with hk | hk
                        · subst hk
                          exact ihD _ _ _ _ _ hrd
                        · exact hgood.2 kc hk
                    split at h
                    · exact ihL _ _ _ _ h hnew
                    · cases h
                      exact hnew
            · split at h
              · exact ihL _ _ _ _ h hgood
              · cases h
                exact hgood

/-! ## `readDir`: names and keys -/

theorem nameCut_cons_ne (b : Nat) (t : Str) (hb : b ≠ 59) :
    nameCutAtFirstSemicolon (b :: t) = b :: nameCutAtFirstSemicolon t := by
  simp [nameCutAtFirstSemicolon, List.takeWhile, hb]

theorem nameCut_of_not_mem (s : Str) (h : 59 ∉ s) : nameCutAtFirstSemicolon s = s := by
  induction s with
  | nil => rfl
  | cons b t ih =>
    have hb : b ≠ 59 := fun e => h (by simp [e])
    have ht : 59 ∉ t := fun e => h (by simp [e])
    rw [nameCut_cons_ne b t hb, ih ht]

theorem nameCut_append (p q : Str) (h : 59 ∉ p) : nameCutAtFirstSemicolon (p ++ 59 :: q) = p := by
  induction p with
  | nil => simp [nameCutAtFirstSemicolon]
  | cons b t ih =>
    have hb : b ≠ 59 := fun e => h (by simp [e])
    have ht : 59 ∉ t := fun e => h (by simp [e])
    rw [List.cons_append, nameCut_cons_ne b _ hb, ih ht]

/-- C15 (amended): the name `readDir` stores is the C string in the record's
`fileName`, cut at its LAST semicolon: unchanged if it holds no semicolon, and
the part before the last semicolon otherwise.  It is the name cut at the first
semicolon, and free of semicolons, when the record's name holds at most one. -/
theorem readDir_name_cut_at_last_semicolon (g : IsoDirRecord_hdr) (fuel : Nat) (cio : CueIO)
    (dirRecord : IsoDirRecord_hdr) (e : FSEntry) (c : CueIO) (r : IsoDirRecord_hdr)
    (h : readDir g fuel cio dirRecord = Outcome.ok (e, c, r)) :
    (59 ∉ cString dirRecord.fileName → e.name = cString dirRecord.fileName) ∧
    (∀ p q, cString dirRecord.fileName = p ++ 59 :: q → 59 ∉ q → e.name = p) ∧
    ((cString dirRecord.fileName).count 59 ≤ 1 →
      e.name = nameCutAtFirstSemicolon (cString dirRecord.fileName) ∧ 59 ∉ e.name) := by
  have hn := readDir_name_eq g fuel cio dirRecord e c r h
  rw [cutAtSemicolon_name] at hn
  have h1 : 59 ∉ cString dirRecord.fileName → e.name = cString dirRecord.fileName := by
    intro hno
    rw [hn, (strrchr_none_iff _ _).mpr hno]
  have h2 : ∀ p q, cString dirRecord.fileName = p ++ 59 :: q → 59 ∉ q → e.name = p := by
    intro p q hs hq
    rw [hn, hs, strrchr_append p q 59 hq]
    simp
  refine ⟨h1, h2, ?_⟩
  intro hcount
  by_cases hmem : 59 ∈ cString dirRecord.fileName
  · cases hs : strrchr (cString dirRecord.fileName) 59 with
    | none => exact absurd hmem ((strrchr_none_iff _ _).mp hs)
    | some i =>
      obtain ⟨hsplit, hq, _⟩ := strrchr_spec _ _ _ hs
      have hp : 59 ∉ (cString dirRecord.fileName).take i := by
        intro hp
        rw [hsplit, List.count_append, List.count_cons_self] at hcount
        have := List.count_pos_iff.mpr hp
        omega
      have hname := h2 _ _ hsplit hq
      rw [hname]
      refine ⟨?_, hp⟩
      conv_rhs => rw [hsplit]
      exact (nameCut_append _ _ hp).symm
  · rw [h1 hmem]
    exact ⟨(nameCut_of_not_mem _ hmem).symm, hmem⟩

/-- Witness for C15: the record named `A;B;1` gives the entry named `A;B`. -/
theorem readDir_name_cut_at_last_semicolon_witness :
    (FSEntry.mk (bytesOf "A;B") FSEntryType.FS_FILE 5 77 946684800 []).name = bytesOf "A;B" :=
  (readDir_name_cut_at_last_semicolon ⟨[]⟩ 1 exampleCio exampleRecordTwoSemicolons
    (FSEntry.mk (bytesOf "A;B") FSEntryType.FS_FILE 5 77 946684800 []) exampleCio
    ⟨recordBytes 38 5 77 0 (bytesOf "A;B" ++ 0 :: bytesOf "1") ++ [0]⟩ (by decide!)).2.1
    (bytesOf "A;B") (bytesOf "1") (by decide) (by decide)

/-- C15 as claimed fails: for the record named `A;B;1` the name cut at the first
semicolon is `A`, but `readDir` stores `A;B`, a name that holds a semicolon. -/
theorem readDir_name_not_cut_at_first_semicolon :
    readDir ⟨[]⟩ 1 exampleCio exampleRecordTwoSemicolons =
        Outcome.ok (FSEntry.mk (bytesOf "A;B") FSEntryType.FS_FILE 5 77 946684800 [], exampleCio,
          ⟨recordBytes 38 5 77 0 (bytesOf "A;B" ++ 0 :: bytesOf "1") ++ [0]⟩) ∧
      cString exampleRecordTwoSemicolons.fileName = bytesOf "A;B;1" ∧
      nameCutAtFirstSemicolon (bytesOf "A;B;1") = bytesOf "A" ∧
      bytesOf "A;B" ≠ bytesOf "A" ∧ 59 ∈ bytesOf "A;B" := by
  decide!

/-- C16: every key of every `children` map in a tree that `readDir` returns is
non-empty and starts with a character that `isalnum` accepts; so no key is `.`,
`..`, or the name of the ISO self or parent record (the byte 0 or the byte 1). -/
theorem readDir_keys_alnum (g : IsoDirRecord_hdr) (fuel : Nat) (cio : CueIO)
    (dirRecord : IsoDirRecord_hdr) (e : FSEntry) (c : CueIO) (r : IsoDirRecord_hdr)
    (h : readDir g fuel cio dirRecord = Outcome.ok (e, c, r)) :
    ∀ m ∈ e.maps, ∀ kc ∈ m,
      kc.1 ≠ [] ∧ isalnum (kc.1.getD 0 0) = true ∧ kc.1 ≠ bytesOf "." ∧ kc.1 ≠ bytesOf ".." ∧
        kc.1 ≠ [0] ∧ kc.1 ≠ [1] := by
  intro m hm kc hkc
  obtain ⟨⟨b, t, hk, hb⟩, _⟩ := ((readDir_maps_good g fuel).1 cio dirRecord e c r h m hm).2 kc hkc
  rw [hk]
  refine ⟨by simp, by simpa using hb, ?_, ?_, ?_, ?_⟩
  · intro hdot
    have : b = 46 := by
      have := congrArg (fun l => l.getD 0 0) hdot
      simpa using this
    subst this
    simp [isalnum] at hb
  · intro hdot
    have : b = 46 := by
      have := congrArg (fun l => l.getD 0 0) hdot
      simpa using this
    subst this
    simp [isalnum] at hb
  · intro hdot
    have : b = 0 := by
      have := congrArg (fun l => l.getD 0 0) hdot
      simpa using this
    subst this
    simp [isalnum] at hb
  · intro hdot
    have : b = 1 := by
      have := congrArg (fun l => l.getD 0 0) hdot
      simpa using this
    subst this
    simp [isalnum] at hb

/-- Witness for C16: the directory of `exampleImage` holds the records `.`, `..`,
one with an empty name, `_X`, `SUB` and `A.DAT;1`; the tree built from it is
`exampleTree`, with the keys `A.DAT` and `SUB` only; the statement is the one
about the key `A.DAT`. -/
theorem readDir_keys_alnum_witness :
    bytesOf "A.DAT" ≠ [] ∧ isalnum ((bytesOf "A.DAT").getD 0 0) = true ∧
      bytesOf "A.DAT" ≠ bytesOf "." ∧ bytesOf "A.DAT" ≠ bytesOf ".." ∧
      bytesOf "A.DAT" ≠ [0] ∧ bytesOf "A.DAT" ≠ [1] :=
  readDir_keys_alnum ⟨List.replicate 255 0⟩ 8 exampleCio exampleRoot exampleTree
    { exampleCio with posInLba := 247,
                      fileStream := { exampleCio.fileStream with cursor := 263 } }
    exampleRoot (by decide!) exampleTree.children (by decide)
    (bytesOf "A.DAT", FSEntry.mk (bytesOf "A.DAT") FSEntryType.FS_FILE 5 77 946684800 [])
    (by decide)

/-! ## `CueArchiver`: path lookup, `openRead`, `enumerateFiles`, `stat` -/

section Archiver

open CueArchiver FSEntryType PHYSFS_ErrorCode PHYSFS_FileType

theorem walk_append (current : FSEntry) (pre rest : List Str) :
    walk current (pre ++ rest) = (walk current pre).bind (fun e => walk e rest) := by
  induction pre generalizing current with
  | nil => simp [walk]
  | cons a t ih =>
    simp only [List.cons_append, walk]
    cases mapFind a current.children with
    | none => simp
    | some e => simp [ih]

/-- The lookup fails as soon as one path part is missing from the map reached. -/
theorem walk_missing (root current : FSEntry) (pre post : List Str) (part : Str)
    (hpre : walk root pre = some current) (hmiss : mapFind part current.children = none) :
    walk root (pre ++ part :: post) = none := by
  rw [walk_append, hpre]
  simp [walk, hmiss]

theorem getFsEntry_empty (a : CueArchiver) (split : Str → List Str) :
    a.getFsEntry split [] = (some a.root, none) := by
  simp [getFsEntry]

theorem getFsEntry_some (a : CueArchiver) (split : Str → List Str) (name : Str) (e : FSEntry)
    (h : (a.getFsEntry split name).1 = some e) : a.getFsEntry split name = (some e, none) := by
  unfold getFsEntry at h ⊢
  split
  · rename_i hl
    rw [if_pos hl] at h
    split
    · rename_i hw
      rw [hw] at h
      cases h
    · rename_i e' hw
      rw [hw] at h
      simp only [Option.some.injEq] at h
      rw [h]
  · rename_i hl
    rw [if_neg hl] at h
    simp only [Option.some.injEq] at h
    rw [h]

theorem getFsEntry_none (a : CueArchiver) (split : Str → List Str) (name : Str)
    (h : (a.getFsEntry split name).1 = none) :
    a.getFsEntry split name = (none, some PHYSFS_ERR_NOT_FOUND) := by
  unfold getFsEntry at h ⊢
  split
  · rename_i hl
    rw [if_pos hl] at h
    split
    · rfl
    · rename_i e' hw
      rw [hw] at h
      cases h
  · rename_i hl
    rw [if_neg hl] at h
    cases h

theorem getFsEntry_missing (a : CueArchiver) (split : Str → List Str) (name : Str)
    (current : FSEntry) (pre post : List Str) (part : Str) (hne : name ≠ [])
    (hsplit : split name = pre ++ part :: post) (hpre : walk a.root pre = some current)
    (hmiss : mapFind part current.children = none) :
    a.getFsEntry split name = (none, some PHYSFS_ERR_NOT_FOUND) := by
  have hl : name.length > 0 := List.length_pos.mpr hne
  simp [getFsEntry, hl, hsplit, walk_missing _ _ _ _ _ hpre hmiss]

theorem mapFind_mem {V : Type} (key : Str) (l : List (Str × V)) (v : V)
    (h : mapFind key l = some v) : (key, v) ∈ l := by
  induction l with
  | nil => simp [mapFind] at h
  | cons a rest ih =>
    obtain ⟨k, w⟩ := a
    simp only [mapFind] at h
    split at h
    · rename_i hk
      simp only [Option.some.injEq] at h
      rw [hk, h]
      exact List.mem_cons_self _ _
    · exact List.mem_cons_of_mem _ (ih h)

theorem children_mem_maps (e : FSEntry) : e.children ∈ e.maps := by
  cases e
  simp [FSEntry.maps, FSEntry.children]

theorem maps_of_child (e : FSEntry) (kc : Str × FSEntry) (hkc : kc ∈ e.children)
    (m : List (Str × FSEntry)) (hm : m ∈ kc.2.maps) : m ∈ e.maps := by
  cases e
  simp only [FSEntry.children] at hkc
  simp only [FSEntry.maps, List.mem_cons, mem_mapsOfChildren]
  exact Or.inr ⟨kc, hkc, hm⟩

/-- The maps of an entry reached by a path lookup are maps of the tree. -/
theorem walk_maps (current e : FSEntry) (parts : List Str) (h : walk current parts = some e)
    (m : List (Str × FSEntry)) (hm : m ∈ e.maps) : m ∈ current.maps := by
  induction parts generalizing current with
  | nil =>
    simp only [walk, Option.some.injEq] at h
    rw [h]
    exact hm
  | cons part rest ih =>
    simp only [walk] at h
    split at h
    · cases h
    · rename_i subdir hfind
      exact maps_of_child current (part, subdir) (mapFind_mem _ _ _ hfind) m (ih subdir h)

theorem getFsEntry_maps (a : CueArchiver) (split : Str → List Str) (name : Str) (e : FSEntry)
    (h : (a.getFsEntry split name).1 = some e) : e.children ∈ a.root.maps := by
  unfold getFsEntry at h
  split at h
  · split at h
    · cases h
    · rename_i e' hw
      simp only [Option.some.injEq] at h
      subst h
      exact walk_maps _ _ _ hw _ (children_mem_maps _)
  · simp only [Option.some.injEq] at h
    subst h
    exact children_mem_maps _

theorem type_cases (e : FSEntry) : e.type = FS_FILE ∨ e.type = FS_DIRECTORY := by
  cases e.type <;> simp

/-- C17 (amended): `openRead` returns no stream, and creates no object, when the
path does not resolve (the error code is then not-found) or resolves to a
directory entry; the empty path resolves to the root.  When the path resolves to a
file entry `e`, it constructs a stream for the image; if the file stream of that
object is not usable it returns no stream; if it is usable (it is when the image
file can be opened and the track mode is one of the six supported ones), it
returns a handle to the new object on the heap, a stream with
`lbaStart = lbaCurrent = e.offset`, `posInLba = 0`, the archive's track mode,
`tell() = 0` and the length `e.length` read as a signed 64-bit number, which is
`e.length` itself when `e.length < 2^63`; the objects already on the heap stay as
they are. -/
theorem openRead_stream (a : CueArchiver) (fs : FileSystem) (heap : Heap)
    (split : Str → List Str) (fnm : Str) :
    ((a.getFsEntry split fnm).1 = none →
      a.openRead fs heap split fnm = (heap, none, some PHYSFS_ERR_NOT_FOUND)) ∧
    (∀ e, (a.getFsEntry split fnm).1 = some e → e.type = FS_DIRECTORY →
      a.openRead fs heap split fnm = (heap, none, none)) ∧
    (a.getFsEntry split [] = (some a.root, none)) ∧
    (∀ e, (a.getFsEntry split fnm).1 = some e → e.type = FS_FILE →
      ( CueIO.mk' fs a.imageFile e.offset (i64 e.length) a.fileType
        a.trackMode).fileStream.failed = true →
      a.openRead fs heap split fnm = (heap, none, none)) ∧
    (∀ e, (a.getFsEntry split fnm).1 = some e → e.type = FS_FILE →
      ( CueIO.mk' fs a.imageFile e.offset (i64 e.length) a.fileType
        a.trackMode).fileStream.failed = false →
      ∃ c, a.openRead fs heap split fnm
            = (heap ++ [c], some { object := some heap.length }, none) ∧
        PHYSFS_Io.deref (heap ++ [c]) { object := some heap.length } = some c ∧
        (∀ i, i < heap.length → (heap ++ [c])[i]? = heap[i]?) ∧
        c.lbaStart = e.offset ∧ c.lbaCurrent = e.offset ∧ c.posInLba = 0 ∧
        c.trackMode = a.trackMode ∧ CueIO.tell c = 0 ∧ c.length = i64 e.length ∧
        (e.length < 9223372036854775808 → c.length = e.length)) ∧
    (∀ img lba len, fs a.imageFile = some img → a.trackMode.supported = true →
      ( CueIO.mk' fs a.imageFile lba len a.fileType a.trackMode).fileStream.failed = false) := by
  refine ⟨?_, ?_, getFsEntry_empty a split, ?_, ?_, ?_⟩
  · intro h
    simp [openRead, getFsEntry_none a split fnm h]
  · intro e h hd
    simp [openRead, getFsEntry_some a split fnm e h, hd]
  · intro e h hf hfail
    simp [openRead, getFsEntry_some a split fnm e h, hf, getIo, hfail]
  · intro e h hf hfail
    refine ⟨ CueIO.mk' fs a.imageFile e.offset (i64 e.length) a.fileType a.trackMode,
      ?_, ?_, ?_, rfl, rfl, rfl, rfl, ?_, rfl, ?_⟩
    · simp [openRead, getFsEntry_some a split fnm e h, hf, getIo, hfail, createIo]
    · simp [PHYSFS_Io.deref]
    · intro i hi
      exact List.getElem?_append_left hi
    · simp [ CueIO.tell, CueIO.mk', u32]
    · intro hlt
      simp only [ CueIO.mk']
      unfold i64
      omega
  · intro img lba len himg hm
    have hnn := lbaToByteOffset_nonneg a.trackMode lba hm
    have hno : ¬ lbaToByteOffset a.trackMode lba < 0 := by omega
    simp [ CueIO.mk', IfStream.openFile, himg, IfStream.seekg, hno]

/-- Witness for C17: opening `A.DAT` of `exampleArchive`. -/
theorem openRead_stream_witness :
    ∃ c, exampleArchive.openRead exampleImage [] splitSingle (bytesOf "A.DAT")
          = ([] ++ [c], some { object := some ([] : Heap).length }, none) ∧
      PHYSFS_Io.deref ([] ++ [c]) { object := some ([] : Heap).length } = some c ∧
      (∀ i, i < ([] : Heap).length → ([] ++ [c])[i]? = ([] : Heap)[i]?) ∧
      c.lbaStart = 5 ∧ c.lbaCurrent = 5 ∧ c.posInLba = 0 ∧
      c.trackMode = MODE1_2352 ∧ CueIO.tell c = 0 ∧ c.length = i64 (77 : Nat) ∧
      ((77 : Nat) < 9223372036854775808 → c.length = (77 : Nat)) :=
  (openRead_stream exampleArchive exampleImage [] splitSingle (bytesOf "A.DAT")).2.2.2.2.1
    (FSEntry.mk (bytesOf "A.DAT") FS_FILE 5 77 946684800 [])
    (by decide) (by decide) (by decide)

/-- C17 as claimed fails: `readDir` turns the record `exampleRecordHuge` (extent
length `FF FF FF FF`) into an entry of length `2^64 - 1`, and the stream that
`openRead` returns for it has the length `-1`. -/
theorem openRead_length_not_entry_length :
    readDir ⟨[]⟩ 1 exampleCio exampleRecordHuge
        = Outcome.ok (exampleEntryHuge, exampleCio, exampleRecordHuge) ∧
      exampleEntryHuge.length = 18446744073709551615 ∧
      ((exampleArchiveHuge.openRead exampleImage [] splitSingle (bytesOf "BIG")).1.map
        (fun c => c.length)) = [-1] := by
  decide!

/-- C18: `enumerateFiles`.  If a part of the path is not a key of the map reached
so far, the call sets the not-found error and makes no callback.  If the path
resolves to a directory entry, the callbacks are made with the keys of its
`children` map, one per child and in the order of the map: as many calls as
children; the names of the children, when each key is the name of its entry; in
strictly ascending order and without repetition, when the keys of the map are in
ascending order (as in a `std::map`).  If the path resolves to a file entry, no
callback is made. -/
theorem enumerateFiles_calls (a : CueArchiver) (split : Str → List Str) (dirname : Str) :
    (∀ current pre part post, dirname ≠ [] → split dirname = pre ++ part :: post →
      walk a.root pre = some current → mapFind part current.children = none →
      a.enumerateFiles split dirname = ([], some PHYSFS_ERR_NOT_FOUND)) ∧
    (∀ e, (a.getFsEntry split dirname).1 = some e → e.type = FS_DIRECTORY →
      a.enumerateFiles split dirname = (e.children.map (fun kc => kc.1), none) ∧
      (a.enumerateFiles split dirname).1.length = e.children.length ∧
      ((∀ kc ∈ e.children, kc.1 = kc.2.name) →
        (a.enumerateFiles split dirname).1 = e.children.map (fun kc => kc.2.name)) ∧
      ((e.children.map (fun kc => kc.1)).Pairwise (fun k1 k2 => strLt k1 k2 = true) →
        (a.enumerateFiles split dirname).1.Pairwise (fun k1 k2 => strLt k1 k2 = true) ∧
        (a.enumerateFiles split dirname).1.Nodup)) ∧
    (∀ e, (a.getFsEntry split dirname).1 = some e → e.type = FS_FILE →
      a.enumerateFiles split dirname = ([], none)) ∧
    (∀ g fuel cio dirRecord c r e, readDir g fuel cio dirRecord = Outcome.ok (a.root, c, r) →
      (a.getFsEntry split dirname).1 = some e → e.type = FS_DIRECTORY →
      (a.enumerateFiles split dirname).1 = e.children.map (fun kc => kc.2.name) ∧
      (a.enumerateFiles split dirname).1.Pairwise (fun k1 k2 => strLt k1 k2 = true) ∧
      (a.enumerateFiles split dirname).1.Nodup) := by
  have hdir : ∀ e, (a.getFsEntry split dirname).1 = some e → e.type = FS_DIRECTORY →
      a.enumerateFiles split dirname = (e.children.map (fun kc => kc.1), none) := by
    intro e h hd
    simp [enumerateFiles, getFsEntry_some a split dirname e h, hd]
  have hnodup : ∀ l : List Str, l.Pairwise (fun k1 k2 => strLt k1 k2 = true) → l.Nodup := by
    intro l hl
    refine List.Pairwise.imp ?_ hl
    intro k1 k2 hlt heq
    rw [heq, strLt_irrefl] at hlt
    cases hlt
  refine ⟨?_, ?_, ?_, ?_⟩
  · intro current pre part post hne hsplit hpre hmiss
    simp [enumerateFiles, getFsEntry_missing a split dirname current pre post part hne hsplit
      hpre hmiss]
  · intro e h hd
    rw [hdir e h hd]
    refine ⟨rfl, by simp, ?_, ?_⟩
    · intro hnames
      simp only
      exact List.map_congr_left hnames
    · intro hsorted
      exact ⟨hsorted, hnodup _ hsorted⟩
  · intro e h hf
    simp [enumerateFiles, getFsEntry_some a split dirname e h, hf]
  · intro g fuel cio dirRecord c r e hrd h hd
    have hgood := (readDir_maps_good g fuel).1 cio dirRecord a.root c r hrd e.children
      (getFsEntry_maps a split dirname e h)
    rw [hdir e h hd]
    refine ⟨?_, hgood.1, hnodup _ hgood.1⟩
    simp only
    exact List.map_congr_left (fun kc hkc => (hgood.2 kc hkc).2)

/-- Witness for C18: the root of `exampleArchive` holds the file `A.DAT` and the
directory `SUB`; enumerating the empty path makes exactly two calls. -/
theorem enumerateFiles_calls_witness :
    exampleArchive.enumerateFiles splitSingle []
        = ([bytesOf "A.DAT", bytesOf "SUB"], none) ∧
      (exampleArchive.enumerateFiles splitSingle []).1.length = 2 ∧
      (exampleArchive.enumerateFiles splitSingle []).1
          = exampleTree.children.map (fun kc => kc.2.name) ∧
      (exampleArchive.enumerateFiles splitSingle []).1.Pairwise
          (fun k1 k2 => strLt k1 k2 = true) ∧
      (exampleArchive.enumerateFiles splitSingle []).1.Nodup := by
  have h := (enumerateFiles_calls exampleArchive splitSingle []).2.1 exampleTree
    (by decide) (by decide)
  exact ⟨h.1, h.2.1, h.2.2.1 (by decide), (h.2.2.2 (by decide)).1, (h.2.2.2 (by decide)).2⟩

/-- C19 (amended): `stat` returns 0 and leaves the record as it is when the path
does not resolve.  Otherwise it returns 1 with `readonly = 1` and the three times
equal to the entry's time stamp; for a directory entry the file type is
directory and the size 0; for a file entry the file type is regular and the size
is the entry's length read as a signed 64-bit number, which is the length itself
when it is below `2^63`. -/
theorem stat_fields (a : CueArchiver) (split : Str → List Str) (name : Str) (st : PHYSFS_Stat) :
    ((a.getFsEntry split name).1 = none →
      (a.stat split name st).1 = 0 ∧ (a.stat split name st).2.1 = st) ∧
    (∀ e, (a.getFsEntry split name).1 = some e →
      (a.stat split name st).1 = 1 ∧
      (a.stat split name st).2.1.readonly = 1 ∧
      (a.stat split name st).2.1.accesstime = e.timestamp ∧
      (a.stat split name st).2.1.createtime = e.timestamp ∧
      (a.stat split name st).2.1.modtime = e.timestamp ∧
      (e.type = FS_FILE →
        (a.stat split name st).2.1.filetype = PHYSFS_FILETYPE_REGULAR ∧
        (a.stat split name st).2.1.filesize = i64 e.length ∧
        (e.length < 9223372036854775808 → (a.stat split name st).2.1.filesize = e.length)) ∧
      (e.type = FS_DIRECTORY →
        (a.stat split name st).2.1.filetype = PHYSFS_FILETYPE_DIRECTORY ∧
        (a.stat split name st).2.1.filesize = 0)) := by
  constructor
  · intro h
    simp [stat, getFsEntry_none a split name h]
  · intro e h
    rcases type_cases e with ht | ht
    · have hs : a.stat split name st =
          (1, { st with readonly := 1, accesstime := e.timestamp, createtime := e.timestamp,
                        modtime := e.timestamp, filetype := PHYSFS_FILETYPE_REGULAR,
                        filesize := i64 e.length }, none) := by
        simp [stat, getFsEntry_some a split name e h, ht]
      rw [hs]
      refine ⟨rfl, rfl, rfl, rfl, rfl, ?_, ?_⟩
      · intro _
        refine ⟨rfl, rfl, ?_⟩
        intro hlt
        simp only
        unfold i64
        omega
      · intro hd
        rw [ht] at hd
        cases hd
    · have hs : a.stat split name st =
          (1, { st with readonly := 1, accesstime := e.timestamp, createtime := e.timestamp,
                        modtime := e.timestamp, filetype := PHYSFS_FILETYPE_DIRECTORY,
                        filesize := 0 }, none) := by
        simp [stat, getFsEntry_some a split name e h, ht]
      rw [hs]
      refine ⟨rfl, rfl, rfl, rfl, rfl, ?_, ?_⟩
      · intro hf
        rw [ht] at hf
        cases hf
      · intro _
        exact ⟨rfl, rfl⟩

/-- Witness for C19: `stat` of `A.DAT` in `exampleArchive`. -/
theorem stat_fields_witness :
    (exampleArchive.stat splitSingle (bytesOf "A.DAT") ⟨0, 0, 0, 0, PHYSFS_FILETYPE_OTHER, 0⟩).1
        = 1 ∧
      (exampleArchive.stat splitSingle (bytesOf "A.DAT")
        ⟨0, 0, 0, 0, PHYSFS_FILETYPE_OTHER, 0⟩).2.1
        = ⟨77, 946684800, 946684800, 946684800, PHYSFS_FILETYPE_REGULAR, 1⟩ := by
  have h := (stat_fields exampleArchive splitSingle (bytesOf "A.DAT")
    ⟨0, 0, 0, 0, PHYSFS_FILETYPE_OTHER, 0⟩).2
    (FSEntry.mk (bytesOf "A.DAT") FS_FILE 5 77 946684800 []) (by decide)
  exact ⟨h.1, by decide⟩

/-- C19 as claimed fails: for the entry that `readDir` makes of
`exampleRecordHuge`, of length `2^64 - 1`, `stat` reports the size `-1`. -/
theorem stat_filesize_not_entry_length :
    readDir ⟨[]⟩ 1 exampleCio exampleRecordHuge
        = Outcome.ok (exampleEntryHuge, exampleCio, exampleRecordHuge) ∧
      (exampleArchiveHuge.getFsEntry splitSingle (bytesOf "BIG")).1 = some exampleEntryHuge ∧
      exampleEntryHuge.length = 18446744073709551615 ∧
      (exampleArchiveHuge.stat splitSingle (bytesOf "BIG")
        ⟨0, 0, 0, 0, PHYSFS_FILETYPE_OTHER, 0⟩).2.1.filesize = -1 := by
  decide!

/-- C20: each of `Cue_OpenWrite`, `Cue_OpenAppend`, `Cue_Remove` and `Cue_Mkdir`
fails (null handle, or 0), sets the error code read-only, and leaves the archive,
its directory tree and its stream as they were. -/
theorem write_operations_fail (a : CueArchiver) (filename : Str) :
    (Cue_OpenWrite a filename).1 = none ∧
    (Cue_OpenWrite a filename).2.errorCode = some PHYSFS_ERR_READ_ONLY ∧
    (Cue_OpenWrite a filename).2.archiver = a ∧
    (Cue_OpenAppend a filename).1 = none ∧
    (Cue_OpenAppend a filename).2.errorCode = some PHYSFS_ERR_READ_ONLY ∧
    (Cue_OpenAppend a filename).2.archiver = a ∧
    (Cue_Remove a filename).1 = 0 ∧
    (Cue_Remove a filename).2.errorCode = some PHYSFS_ERR_READ_ONLY ∧
    (Cue_Remove a filename).2.archiver = a ∧
    (Cue_Mkdir a filename).1 = 0 ∧
    (Cue_Mkdir a filename).2.errorCode = some PHYSFS_ERR_READ_ONLY ∧
    (Cue_Mkdir a filename).2.archiver = a ∧
    (Cue_Mkdir a filename).2.archiver.root = a.root ∧
    (Cue_Mkdir a filename).2.archiver.cio = a.cio :=
  ⟨rfl, rfl, rfl, rfl, rfl, rfl, rfl, rfl, rfl, rfl, rfl, rfl, rfl, rfl⟩

end Archiver

/-! ## `toUnixTime` -/

theorem i32_of_range {x : Int} (h0 : -2147483648 ≤ x) (h1 : x < 2147483648) : i32 x = x := by
  unfold i32; omega

theorem tdiv_four_bounds (x : Int) :
    (0 ≤ x → 4 * Int.tdiv x 4 ≤ x ∧ x < 4 * Int.tdiv x 4 + 4) ∧
    (x < 0 → x ≤ 4 * Int.tdiv x 4 ∧ 4 * Int.tdiv x 4 < x + 4) := by
  constructor
  · intro h
    rw [Int.tdiv_eq_ediv h (by omega)]
    omega
  · intro h
    have h2 : Int.tdiv x 4 = -(Int.tdiv (-x) 4) := by
      rw [Int.neg_tdiv]; simp
    rw [h2, Int.tdiv_eq_ediv (by omega) (by omega)]
    omega

/-- Where the year byte is at least 2 and at most 138 no 32-bit product overflows,
and the code computes the exact value. -/
theorem toUnixTime_exact_of_year_le (year month day hour minute second gmtOffset : Nat)
    (hy2 : 2 ≤ year) (hy : year ≤ 138) (hm : month < 256) (hd : day < 256) (hh : hour < 256)
    (hmi : minute < 256) (hs : second < 256) (hg : gmtOffset < 256) :
    toUnixTime [year, month, day, hour, minute, second, gmtOffset]
      = toUnixTimeExact year month day hour minute second gmtOffset := by
  have e0 : year % 256 = year := Nat.mod_eq_of_lt (by omega)
  have e1 : month % 256 = month := Nat.mod_eq_of_lt hm
  have e2 : day % 256 = day := Nat.mod_eq_of_lt hd
  have e3 : hour % 256 = hour := Nat.mod_eq_of_lt hh
  have e4 : minute % 256 = minute := Nat.mod_eq_of_lt hmi
  have e5 : second % 256 = second := Nat.mod_eq_of_lt hs
  have e6 : gmtOffset % 256 = gmtOffset := Nat.mod_eq_of_lt hg
  obtain ⟨hq1, hq2⟩ := tdiv_four_bounds ((year : Int) - 70)
  generalize hq : Int.tdiv ((year : Int) - 70) 4 = q at hq1 hq2
  have hqb : -18 ≤ q ∧ q ≤ 17 := by
    by_cases hneg : (year : Int) - 70 < 0
    · have := hq2 hneg
      omega
    · have := hq1 (by omega)
      omega
  simp only [toUnixTime, toUnixTimeExact, unixSecondsExact, List.getD_cons_zero,
    List.getD_cons_succ, e0, e1, e2, e3, e4, e5, e6, hq]
  rw [i32_of_range (x := ((year : Int) - 70) * 365 * 24 * 60 * 60) (by omega) (by omega),
    i32_of_range (x := 15 * ((gmtOffset : Int) - 48)) (by omega) (by omega),
    i32_of_range (x := q * 24 * 60 * 60) (by omega) (by omega),
    i32_of_range (x := ((month : Int) - 1) * 30 * 24 * 60 * 60) (by omega) (by omega),
    i32_of_range (x := ((day : Int) - 1) * 24 * 60 * 60) (by omega) (by omega),
    i32_of_range (x := (hour : Int) * 60 * 60) (by omega) (by omega),
    i32_of_range (x := ((minute : Int) + 15 * ((gmtOffset : Int) - 48)) * 60) (by omega)
      (by omega)]
  split <;> split <;> omega

/-- C22: for the record time with year byte 139 (the year 2039), 1 January,
0:00:00, offset byte 48, the exact value is 2177452800, not negative; the code
evaluates `(year - 70) * 365 * 24 * 60 * 60` in 32 bits, where 2175984000 does not
fit, and returns -1. -/
theorem toUnixTime_overflows_at_year_139 :
    toUnixTime [139, 1, 1, 0, 0, 0, 48] = -1 ∧
    unixSecondsExact 139 1 1 0 0 0 48 = 2177452800 ∧
    toUnixTimeExact 139 1 1 0 0 0 48 = 2177452800 ∧
    toUnixTime [138, 1, 1, 0, 0, 0, 48] = toUnixTimeExact 138 1 1 0 0 0 48 ∧
    toUnixTime [1, 1, 1, 0, 0, 0, 48] = 2117514496 ∧
    toUnixTimeExact 1 1 1 0 0 0 48 = -1 := by
  decide

/-! ## `readDir` on a file record -/

theorem cutAtSemicolon_flags (dirRecord : IsoDirRecord_hdr) :
    dirRecord.cutAtSemicolon.flags = dirRecord.flags := by
  unfold IsoDirRecord_hdr.cutAtSemicolon
  split
  · rename_i i _
    simp only [IsoDirRecord_hdr.flags, List.getD_eq_getElem?_getD]
    rw [List.getElem?_set_ne (by omega)]
  · rfl

theorem FSEntry.type_mk (n : Str) (t : FSEntryType) (o l : Nat) (ts : Int)
    (c : List (Str × FSEntry)) : (FSEntry.mk n t o l ts c).type = t := rfl

theorem FSEntry.offset_mk (n : Str) (t : FSEntryType) (o l : Nat) (ts : Int)
    (c : List (Str × FSEntry)) : (FSEntry.mk n t o l ts c).offset = o := rfl

theorem FSEntry.length_mk (n : Str) (t : FSEntryType) (o l : Nat) (ts : Int)
    (c : List (Str × FSEntry)) : (FSEntry.mk n t o l ts c).length = l := rfl

theorem FSEntry.timestamp_mk (n : Str) (t : FSEntryType) (o l : Nat) (ts : Int)
    (c : List (Str × FSEntry)) : (FSEntry.mk n t o l ts c).timestamp = ts := rfl

theorem FSEntry.children_mk (n : Str) (t : FSEntryType) (o l : Nat) (ts : Int)
    (c : List (Str × FSEntry)) : (FSEntry.mk n t o l ts c).children = c := rfl

/-- `readDir` on a file record: for a record whose file name is a C string (it holds
a NUL) and whose flags byte has the directory bit clear, `readDir` returns at
once: a file entry without children, with the record's little-endian extent
location as offset, the record time's `toUnixTime` as time stamp, and as length
the 32-bit extent length after its passage through the `int32_t` local `length`,
which is the extent length itself when that is below `2^31`; the stream is the
one passed in. -/
theorem readDir_file_record (g : IsoDirRecord_hdr) (fuel : Nat) (cio : CueIO)
    (dirRecord : IsoDirRecord_hdr) (hfuel : 0 < fuel) (hnul : 0 ∈ dirRecord.fileName)
    (hflag : dirRecord.flags &&& FSFLAG_DIRENT = 0) :
    ∃ e, readDir g fuel cio dirRecord = Outcome.ok (e, cio, dirRecord.cutAtSemicolon) ∧
      e.type = FSEntryType.FS_FILE ∧ e.children = [] ∧
      e.offset = le32 dirRecord.extentLoc ∧
      e.timestamp = toUnixTime dirRecord.recTime ∧
      e.length = u64 (i32 (le32 dirRecord.extentLength)) ∧
      (le32 dirRecord.extentLength < 2147483648 → e.length = le32 dirRecord.extentLength) := by
  obtain ⟨n, rfl⟩ : ∃ n, fuel = n + 1 := ⟨fuel - 1, by omega⟩
  have hflag' : dirRecord.cutAtSemicolon.flags &&& FSFLAG_DIRENT = 0 := by
    rw [cutAtSemicolon_flags]; exact hflag
  have hrd : readDir g (n + 1) cio dirRecord = Outcome.ok
      (FSEntry.mk (cString dirRecord.cutAtSemicolon.fileName) FSEntryType.FS_FILE
        (le32 dirRecord.extentLoc) (u64 (i32 (le32 dirRecord.extentLength)))
        (toUnixTime dirRecord.recTime) [], cio, dirRecord.cutAtSemicolon) := by
    simp only [readDir]
    rw [if_neg (by simpa using hnul), if_pos hflag']
  have key : le32 dirRecord.extentLength < 2147483648 →
      u64 (i32 (le32 dirRecord.extentLength)) = le32 dirRecord.extentLength := by
    intro hlt
    unfold u64 i32
    omega
  refine ⟨_, hrd, FSEntry.type_mk _ _ _ _ _ _, FSEntry.children_mk _ _ _ _ _ _,
    FSEntry.offset_mk _ _ _ _ _ _, FSEntry.timestamp_mk _ _ _ _ _ _,
    FSEntry.length_mk _ _ _ _ _ _, ?_⟩
  intro hlt
  rw [FSEntry.length_mk]
  exact key hlt

/-- An instance of `readDir_file_record`: the record of the file `A.DAT;1`, at block 5,
of 77 bytes. -/
theorem readDir_file_record_witness :
    ∃ e, readDir ⟨[]⟩ 1 exampleCio ⟨recordBytes 40 5 77 0 (bytesOf "A.DAT;1") ++ [0]⟩
          = Outcome.ok (e, exampleCio,
              IsoDirRecord_hdr.cutAtSemicolon
                ⟨recordBytes 40 5 77 0 (bytesOf "A.DAT;1") ++ [0]⟩) ∧
      e.type = FSEntryType.FS_FILE ∧ e.children = [] ∧
      e.offset = le32 (IsoDirRecord_hdr.extentLoc
        ⟨recordBytes 40 5 77 0 (bytesOf "A.DAT;1") ++ [0]⟩) ∧
      e.timestamp = toUnixTime (IsoDirRecord_hdr.recTime
        ⟨recordBytes 40 5 77 0 (bytesOf "A.DAT;1") ++ [0]⟩) ∧
      e.length = u64 (i32 (le32 (IsoDirRecord_hdr.extentLength
        ⟨recordBytes 40 5 77 0 (bytesOf "A.DAT;1") ++ [0]⟩))) ∧
      (le32 (IsoDirRecord_hdr.extentLength
          ⟨recordBytes 40 5 77 0 (bytesOf "A.DAT;1") ++ [0]⟩) < 2147483648 →
        e.length = le32 (IsoDirRecord_hdr.extentLength
          ⟨recordBytes 40 5 77 0 (bytesOf "A.DAT;1") ++ [0]⟩)) :=
  readDir_file_record ⟨[]⟩ 1 exampleCio ⟨recordBytes 40 5 77 0 (bytesOf "A.DAT;1") ++ [0]⟩
    (by decide) (by decide) (by decide)

/-- C27 (the code departs from the claim): the file record `exampleRecordHuge` has
the extent length `FF FF FF FF`, that is 4294967295 (the member `val` of
`int32_lsb_msb` is a `uint32_t`); `readDir` copies it into the local
`int32_t length`, where it is -1, and from there into the `uint64_t` member of the
entry: the entry has the length `2^64 - 1`. -/
theorem readDir_file_length_sign_extended :
    exampleRecordHuge.flags &&& FSFLAG_DIRENT = 0 ∧
      le32 exampleRecordHuge.extentLength = 4294967295 ∧
      readDir ⟨[]⟩ 1 exampleCio exampleRecordHuge
        = Outcome.ok (exampleEntryHuge, exampleCio, exampleRecordHuge) ∧
      exampleEntryHuge.length = 18446744073709551615 := by
  decide!

/-! ## `read` in the cooked modes -/

/-- C23: `read` in the two cooked modes, on a usable file stream.  The block counter
`lbaCurrent` grows by `len / 2048` (in 32 bits) and `posInLba` stays; the bytes
stored are those the file holds from its cursor on, at most `len`.  The value
returned is `tellg()` after the read minus `tellg()` before: it is `len`, the
number of bytes delivered, when the file holds `len` bytes from the cursor on;
when the file comes up short, `tellg()` is `-1` afterwards and the value returned
is `-1 - cursor`, not the number of bytes delivered. -/
theorem read_cooked_count (c : CueIO) (len : Nat) (hc : c.trackMode.cooked = true)
    (hlen0 : 0 < len) (hlen : len < 9223372036854775808)
    (hgood : c.fileStream.failed = false) :
    ∃ r, c.read len = some r ∧
      r.bytes = (c.fileStream.image.drop c.fileStream.cursor).take len ∧
      r.io.lbaCurrent = u32 (c.lbaCurrent + len / 2048) ∧ r.io.posInLba = c.posInLba ∧
      (c.fileStream.cursor + len ≤ c.fileStream.image.length →
        r.ret = len ∧ r.bytes.length = len) ∧
      (c.fileStream.image.length < c.fileStream.cursor + len →
        r.ret = -1 - (c.fileStream.cursor : Int) ∧
        r.bytes.length = c.fileStream.image.length - c.fileStream.cursor ∧
        r.ret ≠ r.bytes.length) := by
  have hi : i64 (len : Int) = len := i64_of_lt (by omega) (by omega)
  have hneg : ¬ ((len : Int) < 0) := by omega
  refine ⟨_, read_cooked c len hlen0 hc, ?_, rfl, rfl, ?_, ?_⟩
  · simp [hi, IfStream.read, hgood, hneg]
  · intro havail
    have hl : ((c.fileStream.image.drop c.fileStream.cursor).take len).length = len := by
      simp only [List.length_take, List.length_drop]; omega
    simp only [hi, IfStream.read, hgood, hneg, IfStream.tellg, Bool.false_eq_true, ↓reduceIte,
      Int.toNat_ofNat, hl, Nat.lt_irrefl, decide_False]
    constructor
    · push_cast
      omega
    · trivial
  · intro hshort
    have hl : ((c.fileStream.image.drop c.fileStream.cursor).take len).length
        = c.fileStream.image.length - c.fileStream.cursor := by
      simp only [List.length_take, List.length_drop]; omega
    have hlt : c.fileStream.image.length - c.fileStream.cursor < len := by omega
    simp only [hi, IfStream.read, hgood, hneg, IfStream.tellg, Bool.false_eq_true, ↓reduceIte,
      Int.toNat_ofNat, hl, hlt, decide_True]
    refine ⟨trivial, trivial, ?_⟩
    omega

/-- Witness for C23: a `MODE1_2048` stream over an image of 100 bytes; `read(200)`
stores the 100 bytes the file delivers and returns `-1`. -/
theorem read_cooked_count_witness :
    ∃ r, (mk' (zeroImage 100) "image.bin" 0 100 FT_BINARY MODE1_2048).read 200 = some r ∧
      r.bytes = ((mk' (zeroImage 100) "image.bin" 0 100 FT_BINARY
          MODE1_2048).fileStream.image.drop 0).take 200 ∧
      r.io.lbaCurrent = 0 ∧ r.io.posInLba = 0 ∧
      r.ret = -1 ∧ r.bytes.length = 100 ∧ r.ret ≠ r.bytes.length := by
  obtain ⟨r, h1, h2, h3, h4, -, h6⟩ :=
    read_cooked_count (mk' (zeroImage 100) "image.bin" 0 100 FT_BINARY MODE1_2048) 200
      (by decide) (by decide) (by decide) (by decide)
  have h7 := h6 (by decide)
  exact ⟨r, h1, h2, h3, h4, h7.1, h7.2.1, h7.2.2⟩

/-! ## `CueParser`: unexpected commands and malformed arguments -/

section ParserMore

open CueParser

/-- C24 (amended): a matched line whose command word is not the one the state
expects.  In `PARSER_START` (expects FILE) and in `PARSER_TRACK` (expects INDEX)
the line is ignored: the parser is unchanged and parsing goes on with the next
line.  In `PARSER_FILE` (expects TRACK) the line is an error: the state becomes
`PARSER_ERROR`, `fileType` becomes `FT_UNDEFINED`, and parsing stops invalid;
`dataFileName` and `trackMode` are unchanged. -/
theorem unexpected_command (p : CueParser) (cueLine : Str) (rest : List Str) (mc : MatchState)
    (hc : commandRegex.search cueLine = some mc) :
    (p.parserState = PARSER_START → toUpper (mc.sub 1) ≠ bytesOf "FILE" →
      p.dispatch (mc.sub 1) (mc.sub 2) = some p ∧
      p.parseLines (cueLine :: rest) = p.parseLines rest) ∧
    (p.parserState = PARSER_TRACK → toUpper (mc.sub 1) ≠ bytesOf "INDEX" →
      p.dispatch (mc.sub 1) (mc.sub 2) = some p ∧
      p.parseLines (cueLine :: rest) = p.parseLines rest) ∧
    (p.parserState = PARSER_FILE → toUpper (mc.sub 1) ≠ bytesOf "TRACK" →
      p.dispatch (mc.sub 1) (mc.sub 2)
        = some { p with parserState := PARSER_ERROR, fileType := FT_UNDEFINED } ∧
      p.parseLines (cueLine :: rest)
        = some { p with parserState := PARSER_ERROR, fileType := FT_UNDEFINED } ∧
      ({ p with parserState := PARSER_ERROR, fileType := FT_UNDEFINED } : CueParser).isValid
        = false) := by
  refine ⟨?_, ?_, ?_⟩
  · intro hs hcmd
    have hd : p.dispatch (mc.sub 1) (mc.sub 2) = some p := by
      simp [dispatch, hs, parseStart, hcmd]
    refine ⟨hd, ?_⟩
    simp [parseLines, hc, hd, hs]
  · intro hs hcmd
    have hd : p.dispatch (mc.sub 1) (mc.sub 2) = some p := by
      simp [dispatch, hs, parseTrack, hcmd]
    refine ⟨hd, ?_⟩
    simp [parseLines, hc, hd, hs]
  · intro hs hcmd
    have hd : p.dispatch (mc.sub 1) (mc.sub 2)
        = some { p with parserState := PARSER_ERROR, fileType := FT_UNDEFINED } := by
      simp [dispatch, hs, parseFile, hcmd]
    refine ⟨hd, ?_, rfl⟩
    simp [parseLines, hc, hd]

/-- Witness for C24: the line `REM made by hand` met in `PARSER_START`. -/
theorem unexpected_command_witness :
    fresh.dispatch (bytesOf "REM") (bytesOf "made by hand") = some fresh ∧
      fresh.parseLines (bytesOf "REM made by hand" :: [bytesOf "FILE \"game.bin\" BINARY"])
        = fresh.parseLines [bytesOf "FILE \"game.bin\" BINARY"] :=
  (unexpected_command fresh (bytesOf "REM made by hand") [bytesOf "FILE \"game.bin\" BINARY"]
    ⟨[], [(2, bytesOf "made by hand"), (1, bytesOf "REM")]⟩ (by decide)).1
    (by decide) (by decide)

/-- C24 as claimed fails: the line `REM made by hand` met in `PARSER_FILE` (after
`FILE "game.bin" BINARY`) changes the state to `PARSER_ERROR` and `fileType` to
`FT_UNDEFINED`. -/
theorem unexpected_command_in_file_state_is_error :
    fresh.parseLines [bytesOf "FILE \"game.bin\" BINARY"]
        = some ⟨PARSER_FILE, bytesOf "game.bin", FT_BINARY, MODE_UNDEFINED⟩ ∧
      toUpper (bytesOf "REM") ≠ bytesOf "TRACK" ∧
      (⟨PARSER_FILE, bytesOf "game.bin", FT_BINARY, MODE_UNDEFINED⟩ : CueParser).parseLines
          [bytesOf "REM made by hand"]
        = some ⟨PARSER_ERROR, bytesOf "game.bin", FT_UNDEFINED, MODE_UNDEFINED⟩ := by
  decide

/-- C25: a matched line whose command is the expected one and whose arguments do
not match the argument pattern.  For FILE in `PARSER_START` the parser moves to
`PARSER_ERROR` and parsing stops invalid.  For TRACK in `PARSER_FILE` the function
`parseFile` records the error and then goes on to dereference the end iterator:
undefined behaviour (`none`), for the call and for the whole parse. -/
theorem malformed_arguments (p : CueParser) (cueLine : Str) (rest : List Str) (mc : MatchState)
    (hc : commandRegex.search cueLine = some mc) :
    (p.parserState = PARSER_START → toUpper (mc.sub 1) = bytesOf "FILE" →
      fileArgRegex.search (mc.sub 2) = none →
      p.parseLines (cueLine :: rest) = some { p with parserState := PARSER_ERROR } ∧
      ({ p with parserState := PARSER_ERROR } : CueParser).isValid = false) ∧
    (p.parserState = PARSER_FILE → toUpper (mc.sub 1) = bytesOf "TRACK" →
      trackArgRegex.search (mc.sub 2) = none →
      p.parseFile (mc.sub 1) (mc.sub 2) = none ∧ p.parseLines (cueLine :: rest) = none) := by
  constructor
  · intro hs hcmd ha
    refine ⟨?_, rfl⟩
    simp [parseLines, hc, dispatch, hs, parseStart, hcmd, ha]
  · intro hs hcmd ha
    have hf : p.parseFile (mc.sub 1) (mc.sub 2) = none := by
      simp [parseFile, hcmd, ha]
    refine ⟨hf, ?_⟩
    simp [parseLines, hc, dispatch, hs, hf]

/-- Witness for C25: the line `TRACK xx` met in `PARSER_FILE`. -/
theorem malformed_arguments_witness :
    (⟨PARSER_FILE, bytesOf "game.bin", FT_BINARY, MODE_UNDEFINED⟩ : CueParser).parseFile
        ((⟨[], [(2, bytesOf "xx"), (1, bytesOf "TRACK")]⟩ : MatchState).sub 1)
        ((⟨[], [(2, bytesOf "xx"), (1, bytesOf "TRACK")]⟩ : MatchState).sub 2) = none ∧
      (⟨PARSER_FILE, bytesOf "game.bin", FT_BINARY, MODE_UNDEFINED⟩ : CueParser).parseLines
        (bytesOf "TRACK xx" :: [bytesOf "INDEX 01 00:00:00"]) = none :=
  (malformed_arguments ⟨PARSER_FILE, bytesOf "game.bin", FT_BINARY, MODE_UNDEFINED⟩
    (bytesOf "TRACK xx") [bytesOf "INDEX 01 00:00:00"]
    ⟨[], [(2, bytesOf "xx"), (1, bytesOf "TRACK")]⟩ (by decide)).2
    (by decide) (by decide) (by decide)

end ParserMore

/-! ## `CueParser`: the INDEX command -/

section ParserMore2

open CueParser

/-- C26: a matched INDEX line met in `PARSER_TRACK`.  If its argument matches
`indexArgRegex` the parser moves to `PARSER_FINISH` and parsing stops valid.  If
it does not, the line changes nothing (it is not an error) and parsing goes on
with the next line; so after any number of such lines the parser is still in
`PARSER_TRACK`, invalid if the sheet ends there, and a well-formed INDEX line that
follows completes the parse. -/
theorem index_command (p : CueParser) (hs : p.parserState = PARSER_TRACK) :
    (∀ cueLine rest mc m, commandRegex.search cueLine = some mc →
      toUpper (mc.sub 1) = bytesOf "INDEX" → indexArgRegex.search (mc.sub 2) = some m →
      p.parseLines (cueLine :: rest) = some { p with parserState := PARSER_FINISH } ∧
      ({ p with parserState := PARSER_FINISH } : CueParser).isValid = true) ∧
    (∀ cueLine rest mc, commandRegex.search cueLine = some mc →
      toUpper (mc.sub 1) = bytesOf "INDEX" → indexArgRegex.search (mc.sub 2) = none →
      p.dispatch (mc.sub 1) (mc.sub 2) = some p ∧
      p.parseLines (cueLine :: rest) = p.parseLines rest) ∧
    (∀ bad : List Str,
      (∀ l ∈ bad, ∃ mc, commandRegex.search l = some mc ∧
        toUpper (mc.sub 1) = bytesOf "INDEX" ∧ indexArgRegex.search (mc.sub 2) = none) →
      p.parseLines bad = some p ∧ p.isValid = false ∧
      ∀ cueLine rest mc m, commandRegex.search cueLine = some mc →
        toUpper (mc.sub 1) = bytesOf "INDEX" → indexArgRegex.search (mc.sub 2) = some m →
        p.parseLines (bad ++ cueLine :: rest) = some { p with parserState := PARSER_FINISH }) := by
  have hgood : ∀ cueLine rest mc m, commandRegex.search cueLine = some mc →
      toUpper (mc.sub 1) = bytesOf "INDEX" → indexArgRegex.search (mc.sub 2) = some m →
      p.parseLines (cueLine :: rest) = some { p with parserState := PARSER_FINISH } := by
    intro cueLine rest mc m hc hcmd ha
    simp [parseLines, hc, dispatch, hs, parseTrack, hcmd, ha]
  have hbad : ∀ cueLine rest mc, commandRegex.search cueLine = some mc →
      toUpper (mc.sub 1) = bytesOf "INDEX" → indexArgRegex.search (mc.sub 2) = none →
      p.dispatch (mc.sub 1) (mc.sub 2) = some p ∧
      p.parseLines (cueLine :: rest) = p.parseLines rest := by
    intro cueLine rest mc hc hcmd ha
    have hd : p.dispatch (mc.sub 1) (mc.sub 2) = some p := by
      simp [dispatch, hs, parseTrack, hcmd, ha]
    refine ⟨hd, ?_⟩
    simp [parseLines, hc, hd, hs]
  refine ⟨fun cueLine rest mc m hc hcmd ha => ⟨hgood cueLine rest mc m hc hcmd ha, rfl⟩,
    hbad, ?_⟩
  intro bad hall
  have hskip : ∀ tail : List Str, p.parseLines (bad ++ tail) = p.parseLines tail := by
    intro tail
    induction bad with
    | nil => rfl
    | cons l t ih =>
      obtain ⟨mc, hc, hcmd, ha⟩ := hall l (List.mem_cons_self _ _)
      rw [List.cons_append, (hbad l (t ++ tail) mc hc hcmd ha).2]
      exact ih (fun l' hl' => hall l' (List.mem_cons_of_mem _ hl'))
  refine ⟨?_, ?_, ?_⟩
  · have := hskip []
    rw [List.append_nil] at this
    rw [this]
    rfl
  · simp [isValid, hs]
  · intro cueLine rest mc m hc hcmd ha
    rw [hskip, hgood cueLine rest mc m hc hcmd ha]

/-- Witness for C26: in `PARSER_TRACK`, the malformed line `INDEX 01 0:0:0` is
passed over and the line `INDEX 01 00:02:00` after it completes the parse. -/
theorem index_command_witness :
    (⟨PARSER_TRACK, bytesOf "game.bin", FT_BINARY, MODE2_2352⟩ : CueParser).parseLines
        [bytesOf "INDEX 01 0:0:0"]
        = some ⟨PARSER_TRACK, bytesOf "game.bin", FT_BINARY, MODE2_2352⟩ ∧
      (⟨PARSER_TRACK, bytesOf "game.bin", FT_BINARY, MODE2_2352⟩ : CueParser).isValid = false ∧
      (⟨PARSER_TRACK, bytesOf "game.bin", FT_BINARY, MODE2_2352⟩ : CueParser).parseLines
        ([bytesOf "INDEX 01 0:0:0"] ++ bytesOf "INDEX 01 00:02:00" :: [])
        = some ⟨PARSER_FINISH, bytesOf "game.bin", FT_BINARY, MODE2_2352⟩ := by
  have h := (index_command ⟨PARSER_TRACK, bytesOf "game.bin", FT_BINARY, MODE2_2352⟩ rfl).2.2
    [bytesOf "INDEX 01 0:0:0"] (by decide)
  exact ⟨h.1, h.2.1, h.2.2 (bytesOf "INDEX 01 00:02:00") []
    ⟨[], [(2, bytesOf "01 00:02:00"), (1, bytesOf "INDEX")]⟩
    ⟨[], [(4, bytesOf "00"), (3, bytesOf "02"), (2, bytesOf "00"), (1, bytesOf "01")]⟩
    (by decide) (by decide) (by decide)⟩

end ParserMore2

/-! ## `CueParser`: the descriptor of a valid parse -/

section ParserMore3

open CueParser

theorem repRun_length (cls : Nat → Bool) (min : Nat) (max : Option Nat) :
    ∀ (s : Str) (k : Nat) (r : Str), r ∈ repRun cls min max k s →
      r.length + min ≤ s.length + k ∧ r.length ≤ s.length := by
  intro s
  induction s with
  | nil =>
    intro k r hr
    simp only [repRun] at hr
    split at hr
    · simp only [List.mem_singleton] at hr
      subst hr
      simp only [List.length_nil]
      omega
    · simp at hr
  | cons c t ih =>
    intro k r hr
    simp only [repRun, List.mem_append] at hr
    rcases hr with hr | hr
    · split at hr
      · have := ih (k + 1) r hr
        simp only [List.length_cons]
        omega
      · simp at hr
    · split at hr
      · simp only [List.mem_singleton] at hr
        subst hr
        simp only [List.length_cons]
        omega
      · simp at hr

theorem run_rep_caps (cls : Nat → Bool) (min : Nat) (max : Option Nat) (st m : MatchState)
    (h : m ∈ (Regex.rep cls min max).run st) :
    m.caps = st.caps ∧ m.rest.length + min ≤ st.rest.length := by
  simp only [Regex.run, List.mem_map] at h
  obtain ⟨r, hr, rfl⟩ := h
  have := repRun_length cls min max st.rest 0 r hr
  exact ⟨rfl, by simpa using this.1⟩

theorem run_backref_caps (i : Nat) (st m : MatchState) (h : m ∈ (Regex.backref i).run st) :
    m.caps = st.caps := by
  simp only [Regex.run] at h
  split at h
  · simp only [List.mem_singleton] at h
    rw [h]
  · split at h
    · simp only [List.mem_singleton] at h
      rw [h]
    · simp at h

theorem search_mem (re : Regex) (s : Str) (m : MatchState) (h : re.search s = some m) :
    ∃ t, m ∈ re.run ⟨t, []⟩ := by
  induction s with
  | nil =>
    simp only [Regex.search] at h
    exact ⟨[], List.mem_of_mem_head? h⟩
  | cons c t ih =>
    simp only [Regex.search] at h
    split at h
    · rename_i m' hm'
      simp only [Option.some.injEq] at h
      subst h
      exact ⟨c :: t, List.mem_of_mem_head? hm'⟩
    · exact ih h

/-- The second group of a match of `fileArgRegex`, the file name, is not empty. -/
theorem fileArgRegex_name_ne_nil (arg : Str) (m : MatchState)
    (h : fileArgRegex.search arg = some m) : m.sub 2 ≠ [] := by
  obtain ⟨t, hm⟩ := search_mem _ _ _ h
  simp only [fileArgRegex, Regex.run, List.mem_flatMap, List.mem_map] at hm
  obtain ⟨s1, ⟨r1, hr1, rfl⟩, s2, ⟨r2, hr2, rfl⟩, s3, hs3, s4, ⟨r4, hr4, rfl⟩, r5, hr5, rfl⟩ := hm
  have hb := run_backref_caps 1 _ s3 hs3
  obtain ⟨x, hx, rfl⟩ := hr1
  obtain ⟨y, hy, rfl⟩ := hr2
  obtain ⟨z, hz, rfl⟩ := hr5
  have hlen := (repRun_length isDot 1 none x 0 y hy).1
  simp only [MatchState.sub, List.lookup, hb]
  simp only [show ((2 : Nat) == 3) = false from rfl, show ((2 : Nat) == 2) = true from rfl,
    Option.getD_some]
  intro hnil
  have := congrArg List.length hnil
  simp only [List.length_take, List.length_nil] at this
  omega

/-- What holds of the parser in each state: from `PARSER_FILE` on the file type is
`FT_BINARY` and the file name is not empty; from `PARSER_TRACK` on the track mode
is a supported one. -/
theorem dispatch_inv (p p' : CueParser) (command arg : Str)
    (hd : p.dispatch command arg = some p')
    (h1 : p.parserState = PARSER_FILE ∨ p.parserState = PARSER_TRACK ∨
        p.parserState = PARSER_FINISH → p.fileType = FT_BINARY ∧ p.dataFileName ≠ [])
    (h2 : p.parserState = PARSER_TRACK ∨ p.parserState = PARSER_FINISH →
        p.trackMode ≠ MODE_UNDEFINED) :
    (p'.parserState = PARSER_FILE ∨ p'.parserState = PARSER_TRACK ∨
        p'.parserState = PARSER_FINISH → p'.fileType = FT_BINARY ∧ p'.dataFileName ≠ []) ∧
    (p'.parserState = PARSER_TRACK ∨ p'.parserState = PARSER_FINISH →
        p'.trackMode ≠ MODE_UNDEFINED) := by
  unfold dispatch at hd
  split at hd
  · rename_i hs
    simp only [Option.some.injEq] at hd
    subst hd
    by_cases hcmd : toUpper command ≠ bytesOf "FILE"
    · have e : p.parseStart command arg = (false, p) := by simp [parseStart, hcmd]
      rw [e]
      simp [hs]
    · cases ha : fileArgRegex.search arg with
      | none =>
        have e : p.parseStart command arg = (false, { p with parserState := PARSER_ERROR }) := by
          simp [parseStart, hcmd, ha]
        rw [e]
        simp
      | some m =>
        by_cases ht : toUpper (m.sub 3) ≠ bytesOf "BINARY"
        · have e : p.parseStart command arg
              = (false, { p with dataFileName := m.sub 2, parserState := PARSER_ERROR,
                                 fileType := FT_UNDEFINED }) := by
            simp [parseStart, hcmd, ha, ht]
          rw [e]
          simp
        · have e : p.parseStart command arg
              = (true, { p with dataFileName := m.sub 2, fileType := FT_BINARY }) := by
            simp [parseStart, hcmd, ha, ht]
          rw [e]
          refine ⟨fun _ => ⟨?_, ?_⟩, ?_⟩
          · simp
          · simpa using fileArgRegex_name_ne_nil _ _ ha
          · simp
  · rename_i hs
    by_cases hcmd : toUpper command ≠ bytesOf "TRACK"
    · have e : p.parseFile command arg
          = some (false, { p with parserState := PARSER_ERROR, fileType := FT_UNDEFINED }) := by
        simp [parseFile, hcmd]
      rw [e] at hd
      simp only [Option.map_some', Option.some.injEq] at hd
      subst hd
      simp
    · cases ha : trackArgRegex.search arg with
      | none =>
        have e : p.parseFile command arg = none := by simp [parseFile, hcmd, ha]
        rw [e] at hd
        simp at hd
      | some m =>
        by_cases hmode : modeOfString (toUpper (m.sub 2)) = MODE_UNDEFINED
        · have e : p.parseFile command arg
              = some (false, { p with trackMode := modeOfString (toUpper (m.sub 2)),
                                      parserState := PARSER_ERROR }) := by
            simp [parseFile, hcmd, ha, hmode]
          rw [e] at hd
          simp only [Option.map_some', Option.some.injEq] at hd
          subst hd
          simp
        · have e : p.parseFile command arg
              = some (true, { p with trackMode := modeOfString (toUpper (m.sub 2)) }) := by
            simp [parseFile, hcmd, ha, hmode]
          rw [e] at hd
          simp only [Option.map_some', Option.some.injEq] at hd
          subst hd
          refine ⟨fun _ => ?_, fun _ => ?_⟩
          · simpa using h1 (Or.inl hs)
          · simpa using hmode
  · rename_i hs
    simp only [Option.some.injEq] at hd
    subst hd
    split
    · exact ⟨fun _ => h1 (Or.inr (Or.inl hs)), fun _ => h2 (Or.inl hs)⟩
    · exact ⟨h1, h2⟩
  · simp only [Option.some.injEq] at hd
    subst hd
    exact ⟨h1, h2⟩

theorem parseLines_inv (lines : List Str) :
    ∀ (p p' : CueParser), p.parseLines lines = some p' →
    (p.parserState = PARSER_FILE ∨ p.parserState = PARSER_TRACK ∨
        p.parserState = PARSER_FINISH → p.fileType = FT_BINARY ∧ p.dataFileName ≠ []) →
    (p.parserState = PARSER_TRACK ∨ p.parserState = PARSER_FINISH →
        p.trackMode ≠ MODE_UNDEFINED) →
    (p'.parserState = PARSER_FILE ∨ p'.parserState = PARSER_TRACK ∨
        p'.parserState = PARSER_FINISH → p'.fileType = FT_BINARY ∧ p'.dataFileName ≠ []) ∧
    (p'.parserState = PARSER_TRACK ∨ p'.parserState = PARSER_FINISH →
        p'.trackMode ≠ MODE_UNDEFINED) := by
  induction lines with
  | nil =>
    intro p p' h h1 h2
    simp only [parseLines, Option.some.injEq] at h
    subst h
    exact ⟨h1, h2⟩
  | cons l rest ih =>
    intro p p' h h1 h2
    simp only [parseLines] at h
    split at h
    · exact ih p p' h h1 h2
    · split at h
      · cases h
      · rename_i q hq
        have hinv := dispatch_inv p q _ _ hq h1 h2
        split at h
        · simp only [Option.some.injEq] at h
          subst h
          exact hinv
        · exact ih q p' h hinv.1 hinv.2

/-- C29: if the parser ends valid, the file type is `FT_BINARY`, the track mode is
one of the six supported modes and the data file name is not empty; so the block
size, the stride and the data offset of the track mode are defined. -/
theorem valid_parse_descriptor (lines : Option (List Str)) (p : CueParser)
    (h : CueParser.mk' lines = some p) (hv : p.isValid = true) :
    p.fileType = FT_BINARY ∧
    p.trackMode ∈ [CUE_TrackMode.MODE1_2048, MODE1_2352, MODE2_2048, MODE2_2324, MODE2_2336, MODE2_2352] ∧
    p.trackMode ≠ MODE_UNDEFINED ∧ p.dataFileName ≠ [] ∧
    (blockSize p.trackMode = 2048 ∨ blockSize p.trackMode = 2324) ∧
    binBlockSize p.trackMode ∈ [2048, 2324, 2336, 2352] ∧
    0 ≤ binDataOffset p.trackMode := by
  have hfin : p.parserState = PARSER_FINISH := by simpa [isValid] using hv
  have hinv : (p.parserState = PARSER_FILE ∨ p.parserState = PARSER_TRACK ∨
        p.parserState = PARSER_FINISH → p.fileType = FT_BINARY ∧ p.dataFileName ≠ []) ∧
      (p.parserState = PARSER_TRACK ∨ p.parserState = PARSER_FINISH →
        p.trackMode ≠ MODE_UNDEFINED) := by
    cases lines with
    | none =>
      simp only [CueParser.mk', Option.some.injEq] at h
      subst h
      simp [fresh] at hfin
    | some ls =>
      simp only [CueParser.mk'] at h
      exact parseLines_inv ls fresh p h (by simp [fresh]) (by simp [fresh])
  obtain ⟨hft, hname⟩ := hinv.1 (Or.inr (Or.inr hfin))
  have hmode := hinv.2 (Or.inr hfin)
  refine ⟨hft, ?_, hmode, hname, ?_, ?_, ?_⟩ <;>
    cases hm : p.trackMode <;> simp_all [blockSize, binBlockSize, binDataOffset]

/-- Witness for C29: the sheet for `game.bin` in `MODE2/2352`. -/
theorem valid_parse_descriptor_witness :
    FT_BINARY = FT_BINARY ∧
    MODE2_2352 ∈ [CUE_TrackMode.MODE1_2048, MODE1_2352, MODE2_2048, MODE2_2324, MODE2_2336, MODE2_2352] ∧
    MODE2_2352 ≠ MODE_UNDEFINED ∧ bytesOf "game.bin" ≠ [] ∧
    (blockSize MODE2_2352 = 2048 ∨ blockSize MODE2_2352 = 2324) ∧
    binBlockSize MODE2_2352 ∈ [2048, 2324, 2336, 2352] ∧
    0 ≤ binDataOffset MODE2_2352 :=
  valid_parse_descriptor
    (some [bytesOf "FILE \"game.bin\" BINARY", bytesOf "  TRACK 01 MODE2/2352",
      bytesOf "    INDEX 01 00:00:00"])
    ⟨PARSER_FINISH, bytesOf "game.bin", FT_BINARY, MODE2_2352⟩ (by decide) (by decide)

end ParserMore3

/-! ## The logical position after a read -/

/-- C30 (the code departs from the claim): the logical position does not always advance by
the number of bytes a read delivers.  A `MODE1/2048` stream over a complete image
of 200 bytes delivers 100 bytes and `tell()` is 0 before and after the read; a
`MODE1/2352` stream over an image cut off after 66 bytes delivers the 50 bytes
that follow the 16-byte sector header and `tell()` is still 0 afterwards; the
same `MODE1/2352` read over a complete sector moves `tell()` from 0 to 100. -/
theorem tell_not_advanced_by_read :
    (mk' (zeroImage 200) "image.iso" 0 200 FT_BINARY MODE1_2048).tell = 0 ∧
    (∃ r, (mk' (zeroImage 200) "image.iso" 0 200 FT_BINARY MODE1_2048).read 100 = some r ∧
      r.ret = 100 ∧ r.bytes.length = 100 ∧ r.io.tell = 0) ∧
    (mk' (zeroImage 66) "image.bin" 0 2048 FT_BINARY MODE1_2352).tell = 0 ∧
    (∃ r, (mk' (zeroImage 66) "image.bin" 0 2048 FT_BINARY MODE1_2352).read 100 = some r ∧
      r.ret = 50 ∧ r.bytes.length = 50 ∧ r.io.tell = 0) ∧
    (∃ r, (mk' (zeroImage 2352) "image.bin" 0 2048 FT_BINARY MODE1_2352).read 100 = some r ∧
      r.ret = 100 ∧ r.bytes.length = 100 ∧ r.io.tell = 100) := by
  refine ⟨by decide, ⟨_, rfl, by decide, by decide, by decide⟩, by decide,
    ⟨_, rfl, by decide, by decide, by decide⟩, ⟨_, rfl, by decide, by decide, by decide⟩⟩

/-! ## `readDir` over a cooked stream -/

/-- C21 (the code departs from the claim): over a `MODE1/2048` image whose first block is the
well-formed directory extent `twoFileDirectory` (records `.`, `..`, `A;1` and
`B;1`, each of length 33 + fnLength rounded up to even, zeros up to the end of the
block), `readDir` leaves only the key `A` in the children mapping: the stream is
put back to the start of the directory after the first child, and the record of
`B` is never decoded.  The same extent read through a `MODE1/2352` stream gives
both keys. -/
theorem readDir_cooked_misses_sibling :
    childKeys (readDir ⟨List.replicate 255 0⟩ 80 twoFileCooked twoFileRoot)
      = some [bytesOf "A"] ∧
    childKeys (readDir ⟨List.replicate 255 0⟩ 80 twoFileRaw twoFileRoot)
      = some [bytesOf "A", bytesOf "B"] := by
  constructor <;> decide!

/-! ## Runs of `readDir` that do not end -/

theorem readDir_of_loop_outOfFuel (g : IsoDirRecord_hdr) (n : Nat) (cio : CueIO)
    (r : IsoDirRecord_hdr) (h0 : 0 ∈ r.fileName)
    (hf : r.cutAtSemicolon.flags &&& FSFLAG_DIRENT ≠ 0)
    (h : readDirLoop g n (le32 r.extentLoc) (i32 (le32 r.extentLength))
      ⟨(cio.seek (u32 (blockSize cio.trackMode * le32 r.extentLoc + 0))).2, 0, g, []⟩
        = Outcome.outOfFuel) :
    readDir g (n + 1) cio r = Outcome.outOfFuel := by
  rw [readDir]
  simp only [h0, not_true_eq_false, if_false, if_neg hf, h]

theorem readDirLoop_of_firstCall_outOfFuel (g : IsoDirRecord_hdr) (m location : Nat)
    (length : Int) (st : DirLoop) (c : CueIO) (r : IsoDirRecord_hdr)
    (h : st.firstCall length = some (c, r)) (hr : readDir g m c r = Outcome.outOfFuel) :
    readDirLoop g (m + 1) location length st = Outcome.outOfFuel := by
  rw [readDirLoop]
  unfold DirLoop.firstCall at h
  cases h1 : st.alignEven.readHeader with
  | none => rfl
  | some st1 =>
    rw [h1] at h
    simp only at h ⊢
    split at h
    · cases h
    split at h
    · cases h
    split at h
    · rename_i h2 h3 h4
      rw [if_neg h2, if_neg h3, if_pos h4]
      cases h5 : st1.readName with
      | outOfFuel => rfl
      | undefined => rw [h5] at h; cases h
      | ok st2 =>
        rw [h5] at h
        simp only at h ⊢
        split at h
        · cases h
        · rename_i h6
          rw [if_neg h6]
          simp only [Option.some.injEq, Prod.mk.injEq] at h
          rw [h.1, h.2, hr]
    · cases h

theorem readDirLoop_of_emptyPass (g : IsoDirRecord_hdr) (m location : Nat)
    (length : Int) (st st' : DirLoop) (h : st.emptyPass location length = some st') :
    readDirLoop g (m + 1) location length st = readDirLoop g m location length st' := by
  rw [readDirLoop]
  unfold DirLoop.emptyPass at h
  cases h1 : st.alignEven.readHeader with
  | none => rw [h1] at h; cases h
  | some st1 =>
    rw [h1] at h
    simp only at h ⊢
    split at h
    · cases h
    split at h
    · rename_i h2 h3
      rw [if_neg h2, if_pos h3, h]
    · cases h

theorem readDirLoop_emptyPass_fixed (g : IsoDirRecord_hdr) (location : Nat)
    (length : Int) (st : DirLoop) (h : st.emptyPass location length = some st) (n : Nat) :
    readDirLoop g n location length st = Outcome.outOfFuel := by
  induction n with
  | zero => rw [readDirLoop]
  | succ m ih => rw [readDirLoop_of_emptyPass g m location length st st h, ih]

theorem selfRef_outOfFuel (n : Nat) :
    ∀ c : CueIO, c.trackMode = MODE1_2352 → (c.seek 0).2 = (selfRefCio.seek 0).2 →
      readDir ⟨List.replicate 255 0⟩ n c selfRefRoot = Outcome.outOfFuel := by
  induction n using Nat.strong_induction_on with
  | _ n ih =>
    intro c hm hs
    cases n with
    | zero => rw [readDir]
    | succ n =>
      apply readDir_of_loop_outOfFuel _ _ _ _ (by decide) (by decide)
      have e1 : le32 selfRefRoot.extentLoc = 0 := by decide
      have e2 : i32 (le32 selfRefRoot.extentLength) = 200 := by decide
      have e3 : u32 (blockSize c.trackMode * ((0 : Nat) : Int) + 0) = 0 := by rw [hm]; decide
      rw [e1, e2, e3, hs]
      cases n with
      | zero => rw [readDirLoop]
      | succ m =>
        have hc : (DirLoop.mk (selfRefCio.seek 0).2 0 ⟨List.replicate 255 0⟩ []).firstCall 200
            = some ((((DirLoop.mk (selfRefCio.seek 0).2 0 ⟨List.replicate 255 0⟩
                []).firstCall 200).getD (selfRefCio, selfRefRoot)).1, selfRefRoot) := by
          decide!
        refine readDirLoop_of_firstCall_outOfFuel _ m 0 200 _ _ _ hc ?_
        exact ih m (by omega) _ (by decide!) (by decide!)

theorem truncated_outOfFuel (n : Nat) :
    readDir ⟨List.replicate 255 0⟩ n truncatedCio twoFileRoot = Outcome.outOfFuel := by
  cases n with
  | zero => rw [readDir]
  | succ n =>
    apply readDir_of_loop_outOfFuel _ _ _ _ (by decide) (by decide)
    have e1 : le32 twoFileRoot.extentLoc = 0 := by decide
    have e2 : i32 (le32 twoFileRoot.extentLength) = 2048 := by decide
    have e3 : u32 (blockSize truncatedCio.trackMode * ((0 : Nat) : Int) + 0) = 0 := by decide
    rw [e1, e2, e3]
    cases n with
    | zero => rw [readDirLoop]
    | succ m =>
      rw [readDirLoop_of_emptyPass _ m 0 2048 _ truncatedLoop (by decide!)]
      exact readDirLoop_emptyPass_fixed _ 0 2048 truncatedLoop (by decide!) m

/-! ## Streams over tracks whose first bytes are in the image file -/

theorem blockBytes_cases (c : CueIO) (m : Nat) (hc : c.Covers m) :
    c.blockBytes = 2048 ∨ c.blockBytes = 2324 := by
  unfold blockBytes
  rcases hc.mode with h | h | h | h <;> rw [h] <;> simp [blockSize]

theorem blockSize_blockBytes (c : CueIO) (m : Nat) (hc : c.Covers m) :
    blockSize c.trackMode = (c.blockBytes : Int) := by
  unfold blockBytes
  rcases hc.mode with h | h | h | h <;> rw [h] <;> simp [blockSize]

theorem covers_supported (c : CueIO) (m : Nat) (hc : c.Covers m) :
    c.trackMode.supported = true := by
  rcases hc.mode with h | h | h | h <;> rw [h] <;> rfl

theorem covers_not_cooked (c : CueIO) (m : Nat) (hc : c.Covers m) :
    ¬ (c.trackMode = MODE1_2048 ∨ c.trackMode = MODE2_2048) := by
  rcases hc.mode with h | h | h | h <;> rw [h] <;> decide

theorem filePos_add (c : CueIO) (m : Nat) (hc : c.Covers m) (y i : Nat)
    (h : y % c.blockBytes + i < c.blockBytes) : c.filePos (y + i) = c.filePos y + i := by
  unfold filePos
  have hB := blockBytes_cases c m hc
  have h1 : (y + i) / c.blockBytes = y / c.blockBytes := by
    rcases hB with hB | hB <;> rw [hB] at h ⊢ <;> omega
  have h2 : (y + i) % c.blockBytes = y % c.blockBytes + i := by
    rcases hB with hB | hB <;> rw [hB] at h ⊢ <;> omega
  rw [h1, h2]; omega

theorem window_zero (c : CueIO) (x : Nat) : c.window x 0 = [] := rfl

theorem window_length (c : CueIO) (x n : Nat) : (c.window x n).length = n := by
  simp [window]

theorem window_append (c : CueIO) (x n k : Nat) :
    c.window x (n + k) = c.window x n ++ c.window (x + n) k := by
  apply List.ext_getElem
  · simp [window]
  · intro i h1 h2
    simp only [window, List.length_map, List.length_range] at h1
    simp only [window, List.getElem_map, List.getElem_range, List.getElem_append,
      List.length_map, List.length_range]
    split
    · rfl
    · congr 1; omega

theorem window_getD (c : CueIO) (x n i : Nat) (h : i < n) :
    (c.window x n).getD i 0 = c.byteAt (x + i) := by
  simp [window, List.getD_eq_getElem?_getD, List.getElem?_map, List.getElem?_range h]

/-- The bytes that the file stream delivers inside a block are the bytes of the track. -/
theorem drop_take_eq_window (c : CueIO) (m : Nat) (hc : c.Covers m) (y k : Nat)
    (hk : y % c.blockBytes + k ≤ c.blockBytes)
    (hi : k = 0 ∨ c.filePos y + k ≤ c.fileStream.image.length) :
    (c.fileStream.image.drop (c.filePos y)).take k = c.window y k := by
  rcases Nat.eq_zero_or_pos k with h0 | hpos
  · subst h0; simp [window]
  · have hi' : c.filePos y + k ≤ c.fileStream.image.length := by omega
    apply List.ext_getElem
    · simp [window]; omega
    · intro i h1 h2
      simp only [window, List.getElem_map, List.getElem_range, List.getElem_take,
        List.getElem_drop]
      simp only [List.length_take, List.length_drop] at h1
      have hik : i < k := by omega
      unfold byteAt
      rw [filePos_add c m hc y i (by omega)]
      rw [List.getD_eq_getElem _ _ (by omega)]

theorem atOffset_onTrack (c : CueIO) (x : Nat) : c.OnTrack (c.atOffset x) :=
  ⟨rfl, rfl, rfl, rfl, rfl, rfl, rfl⟩

theorem lbaToByteOffset_toNat (m : CUE_TrackMode) (lba : Nat) (hm : m.supported = true) :
    ((lbaToByteOffset m lba).toNat : Int) = lbaToByteOffset m lba :=
  Int.toNat_of_nonneg (lbaToByteOffset_nonneg m lba hm)

/-- A `seek` to an offset among the first `m` bytes puts the stream at that offset. -/
theorem seek_onTrack (c c' : CueIO) (m : Nat) (hc : c.Covers m) (ht : c.OnTrack c') (y : Nat)
    (hy : y ≤ m) : (c'.seek y).2 = c.atOffset y := by
  have hB := blockBytes_cases c m hc
  have hbs := blockSize_blockBytes c m hc
  have hsup := covers_supported c m hc
  have hlt := hc.lt
  have hle := hc.le_length
  have hL := hc.length_lt
  have hlba := hc.lba
  have hdiv : c.lbaStart + y / c.blockBytes < 4294967296 := by
    have : y / c.blockBytes ≤ m / c.blockBytes := Nat.div_le_div_right hy
    omega
  rw [seek_state c' y c.blockBytes hB (by rw [ht.trackMode]; exact hbs)
    (by rw [ht.length]; omega) (by rw [ht.length]; exact hL) (by omega)
    (by rw [ht.trackMode]; exact hsup)]
  generalize hq : y / c.blockBytes = q at hdiv ⊢
  have h1 : u32 ((c'.lbaStart : Int) + (q : Int)) = c.lbaStart + q := by
    rw [ht.lbaStart]; unfold u32; omega
  rw [h1, ht.trackMode]
  have h0 := lbaToByteOffset_nonneg c.trackMode (c.lbaStart + q) hsup
  rw [IfStream.seekg_of_nonneg _ _ ht.good (by omega)]
  have h2 : (lbaToByteOffset c.trackMode (c.lbaStart + q)
      + ((y % c.blockBytes : Nat) : Int)).toNat = c.filePos y := by
    unfold filePos; rw [hq]; omega
  rw [h2]
  obtain ⟨a1, a2, a3, a4, a5, a6, a7, ⟨b1, b2, b3⟩⟩ := c'
  obtain ⟨e1, e2, e3, e4, e5, e6, e7⟩ := ht
  simp only at e1 e2 e3 e4 e5 e6 e7
  subst e1 e2 e3 e4 e5 e6 e7
  simp only [atOffset, hq]

/-- A `seek` past the end of the track leaves the stream where it is. -/
theorem seek_past_end (c c' : CueIO) (m : Nat) (hc : c.Covers m) (ht : c.OnTrack c') (y : Nat)
    (hy : c.length < (y : Int)) : (c'.seek y).2 = c' := by
  have hle := hc.le_length
  rw [seek_beyond_length_of_nonneg c' y (by rw [ht.length]; omega)
    (by rw [ht.length]; exact hy)]

theorem tell_atOffset (c : CueIO) (m : Nat) (hc : c.Covers m) (x : Nat) (hx : x ≤ m) :
    (c.atOffset x).tell = x := by
  have hB := blockBytes_cases c m hc
  have hbs := blockSize_blockBytes c m hc
  have hlt := hc.lt
  unfold CueIO.tell
  show ((u32 (blockSize c.trackMode * (u32 (((c.lbaStart + x / c.blockBytes : Nat) : Int)
    - c.lbaStart) : Int) + ((x % c.blockBytes : Nat) : Int)) : Nat) : Int) = x
  rw [hbs]
  have hq : x / c.blockBytes < 4294967296 :=
    lt_of_le_of_lt (Nat.div_le_self _ _) (by omega)
  have h1 : u32 (((c.lbaStart + x / c.blockBytes : Nat) : Int) - c.lbaStart)
      = x / c.blockBytes := by
    generalize x / c.blockBytes = q at hq ⊢
    unfold u32; push_cast; omega
  rw [h1]
  rcases hB with hB | hB <;> rw [hB] <;> (unfold u32; omega)

/-- Inside a block, and among the first `m` bytes of the track, the file stream
delivers the bytes of the track in full. -/
theorem fileStream_read_window (c : CueIO) (m : Nat) (hc : c.Covers m) (y k : Nat)
    (hk : y % c.blockBytes + k ≤ c.blockBytes) (hy : y + k ≤ m) :
    (c.atOffset y).fileStream.read (k : Int)
      = (⟨c.fileStream.image, c.filePos y + k, false⟩, c.window y k) := by
  have hB := blockBytes_cases c m hc
  have hi : k = 0 ∨ c.filePos y + k ≤ c.fileStream.image.length := by
    rcases Nat.eq_zero_or_pos k with h0 | hpos
    · exact Or.inl h0
    · right
      have h1 := hc.image (y + (k - 1)) (by omega)
      rw [filePos_add c m hc y (k - 1) (by omega)] at h1
      omega
  have hw := drop_take_eq_window c m hc y k hk hi
  have hn : ¬ ((k : Int) < 0) := by omega
  have hl : ((c.fileStream.image.drop (c.filePos y)).take k).length = k := by
    rw [hw, window_length]
  show IfStream.read ⟨c.fileStream.image, c.filePos y, false⟩ (k : Int) = _
  unfold IfStream.read
  simp only [Bool.false_eq_true, if_false, if_neg hn, Int.toNat_ofNat, hw, window_length,
    Nat.lt_irrefl, decide_False]

theorem atOffset_advance_inblock (c : CueIO) (m : Nat) (hc : c.Covers m) (y k : Nat)
    (hk : y % c.blockBytes + k < c.blockBytes) :
    ({ c.atOffset y with fileStream := ⟨c.fileStream.image, c.filePos y + k, false⟩,
                         posInLba := (c.atOffset y).posInLba + k } : CueIO)
      = c.atOffset (y + k) := by
  have hB := blockBytes_cases c m hc
  have h1 : (y + k) / c.blockBytes = y / c.blockBytes := by
    rcases hB with hB | hB <;> rw [hB] at hk ⊢ <;> omega
  have h2 : (y + k) % c.blockBytes = y % c.blockBytes + k := by
    rcases hB with hB | hB <;> rw [hB] at hk ⊢ <;> omega
  simp only [atOffset, h1, h2, filePos_add c m hc y k hk]

theorem readLoop_onTrack (c : CueIO) (m : Nat) (hc : c.Covers m) (len : Nat)
    (hlen : len < 18446744073709551616) :
    ∀ (fuel y t : Nat) (buf : List Nat), t ≤ len → y + (len - t) ≤ m →
      (y % c.blockBytes + (len - t)) / c.blockBytes + 1 ≤ fuel →
      readLoop fuel (c.atOffset y) len (t : Int) buf
        = some ⟨len, buf ++ c.window y (len - t), c.atOffset (y + (len - t))⟩ := by
  have hB := blockBytes_cases c m hc
  have hbs := blockSize_blockBytes c m hc
  have hlt := hc.lt
  have hB32 : c.blockBytes < 4294967296 := by rcases hB with h | h <;> omega
  have hBpos : 0 < c.blockBytes := by rcases hB with h | h <;> omega
  intro fuel
  induction fuel with
  | zero => intro y t buf _ _ h; exact absurd h (Nat.not_succ_le_zero _)
  | succ fuel ih =>
    intro y t buf ht hy hf
    have hp : (c.atOffset y).posInLba < c.blockBytes := Nat.mod_lt _ hBpos
    have hu : u32 (blockSize (c.atOffset y).trackMode) = c.blockBytes := by
      show u32 (blockSize c.trackMode) = _
      rw [hbs]; unfold u32; omega
    rw [readLoop]
    by_cases hin : y % c.blockBytes + (len - t) < c.blockBytes
    · have hmin : min (len - t) (c.blockBytes - (c.atOffset y).posInLba) = len - t := by
        show min (len - t) (c.blockBytes - y % c.blockBytes) = len - t
        omega
      have hr := fileStream_read_window c m hc y (len - t) (by omega) hy
      rw [readBody_inblock (c.atOffset y) len t buf c.blockBytes hbs hB32 hu hp ht hlen
        (by rw [hmin, hr, window_length]) hin]
      simp only [hr]
      rw [atOffset_advance_inblock c m hc y (len - t) hin]
    · have hp' : (c.atOffset y).posInLba = y % c.blockBytes := rfl
      have hchunk : y % c.blockBytes + (c.blockBytes - y % c.blockBytes) ≤ c.blockBytes := by
        omega
      have hmod := Nat.mod_add_div y c.blockBytes
      have hBq : c.blockBytes * (y / c.blockBytes) + c.blockBytes
          = c.blockBytes * (y / c.blockBytes + 1) := by ring
      have hy' : c.blockBytes * (y / c.blockBytes + 1) = y + (c.blockBytes - y % c.blockBytes) := by
        omega
      have hyL : y + (c.blockBytes - y % c.blockBytes) ≤ m := by omega
      have hmin : min (len - t) (c.blockBytes - (c.atOffset y).posInLba)
          = c.blockBytes - y % c.blockBytes := by
        rw [hp']; omega
      have hr := fileStream_read_window c m hc y (c.blockBytes - y % c.blockBytes) hchunk hyL
      have hq1 : y / c.blockBytes + 1 ≤ m / c.blockBytes := by
        rw [Nat.le_div_iff_mul_le hBpos, Nat.mul_comm, hy']
        omega
      have hlba := hc.lba
      have hseekarg : u32 ((u32 ((u32 (((c.atOffset y).lbaCurrent : Int) + 1) : Int)
          - ((c.atOffset y).lbaStart : Int)) : Int) * (c.blockBytes : Int))
          = y + (c.blockBytes - y % c.blockBytes) := by
        show u32 ((u32 ((u32 (((c.lbaStart + y / c.blockBytes : Nat) : Int) + 1) : Int)
          - (c.lbaStart : Int)) : Int) * (c.blockBytes : Int)) = _
        have e1 : u32 (((c.lbaStart + y / c.blockBytes : Nat) : Int) + 1)
            = c.lbaStart + (y / c.blockBytes + 1) := by
          generalize y / c.blockBytes = q at hq1
          unfold u32; omega
        rw [e1]
        have e2 : u32 (((c.lbaStart + (y / c.blockBytes + 1) : Nat) : Int) - (c.lbaStart : Int))
            = y / c.blockBytes + 1 := by
          generalize y / c.blockBytes = q at hq1
          unfold u32; omega
        rw [e2]
        have e3 : ((y / c.blockBytes + 1 : Nat) : Int) * (c.blockBytes : Int)
            = ((y + (c.blockBytes - y % c.blockBytes) : Nat) : Int) := by
          rw [← hy']; push_cast; ring
        rw [e3]
        unfold u32; omega
      have hon : c.OnTrack
          { c.atOffset y with
            fileStream := ((c.atOffset y).fileStream.read
              ((c.blockBytes - (c.atOffset y).posInLba : Nat) : Int)).1,
            posInLba := 0, lbaCurrent := u32 (((c.atOffset y).lbaCurrent : Int) + 1) } := by
        rw [hp', hr]
        exact ⟨rfl, rfl, rfl, rfl, rfl, rfl, rfl⟩
      rw [readBody_cross (c.atOffset y) len t buf c.blockBytes hbs hB32 hu hp ht hlen
        (by rw [hmin, hr, window_length]) (by rw [hp']; omega)]
      rw [hseekarg, seek_onTrack c _ m hc hon _ hyL]
      simp only [hp', hr]
      by_cases hgt : len > t + (c.blockBytes - y % c.blockBytes)
      · rw [if_pos hgt]
        simp only
        rw [ih (y + (c.blockBytes - y % c.blockBytes)) (t + (c.blockBytes - y % c.blockBytes))
          _ (by omega) (by
            have : y + (c.blockBytes - y % c.blockBytes)
              + (len - (t + (c.blockBytes - y % c.blockBytes))) = y + (len - t) := by omega
            rw [this]; exact hy) (by
            have h1 : (y + (c.blockBytes - y % c.blockBytes)) % c.blockBytes = 0 := by
              rw [← hy']; exact Nat.mul_mod_right _ _
            have h2 : y % c.blockBytes + (len - t)
                = (len - (t + (c.blockBytes - y % c.blockBytes))) + c.blockBytes := by omega
            rw [h2, Nat.add_div_right _ hBpos] at hf
            rw [h1, Nat.zero_add]
            omega)]
        have e4 : len - t = (c.blockBytes - y % c.blockBytes)
            + (len - (t + (c.blockBytes - y % c.blockBytes))) := by omega
        have e5 : y + (c.blockBytes - y % c.blockBytes)
            + (len - (t + (c.blockBytes - y % c.blockBytes))) = y + (len - t) := by omega
        have hw : c.window y (len - t) = c.window y (c.blockBytes - y % c.blockBytes)
            ++ c.window (y + (c.blockBytes - y % c.blockBytes))
              (len - (t + (c.blockBytes - y % c.blockBytes))) := by
          rw [← window_append, ← e4]
        rw [e5, hw, List.append_assoc]
      · rw [if_neg hgt]
        have e4 : len - t = c.blockBytes - y % c.blockBytes := by omega
        simp only [e4]

theorem remainLength_atOffset (c : CueIO) (m : Nat) (hc : c.Covers m) (x : Nat) (hx : x ≤ m) :
    (c.atOffset x).remainLength = c.length - x := by
  have hB := blockBytes_cases c m hc
  have hbs := blockSize_blockBytes c m hc
  have hlt := hc.lt
  unfold remainLength
  show c.length - ((u32 ((u32 (((c.lbaStart + x / c.blockBytes : Nat) : Int) - c.lbaStart) : Int)
    * blockSize c.trackMode) : Nat) : Int) - ((x % c.blockBytes : Nat) : Int) = _
  rw [hbs]
  have hq : x / c.blockBytes < 4294967296 :=
    lt_of_le_of_lt (Nat.div_le_self _ _) (by omega)
  have h1 : u32 (((c.lbaStart + x / c.blockBytes : Nat) : Int) - c.lbaStart)
      = x / c.blockBytes := by
    generalize x / c.blockBytes = q at hq ⊢
    unfold u32; push_cast; omega
  rw [h1]
  rcases hB with hB | hB <;> rw [hB] <;> (unfold u32; omega)

/-- A `read` whose bytes are among the first `m` of the track delivers the bytes of
the track from the current offset, as many as were asked for or as remain up to
the logical length, and advances the stream by that number. -/
theorem read_onTrack (c : CueIO) (m : Nat) (hc : c.Covers m) (x n : Nat)
    (hn : n < 18446744073709551616) (hx : x + min n (c.length.toNat - x) ≤ m) :
    (c.atOffset x).read n
      = some ⟨(min n (c.length.toNat - x) : Nat), c.window x (min n (c.length.toNat - x)),
          c.atOffset (x + min n (c.length.toNat - x))⟩ := by
  have hB := blockBytes_cases c m hc
  have hlt := hc.lt
  have hle := hc.le_length
  have hL := hc.length_lt
  rcases Nat.eq_zero_or_pos n with hz | hpos
  · subst hz
    simp [ CueIO.read, window]
  · unfold CueIO.read
    have hnc : ¬ ((c.atOffset x).trackMode = MODE1_2048 ∨ (c.atOffset x).trackMode = MODE2_2048) :=
      covers_not_cooked c m hc
    rw [if_neg (by omega), if_neg hnc]
    simp only [remainLength_atOffset c m hc x (by omega)]
    rw [if_neg (by omega)]
    have hu : u64 (c.length - (x : Int)) = c.length.toNat - x := by unfold u64; omega
    rw [hu]
    have hk : (if n > c.length.toNat - x then c.length.toNat - x else n)
        = min n (c.length.toNat - x) := by
      split <;> omega
    rw [hk]
    generalize hkk : min n (c.length.toNat - x) = k at hx ⊢
    have hkL : x + (k - 0) ≤ m := by omega
    have hmodlt : x % c.blockBytes < c.blockBytes := Nat.mod_lt _ (by rcases hB with h | h <;> omega)
    have hfuel : (x % c.blockBytes + (k - 0)) / c.blockBytes + 1 ≤ k + 2 := by
      have : (x % c.blockBytes + (k - 0)) / c.blockBytes ≤ k + 1 := by
        apply Nat.div_le_of_le_mul
        have : k + 1 ≤ c.blockBytes * (k + 1) := Nat.le_mul_of_pos_left _ (by omega)
        have : c.blockBytes * (k + 1) = c.blockBytes * k + c.blockBytes := by ring
        have : k ≤ c.blockBytes * k := Nat.le_mul_of_pos_left _ (by omega)
        omega
      omega
    have := readLoop_onTrack c m hc k (by omega) (k + 2) x 0 [] (Nat.zero_le _) hkL hfuel
    simpa using this

/-- A stream constructed over a file that opens stands at offset 0 of its track. -/
theorem mk'_atOffset (fs : FileSystem) (fileName : String) (lbaStart : Nat) (length : Int)
    (fileType : CUE_FileType) (trackMode : CUE_TrackMode) (img : List Nat)
    (hfs : fs fileName = some img) (hm : trackMode.supported = true) :
    ( CueIO.mk' fs fileName lbaStart length fileType trackMode).atOffset 0
      = CueIO.mk' fs fileName lbaStart length fileType trackMode := by
  have h0 := lbaToByteOffset_nonneg trackMode lbaStart hm
  have hn : ¬ lbaToByteOffset trackMode lbaStart < 0 := by omega
  simp [atOffset, mk', filePos, blockBytes, IfStream.openFile, hfs, IfStream.seekg, hn]

/-- Where the bytes of a read are among the first `m` of a non-cooked track, the
logical position advances by the number of bytes that the read delivers. -/
theorem tell_after_read_onTrack (c : CueIO) (m : Nat) (hc : c.Covers m) (x n : Nat)
    (hn : n < 18446744073709551616) (hx : x + min n (c.length.toNat - x) ≤ m) :
    ∃ r, (c.atOffset x).read n = some r ∧ r.bytes.length = r.ret ∧
      r.io.tell = (c.atOffset x).tell + r.ret := by
  refine ⟨_, read_onTrack c m hc x n hn hx, ?_, ?_⟩
  · simp only [window_length]
  · simp only
    rw [tell_atOffset c m hc x (by omega), tell_atOffset c m hc _ hx]
    push_cast; rfl

/-! ## The record buffer -/

theorem getD_take_of_lt (l : List Nat) (i n : Nat) (h : i < n) :
    l.getD i 0 = (l.take n).getD i 0 := by
  simp [List.getD_eq_getElem?_getD, List.getElem?_take, h]

theorem drop_take_of_take (l : List Nat) (m n k : Nat) (h : m + n ≤ k) :
    (l.drop m).take n = ((l.take k).drop m).take n := by
  rw [List.take_drop, List.take_drop, List.take_take, Nat.min_eq_left h]

/-- Two record buffers with the same first 33 bytes have the same header members. -/
theorem header_members (a b : IsoDirRecord_hdr) (h : a.bytes.take 33 = b.bytes.take 33) :
    a.length = b.length ∧ a.extentLoc = b.extentLoc ∧ a.extentLength = b.extentLength ∧
      a.recTime = b.recTime ∧ a.flags = b.flags ∧ a.fnLength = b.fnLength := by
  unfold IsoDirRecord_hdr.length IsoDirRecord_hdr.extentLoc IsoDirRecord_hdr.extentLength
    IsoDirRecord_hdr.recTime IsoDirRecord_hdr.flags IsoDirRecord_hdr.fnLength
  refine ⟨?_, ?_, ?_, ?_, ?_, ?_⟩
  · rw [getD_take_of_lt a.bytes 0 33 (by omega), getD_take_of_lt b.bytes 0 33 (by omega), h]
  · rw [drop_take_of_take a.bytes 2 8 33 (by omega), drop_take_of_take b.bytes 2 8 33 (by omega), h]
  · rw [drop_take_of_take a.bytes 10 8 33 (by omega),
      drop_take_of_take b.bytes 10 8 33 (by omega), h]
  · rw [drop_take_of_take a.bytes 18 7 33 (by omega),
      drop_take_of_take b.bytes 18 7 33 (by omega), h]
  · rw [getD_take_of_lt a.bytes 25 33 (by omega), getD_take_of_lt b.bytes 25 33 (by omega), h]
  · rw [getD_take_of_lt a.bytes 32 33 (by omega), getD_take_of_lt b.bytes 32 33 (by omega), h]

theorem storeHeader_length (r : IsoDirRecord_hdr) (data : List Nat)
    (h : data.length ≤ r.bytes.length) :
    (r.storeHeader data).bytes.length = r.bytes.length := by
  simp [IsoDirRecord_hdr.storeHeader]; omega

theorem storeHeader_take (r : IsoDirRecord_hdr) (data : List Nat) (h : data.length = 33) :
    (r.storeHeader data).bytes.take 33 = data := by
  simp [IsoDirRecord_hdr.storeHeader, List.take_append_eq_append_take, h]

theorem storeName_take (r : IsoDirRecord_hdr) (data : List Nat) (h : 33 ≤ r.bytes.length) :
    (r.storeName data).bytes.take 33 = r.bytes.take 33 := by
  have hl : (r.bytes.take 33).length = 33 := by simp; omega
  simp only [IsoDirRecord_hdr.storeName]
  rw [List.take_append_eq_append_take, hl, Nat.sub_self, List.take_zero, List.append_nil,
    List.take_take, Nat.min_self]

theorem storeName_fileName (r : IsoDirRecord_hdr) (data : List Nat) (h : 33 ≤ r.bytes.length) :
    (r.storeName data).fileName = (data ++ r.fileName.drop data.length).set r.fnLength 0 := by
  have hl : (r.bytes.take 33).length = 33 := by simp; omega
  simp only [IsoDirRecord_hdr.storeName, IsoDirRecord_hdr.fileName]
  rw [List.drop_append_eq_append_drop, hl, Nat.sub_self, List.drop_zero,
    List.drop_eq_nil_of_le (by omega), List.nil_append]

theorem storeName_length (r : IsoDirRecord_hdr) (data : List Nat) (h : r.bytes.length = 255)
    (hd : data.length ≤ 222) : (r.storeName data).bytes.length = 255 := by
  simp [IsoDirRecord_hdr.storeName, IsoDirRecord_hdr.fileName]; omega

theorem storeName_nul (r : IsoDirRecord_hdr) (data : List Nat) (h : r.bytes.length = 255)
    (hd : data.length ≤ 222) (hf : r.fnLength ≤ 221) : 0 ∈ (r.storeName data).fileName := by
  rw [storeName_fileName r data (by omega)]
  have hlen : r.fnLength < (data ++ r.fileName.drop data.length).length := by
    simp [IsoDirRecord_hdr.fileName]; omega
  exact List.mem_iff_getElem.mpr ⟨r.fnLength, by simpa using hlen, by simp⟩

theorem storeName_first (r : IsoDirRecord_hdr) (data : List Nat) (h : 33 ≤ r.bytes.length)
    (hf : 0 < r.fnLength) (hd : 0 < data.length) :
    (r.storeName data).fileName.getD 0 0 = data.getD 0 0 := by
  rw [storeName_fileName r data h]
  cases data with
  | nil => simp at hd
  | cons a t =>
    obtain ⟨n, hn⟩ : ∃ n, r.fnLength = n + 1 := ⟨r.fnLength - 1, by omega⟩
    rw [hn]
    simp

theorem cutAtSemicolon_length (r : IsoDirRecord_hdr) :
    r.cutAtSemicolon.bytes.length = r.bytes.length := by
  unfold IsoDirRecord_hdr.cutAtSemicolon
  split <;> simp

theorem cutAtSemicolon_take (r : IsoDirRecord_hdr) :
    r.cutAtSemicolon.bytes.take 33 = r.bytes.take 33 := by
  unfold IsoDirRecord_hdr.cutAtSemicolon
  split
  · rename_i i _
    apply List.ext_getElem?
    intro k
    by_cases hk : k < 33
    · simp only [List.getElem?_take, hk, if_true]
      rw [List.getElem?_set_ne (by omega)]
    · simp only [List.getElem?_take, hk, if_false]
  · rfl

theorem recordAt_take (c : CueIO) (location o : Nat) :
    (c.recordAt location o).bytes.take 33 = c.window (c.blockBytes * location + o) 33 := by
  have : (255 : Nat) = 33 + 222 := rfl
  simp only [recordAt]
  rw [this, window_append, List.take_append_eq_append_take, window_length, Nat.sub_self,
    List.take_zero, List.append_nil, List.take_of_length_le (by rw [window_length])]

theorem recordAt_first (c : CueIO) (location o : Nat) :
    (c.recordAt location o).fileName.getD 0 0 = c.byteAt (c.blockBytes * location + o + 33) := by
  simp only [recordAt, IsoDirRecord_hdr.fileName]
  rw [List.getD_eq_getElem?_getD, List.getElem?_drop, ← List.getD_eq_getElem?_getD,
    window_getD _ _ _ _ (by omega)]

/-! ## One pass of the record loop -/

theorem alignEven_atPass (c : CueIO) (m : Nat) (hc : c.Covers m) (location rp : Nat)
    (st : DirLoop) (h : st.AtPass c location rp)
    (hrp : c.blockBytes * location + rp ≤ m)
    (hnext : ((c.blockBytes * location + (rp + 1) : Nat) : Int) ≤ c.length →
      c.blockBytes * location + (rp + 1) ≤ m)
    (hi : rp + 1 < 2147483648) :
    st.alignEven
      = ⟨c.atOffset (if ((c.blockBytes * location + (rp + rp % 2) : Nat) : Int) ≤ c.length
            then c.blockBytes * location + (rp + rp % 2) else c.blockBytes * location + rp),
          ((rp + rp % 2 : Nat) : Int), st.childDirRecord, st.children⟩ := by
  have hlt := hc.lt
  have hle := hc.le_length
  have htm : Int.tmod (rp : Int) 2 = ((rp % 2 : Nat) : Int) := (Int.ofNat_tmod rp 2).symm
  obtain ⟨cio, readpos, rec, ch⟩ := st
  obtain ⟨h1, h2, h3⟩ := h
  simp only at h1 h2 h3
  subst h1 h2
  unfold DirLoop.alignEven
  simp only [htm]
  rcases Nat.mod_two_eq_zero_or_one rp with hpar | hpar
  · rw [hpar]
    simp only [Nat.cast_zero, ne_eq, not_true_eq_false, if_false, Nat.add_zero, ite_self]
  · rw [hpar]
    simp only [Nat.cast_one, ne_eq, one_ne_zero, not_false_eq_true, if_true]
    rw [tell_atOffset c m hc _ hrp]
    have hu : u64 (((c.blockBytes * location + rp : Nat) : Int) + 1)
        = c.blockBytes * location + (rp + 1) := by unfold u64; omega
    have hi' : i32 ((rp : Int) + 1) = ((rp + 1 : Nat) : Int) := by unfold i32; omega
    rw [hu, hi']
    by_cases hle' : ((c.blockBytes * location + (rp + 1) : Nat) : Int) ≤ c.length
    · rw [seek_onTrack c _ m hc (atOffset_onTrack c _) _ (hnext hle'), if_pos hle']
    · rw [seek_past_end c _ m hc (atOffset_onTrack c _) _ (by omega), if_neg hle']

theorem readHeader_onTrack (c : CueIO) (m : Nat) (hc : c.Covers m) (x o : Nat)
    (r : IsoDirRecord_hdr) (ch : List (Str × FSEntry))
    (hx : x + min 33 (c.length.toNat - x) ≤ m) (ho : o + 33 < 2147483648) :
    (DirLoop.mk (c.atOffset x) (o : Int) r ch).readHeader
      = some ⟨c.atOffset (x + min 33 (c.length.toNat - x)),
          ((o + min 33 (c.length.toNat - x) : Nat) : Int),
          r.storeHeader (c.window x (min 33 (c.length.toNat - x))), ch⟩ := by
  unfold DirLoop.readHeader
  simp only [read_onTrack c m hc x 33 (by omega) hx]
  have hi : i32 ((o : Int) + ((min 33 (c.length.toNat - x) : Nat) : Int))
      = ((o + min 33 (c.length.toNat - x) : Nat) : Int) := by unfold i32; omega
  rw [hi]

/-- A pass that starts where the next header ends before the end of the extent
reads that header in full. -/
theorem pass_header (c : CueIO) (m : Nat) (hc : c.Covers m) (location length rp : Nat)
    (st : DirLoop) (h : st.AtPass c location rp)
    (hi : length + 34 < 2147483648)
    (hd : ((c.blockBytes * location + length : Nat) : Int) ≤ c.length)
    (hs : min (c.blockBytes * location + length + 34) c.length.toNat ≤ m)
    (ho : rp + rp % 2 + 33 < length) :
    st.alignEven.readHeader
      = some ⟨c.atOffset (c.blockBytes * location + (rp + rp % 2 + 33)),
          ((rp + rp % 2 + 33 : Nat) : Int),
          st.childDirRecord.storeHeader (c.window (c.blockBytes * location + (rp + rp % 2)) 33),
          st.children⟩ := by
  have hle := hc.le_length
  generalize hb : c.blockBytes * location = b at hd hs ⊢
  have hbm : b + length ≤ m := by omega
  rw [alignEven_atPass c m hc location rp st h (by rw [hb]; omega) (by rw [hb]; omega) (by omega),
    hb, if_pos (by omega), readHeader_onTrack c m hc _ _ _ _ (by omega) (by omega)]
  have hm : min 33 (c.length.toNat - (b + (rp + rp % 2))) = 33 := by omega
  rw [hm]
  rfl

/-- A pass that starts where the next header does not end before the end of the
extent leaves the loop. -/
theorem pass_last (c : CueIO) (m : Nat) (hc : c.Covers m) (location length rp : Nat)
    (st : DirLoop) (h : st.AtPass c location rp)
    (hi : length + 34 < 2147483648)
    (hd : ((c.blockBytes * location + length : Nat) : Int) ≤ c.length)
    (hs : min (c.blockBytes * location + length + 34) c.length.toNat ≤ m)
    (hrp : rp ≤ length) (ho : ¬ rp + rp % 2 + 33 < length) :
    ∃ st1 x1, st.alignEven.readHeader = some st1 ∧ (length : Int) ≤ st1.readpos ∧
      st1.cio = c.atOffset x1 ∧ x1 ≤ m ∧ st1.children = st.children := by
  have hle := hc.le_length
  generalize hb : c.blockBytes * location = b at hd hs ⊢
  have hbm : b + length ≤ m := by omega
  rw [alignEven_atPass c m hc location rp st h (by rw [hb]; omega) (by rw [hb]; omega) (by omega),
    hb]
  split
  · rename_i hle'
    rw [readHeader_onTrack c m hc _ _ _ _ (by omega) (by omega)]
    exact ⟨_, _, rfl, by simp only; omega, rfl, by omega, rfl⟩
  · rename_i hle'
    rw [readHeader_onTrack c m hc _ _ _ _ (by omega) (by omega)]
    exact ⟨_, _, rfl, by simp only; omega, rfl, by omega, rfl⟩

/-! ## The branches of the record loop -/

theorem readDirLoop_exit (g : IsoDirRecord_hdr) (fuel location : Nat) (length : Int)
    (st st1 : DirLoop) (h1 : st.alignEven.readHeader = some st1) (h2 : st1.readpos ≥ length) :
    readDirLoop g (fuel + 1) location length st = Outcome.ok st1 := by
  rw [readDirLoop]
  simp only [h1, if_pos h2]

theorem readDirLoop_empty (g : IsoDirRecord_hdr) (fuel location : Nat) (length : Int)
    (st st1 st2 : DirLoop) (h1 : st.alignEven.readHeader = some st1)
    (h2 : ¬ st1.readpos ≥ length) (h3 : st1.childDirRecord.length = 0)
    (h4 : st1.skipEmpty location = some st2) :
    readDirLoop g (fuel + 1) location length st = readDirLoop g fuel location length st2 := by
  rw [readDirLoop]
  simp only [h1, if_neg h2, if_pos h3, h4]

theorem readDirLoop_noName (g : IsoDirRecord_hdr) (fuel location : Nat) (length : Int)
    (st st1 : DirLoop) (h1 : st.alignEven.readHeader = some st1)
    (h2 : ¬ st1.readpos ≥ length) (h3 : st1.childDirRecord.length ≠ 0)
    (h4 : ¬ st1.childDirRecord.fnLength > 0) :
    readDirLoop g (fuel + 1) location length st = readDirLoop g fuel location length st1 := by
  rw [readDirLoop]
  have h5 : st1.childDirRecord.length > 0 := Nat.pos_of_ne_zero h3
  simp only [h1, if_neg h2, if_neg h3, if_neg h4, if_pos h5]

theorem readDirLoop_notAlnum (g : IsoDirRecord_hdr) (fuel location : Nat) (length : Int)
    (st st1 st2 : DirLoop) (h1 : st.alignEven.readHeader = some st1)
    (h2 : ¬ st1.readpos ≥ length) (h3 : st1.childDirRecord.length ≠ 0)
    (h4 : st1.childDirRecord.fnLength > 0) (h5 : st1.readName = Outcome.ok st2)
    (h6 : isalnum (st2.childDirRecord.fileName.getD 0 0) = false)
    (h7 : st2.childDirRecord.length ≠ 0) :
    readDirLoop g (fuel + 1) location length st = readDirLoop g fuel location length st2 := by
  rw [readDirLoop]
  have h8 : st2.childDirRecord.length > 0 := Nat.pos_of_ne_zero h7
  simp only [h1, if_neg h2, if_neg h3, if_pos h4, h5, h6, Bool.not_false, if_true, if_pos h8]

theorem readDirLoop_child (g : IsoDirRecord_hdr) (fuel location : Nat) (length : Int)
    (st st1 st2 : DirLoop) (childEntry : FSEntry) (cio : CueIO) (r : IsoDirRecord_hdr)
    (h1 : st.alignEven.readHeader = some st1)
    (h2 : ¬ st1.readpos ≥ length) (h3 : st1.childDirRecord.length ≠ 0)
    (h4 : st1.childDirRecord.fnLength > 0) (h5 : st1.readName = Outcome.ok st2)
    (h6 : isalnum (st2.childDirRecord.fileName.getD 0 0) = true)
    (h7 : readDir g fuel st2.cio st2.childDirRecord = Outcome.ok (childEntry, cio, r))
    (h8 : r.length ≠ 0) :
    readDirLoop g (fuel + 1) location length st
      = readDirLoop g fuel location length (st2.addChild st2.cio.tell childEntry cio r) := by
  rw [readDirLoop]
  have h9 : r.length > 0 := Nat.pos_of_ne_zero h8
  simp only [h1, if_neg h2, if_neg h3, if_pos h4, h5, h6, Bool.not_true, Bool.false_eq_true,
    if_false, h7, if_pos h9]

theorem readDir_file (g : IsoDirRecord_hdr) (fuel : Nat) (cio : CueIO) (r : IsoDirRecord_hdr)
    (h0 : 0 ∈ r.fileName) (hf : r.cutAtSemicolon.flags &&& FSFLAG_DIRENT = 0) :
    readDir g (fuel + 1) cio r
      = Outcome.ok
          (FSEntry.mk (cString r.cutAtSemicolon.fileName) FSEntryType.FS_FILE (le32 r.extentLoc)
            (u64 (i32 (le32 r.extentLength))) (toUnixTime r.recTime) [],
          cio, r.cutAtSemicolon) := by
  rw [readDir]
  simp only [h0, not_true_eq_false, if_false, if_pos hf]

theorem readDir_directory (g : IsoDirRecord_hdr) (fuel : Nat) (cio : CueIO) (r : IsoDirRecord_hdr)
    (st : DirLoop) (h0 : 0 ∈ r.fileName) (hf : r.cutAtSemicolon.flags &&& FSFLAG_DIRENT ≠ 0)
    (h : readDirLoop g fuel (le32 r.extentLoc) (i32 (le32 r.extentLength))
      ⟨(cio.seek (u32 (blockSize cio.trackMode * le32 r.extentLoc + 0))).2, 0, g, []⟩
        = Outcome.ok st) :
    readDir g (fuel + 1) cio r
      = Outcome.ok
          (FSEntry.mk (cString r.cutAtSemicolon.fileName) FSEntryType.FS_DIRECTORY
            (le32 r.extentLoc) (u64 (i32 (le32 r.extentLength))) (toUnixTime r.recTime)
            st.children,
          st.cio, r.cutAtSemicolon) := by
  rw [readDir]
  simp only [h0, not_true_eq_false, if_false, if_neg hf, h]

theorem skipEmpty_onTrack (c : CueIO) (m : Nat) (hc : c.Covers m) (location length o : Nat)
    (r : IsoDirRecord_hdr) (ch : List (Str × FSEntry))
    (hi : length + 34 < 2147483648) (hd : c.blockBytes * location + length ≤ m)
    (ho : o + 33 < length) :
    (DirLoop.mk (c.atOffset (c.blockBytes * location + (o + 33))) ((o + 33 : Nat) : Int) r
        ch).skipEmpty location
      = some ⟨c.atOffset (c.blockBytes * location
            + (if (o + 33) % c.blockBytes < 33 then (o + 33) - (o + 33) % c.blockBytes
                else o + 33)),
          ((if (o + 33) % c.blockBytes < 33 then (o + 33) - (o + 33) % c.blockBytes
                else o + 33 : Nat) : Int), r, ch⟩ := by
  have hlt := hc.lt
  have hB := blockBytes_cases c m hc
  have hbs := blockSize_blockBytes c m hc
  have htm : Int.tmod ((o + 33 : Nat) : Int) (c.blockBytes : Int)
      = (((o + 33) % c.blockBytes : Nat) : Int) := (Int.ofNat_tmod _ _).symm
  have hmle : (o + 33) % c.blockBytes ≤ o + 33 := Nat.mod_le _ _
  unfold DirLoop.skipEmpty
  have hbs' : blockSize (c.atOffset (c.blockBytes * location + (o + 33))).trackMode
      = (c.blockBytes : Int) := hbs
  simp only [hbs', htm]
  have hne : ¬ ((c.blockBytes : Int) = -1 ∧ ((o + 33 : Nat) : Int) = -2147483648) := by omega
  rw [if_neg hne]
  generalize hm : (o + 33) % c.blockBytes = k at hmle ⊢
  by_cases hcross : k < 33
  · have hcross' : ((k : Nat) : Int) < 33 := by omega
    rw [if_pos hcross, if_pos hcross']
    have hi' : i32 (((o + 33 : Nat) : Int) - (k : Int)) = ((o + 33 - k : Nat) : Int) := by
      unfold i32; omega
    rw [hi']
    have hu : u32 ((c.blockBytes : Int) * (location : Int) + ((o + 33 - k : Nat) : Int))
        = c.blockBytes * location + (o + 33 - k) := by
      have : (c.blockBytes : Int) * (location : Int) = ((c.blockBytes * location : Nat) : Int) := by
        push_cast; rfl
      rw [this]
      generalize c.blockBytes * location = b at hd ⊢
      unfold u32; omega
    rw [hu, seek_onTrack c _ m hc (atOffset_onTrack c _) _ (by
      generalize c.blockBytes * location = b at hd ⊢
      omega)]
  · have hcross' : ¬ ((k : Nat) : Int) < 33 := by omega
    rw [if_neg hcross, if_neg hcross']
    have hu : u32 ((c.blockBytes : Int) * (location : Int) + ((o + 33 : Nat) : Int))
        = c.blockBytes * location + (o + 33) := by
      have : (c.blockBytes : Int) * (location : Int) = ((c.blockBytes * location : Nat) : Int) := by
        push_cast; rfl
      rw [this]
      generalize c.blockBytes * location = b at hd ⊢
      unfold u32; omega
    rw [hu, seek_onTrack c _ m hc (atOffset_onTrack c _) _ (by
      generalize c.blockBytes * location = b at hd ⊢
      omega)]

theorem readName_onTrack (c : CueIO) (m : Nat) (hc : c.Covers m) (x o : Nat)
    (r : IsoDirRecord_hdr) (ch : List (Str × FSEntry)) (hf : r.fnLength ≤ 221)
    (hx : x + r.fnLength ≤ m) (ho : o + r.fnLength < 2147483648) :
    (DirLoop.mk (c.atOffset x) (o : Int) r ch).readName
      = Outcome.ok ⟨c.atOffset (x + r.fnLength), ((o + r.fnLength : Nat) : Int),
          r.storeName (c.window x r.fnLength), ch⟩ := by
  have hle := hc.le_length
  unfold DirLoop.readName
  have hn : ¬ r.fnLength > 221 := by omega
  have hm : min r.fnLength (c.length.toNat - x) = r.fnLength := by omega
  simp only [if_neg hn, read_onTrack c m hc x r.fnLength (by omega) (by rw [hm]; exact hx)]
  rw [hm]
  have hi : i32 ((o : Int) + (r.fnLength : Int)) = ((o + r.fnLength : Nat) : Int) := by
    unfold i32; omega
  rw [hi]

/-! ## The record loop ends -/

theorem loop_ends (c : CueIO) (m : Nat) (hc : c.Covers m) (g : IsoDirRecord_hdr)
    (location length : Nat) (child : Nat → Nat → Prop) (hok : c.DirOk m child location length)
    (hchild : ∀ l n, child l n → c.DirEnds m g l n) :
    ∀ (k rp : Nat) (st : DirLoop), st.AtPass c location rp → rp ≤ length →
      c.Scanned location length (rp + rp % 2) → length - rp ≤ k →
      ∃ (n : Nat) (st' : DirLoop) (x' : Nat),
        (∀ fuel, n ≤ fuel → readDirLoop g fuel location (length : Int) st = Outcome.ok st') ∧
        (length : Int) ≤ st'.readpos ∧ st'.cio = c.atOffset x' ∧ x' ≤ m := by
  obtain ⟨hi, hd, hs, hrec⟩ := hok
  have hle := hc.le_length
  have hlt := hc.lt
  have hdm : c.blockBytes * location + length ≤ m := by
    generalize c.blockBytes * location = b at hd hs ⊢
    omega
  have hlast : ∀ (rp : Nat) (st : DirLoop), st.AtPass c location rp → rp ≤ length →
      ¬ rp + rp % 2 + 33 < length →
      ∃ (n : Nat) (st' : DirLoop) (x' : Nat),
        (∀ fuel, n ≤ fuel → readDirLoop g fuel location (length : Int) st = Outcome.ok st') ∧
        (length : Int) ≤ st'.readpos ∧ st'.cio = c.atOffset x' ∧ x' ≤ m := by
    intro rp st hat hrp ho
    obtain ⟨st1, x1, h1, h2, h3, h4, _⟩ := pass_last c m hc location length rp st hat hi hd hs hrp ho
    refine ⟨1, st1, x1, fun fuel hf => ?_, h2, h3, h4⟩
    obtain ⟨f, rfl⟩ : ∃ f, fuel = f + 1 := ⟨fuel - 1, by omega⟩
    exact readDirLoop_exit g f location length st st1 h1 h2
  intro k
  induction k with
  | zero =>
    intro rp st hat hrp hsc hk
    exact hlast rp st hat hrp (by omega)
  | succ k ih =>
    intro rp st hat hrp hsc hk
    by_cases ho : rp + rp % 2 + 33 < length
    swap
    · exact hlast rp st hat hrp ho
    generalize ho' : rp + rp % 2 = o at ho hsc
    have hrpo : rp ≤ o := by omega
    have h1 := pass_header c m hc location length rp st hat hi hd hs (by rw [ho']; exact ho)
    rw [ho'] at h1
    have hR1len : (st.childDirRecord.storeHeader
        (c.window (c.blockBytes * location + o) 33)).bytes.length = 255 := by
      rw [storeHeader_length _ _ (by rw [window_length, hat.buffer]; omega), hat.buffer]
    obtain ⟨m1, m2, m3, m4, m5, m6⟩ := header_members
      (st.childDirRecord.storeHeader (c.window (c.blockBytes * location + o) 33))
      (c.recordAt location o)
      (by rw [storeHeader_take _ _ (window_length _ _ _), recordAt_take])
    generalize hR1 : st.childDirRecord.storeHeader (c.window (c.blockBytes * location + o) 33)
      = R1 at h1 hR1len m1 m2 m3 m4 m5 m6
    have h2 : ¬ (DirLoop.mk (c.atOffset (c.blockBytes * location + (o + 33)))
        ((o + 33 : Nat) : Int) R1 st.children).readpos ≥ (length : Int) := by
      show ¬ ((o + 33 : Nat) : Int) ≥ (length : Int)
      omega
    have hnext := Scanned.next o hsc ho
    -- the continuation of the loop from the state at the end of the pass
    have cont : ∀ (st2 : DirLoop), st2.AtPass c location (c.passEnd location o) →
        rp < c.passEnd location o → c.passEnd location o ≤ length →
        ∃ (n : Nat) (st' : DirLoop) (x' : Nat),
          (∀ fuel, n ≤ fuel →
            readDirLoop g fuel location (length : Int) st2 = Outcome.ok st') ∧
          (length : Int) ≤ st'.readpos ∧ st'.cio = c.atOffset x' ∧ x' ≤ m := by
      intro st2 hat2 hgt hle
      exact ih (c.passEnd location o) st2 hat2 hle hnext (by omega)
    by_cases hz : (c.recordAt location o).length = 0
    · -- an empty record
      have h3 : (DirLoop.mk (c.atOffset (c.blockBytes * location + (o + 33)))
          ((o + 33 : Nat) : Int) R1 st.children).childDirRecord.length = 0 := by
        show R1.length = 0
        rw [m1]; exact hz
      have h4 := skipEmpty_onTrack c m hc location length o R1 st.children hi hdm ho
      have hpe : c.passEnd location o
          = if (o + 33) % c.blockBytes < 33 then (o + 33) - (o + 33) % c.blockBytes
            else o + 33 := by
        unfold passEnd; rw [if_pos hz]
      rw [← hpe] at h4
      have hmle : (o + 33) % c.blockBytes ≤ o + 33 := Nat.mod_le _ _
      have hbounds : rp < c.passEnd location o ∧ c.passEnd location o ≤ length := by
        rw [hpe]
        generalize (o + 33) % c.blockBytes = m at hmle ⊢
        split <;> omega
      obtain ⟨n, st', x', hrun, hfin⟩ := cont
        (DirLoop.mk (c.atOffset (c.blockBytes * location + c.passEnd location o))
          ((c.passEnd location o : Nat) : Int) R1 st.children)
        ⟨rfl, rfl, hR1len⟩ hbounds.1 hbounds.2
      refine ⟨n + 1, st', x', fun fuel hf => ?_, hfin⟩
      obtain ⟨f, rfl⟩ : ∃ f, fuel = f + 1 := ⟨fuel - 1, by omega⟩
      rw [readDirLoop_empty g f location length st _ _ h1 h2 h3 h4]
      exact hrun f (by omega)
    · -- a record
      obtain ⟨hf221, hin, hch⟩ := hrec o hsc ho hz
      have h3 : (DirLoop.mk (c.atOffset (c.blockBytes * location + (o + 33)))
          ((o + 33 : Nat) : Int) R1 st.children).childDirRecord.length ≠ 0 := by
        show R1.length ≠ 0
        rw [m1]; exact hz
      have hpe : c.passEnd location o = o + 33 + R1.fnLength := by
        unfold passEnd; rw [if_neg hz, m6]
      rw [← m6] at hf221 hin hch
      by_cases hf0 : 0 < R1.fnLength
      swap
      · -- no name
        have hfz : R1.fnLength = 0 := by omega
        rw [hfz] at hpe
        obtain ⟨n, st', x', hrun, hfin⟩ := cont
          (DirLoop.mk (c.atOffset (c.blockBytes * location + (o + 33))) ((o + 33 : Nat) : Int) R1
            st.children)
          ⟨by rw [hpe], by rw [hpe], hR1len⟩ (by omega) (by omega)
        refine ⟨n + 1, st', x', fun fuel hf => ?_, hfin⟩
        obtain ⟨f, rfl⟩ : ∃ f, fuel = f + 1 := ⟨fuel - 1, by omega⟩
        rw [readDirLoop_noName g f location length st _ h1 h2 h3 hf0]
        exact hrun f (by omega)
      -- a name
      have h4 : (DirLoop.mk (c.atOffset (c.blockBytes * location + (o + 33)))
          ((o + 33 : Nat) : Int) R1 st.children).childDirRecord.fnLength > 0 := hf0
      have hxL : c.blockBytes * location + (o + 33) + R1.fnLength ≤ m := by
        generalize c.blockBytes * location = b at hdm ⊢
        omega
      have h5 := readName_onTrack c m hc (c.blockBytes * location + (o + 33)) (o + 33) R1
        st.children hf221 hxL (by omega)
      have hR2len : (R1.storeName (c.window (c.blockBytes * location + (o + 33))
          R1.fnLength)).bytes.length = 255 :=
        storeName_length R1 _ hR1len (by rw [window_length]; omega)
      have hR2nul : 0 ∈ (R1.storeName (c.window (c.blockBytes * location + (o + 33))
          R1.fnLength)).fileName :=
        storeName_nul R1 _ hR1len (by rw [window_length]; omega) hf221
      have hR2first : (R1.storeName (c.window (c.blockBytes * location + (o + 33))
          R1.fnLength)).fileName.getD 0 0 = (c.recordAt location o).fileName.getD 0 0 := by
        rw [storeName_first R1 _ (by omega) hf0 (by rw [window_length]; exact hf0),
          window_getD _ _ _ _ hf0, recordAt_first, Nat.add_zero, Nat.add_assoc]
      obtain ⟨q1, q2, q3, q4, q5, q6⟩ := header_members
        (R1.storeName (c.window (c.blockBytes * location + (o + 33)) R1.fnLength)) R1
        (storeName_take R1 _ (by omega))
      generalize hR2 : R1.storeName (c.window (c.blockBytes * location + (o + 33)) R1.fnLength)
        = R2 at h5 hR2len hR2nul hR2first q1 q2 q3 q4 q5 q6
      have hat2 : (DirLoop.mk (c.atOffset (c.blockBytes * location + (o + 33) + R1.fnLength))
          ((o + 33 + R1.fnLength : Nat) : Int) R2 st.children).AtPass c location
            (c.passEnd location o) :=
        ⟨by rw [hpe, Nat.add_assoc], by rw [hpe], hR2len⟩
      by_cases hal : isalnum ((c.recordAt location o).fileName.getD 0 0) = true
      swap
      · -- not a name to decode
        obtain ⟨n, st', x', hrun, hfin⟩ := cont _ hat2 (by omega) (by omega)
        refine ⟨n + 1, st', x', fun fuel hf => ?_, hfin⟩
        obtain ⟨f, rfl⟩ : ∃ f, fuel = f + 1 := ⟨fuel - 1, by omega⟩
        rw [readDirLoop_notAlnum g f location length st _ _ h1 h2 h3 h4 h5
          (by
            show isalnum (R2.fileName.getD 0 0) = false
            rw [hR2first]; simpa using hal)
          (by
            show R2.length ≠ 0
            rw [q1, m1]; exact hz)]
        exact hrun f (by omega)
      -- the recursive call
      have hcall : ∃ (nc : Nat) (e : FSEntry) (x2 : Nat), x2 ≤ m ∧
          ∀ fuel, nc ≤ fuel →
            readDir g fuel (c.atOffset (c.blockBytes * location + (o + 33) + R1.fnLength)) R2
              = Outcome.ok (e, c.atOffset x2, R2.cutAtSemicolon) := by
        by_cases hflag : R2.cutAtSemicolon.flags &&& FSFLAG_DIRENT = 0
        · refine ⟨1, FSEntry.mk (cString R2.cutAtSemicolon.fileName) FSEntryType.FS_FILE
            (le32 R2.extentLoc) (u64 (i32 (le32 R2.extentLength))) (toUnixTime R2.recTime) [],
            _, hxL, fun fuel hf => ?_⟩
          obtain ⟨f, rfl⟩ : ∃ f, fuel = f + 1 := ⟨fuel - 1, by omega⟩
          exact readDir_file g f _ R2 hR2nul hflag
        · rw [cutAtSemicolon_flags] at hflag
          have hc1 := hch hf0 hal (by rw [← m5, ← q5]; exact hflag)
          exact hchild _ _ hc1 _ R2 hxL hR2nul hflag (by rw [q2, m2]) (by rw [q3, m3])
      obtain ⟨nc, e, x2, hx2, hrd⟩ := hcall
      have hcutlen : R2.cutAtSemicolon.length ≠ 0 := by
        rw [(header_members _ _ (cutAtSemicolon_take R2)).1, q1, m1]; exact hz
      have hat3 : ((DirLoop.mk (c.atOffset (c.blockBytes * location + (o + 33) + R1.fnLength))
          ((o + 33 + R1.fnLength : Nat) : Int) R2 st.children).addChild
            (c.atOffset (c.blockBytes * location + (o + 33) + R1.fnLength)).tell e
            (c.atOffset x2) R2.cutAtSemicolon).AtPass c location (c.passEnd location o) := by
        refine ⟨?_, hat2.readpos, ?_⟩
        · show ((c.atOffset x2).seek (u64 (c.atOffset
            (c.blockBytes * location + (o + 33) + R1.fnLength)).tell)).2 = _
          rw [tell_atOffset c m hc _ hxL]
          have hu : u64 ((c.blockBytes * location + (o + 33) + R1.fnLength : Nat) : Int)
              = c.blockBytes * location + (o + 33) + R1.fnLength := by unfold u64; omega
          rw [hu, seek_onTrack c _ m hc (atOffset_onTrack c _) _ hxL, hpe, Nat.add_assoc]
        · show R2.cutAtSemicolon.bytes.length = 255
          rw [cutAtSemicolon_length, hR2len]
      obtain ⟨n, st', x', hrun, hfin⟩ := cont _ hat3 (by omega) (by omega)
      refine ⟨max nc n + 1, st', x', fun fuel hf => ?_, hfin⟩
      obtain ⟨f, rfl⟩ : ∃ f, fuel = f + 1 := ⟨fuel - 1, by omega⟩
      rw [readDirLoop_child g f location length st _ _ e (c.atOffset x2) R2.cutAtSemicolon
        h1 h2 h3 h4 h5
        (by
          show isalnum (R2.fileName.getD 0 0) = true
          rw [hR2first]; exact hal)
        (hrd f (by omega)) hcutlen]
      exact hrun f (by omega)

theorem dirEnds_of_dirOk (c : CueIO) (m : Nat) (hc : c.Covers m) (g : IsoDirRecord_hdr)
    (hg : g.bytes.length = 255) (location length : Nat) (child : Nat → Nat → Prop)
    (hok : c.DirOk m child location length) (hchild : ∀ l n, child l n → c.DirEnds m g l n) :
    ∃ (n : Nat) (st' : DirLoop) (x' : Nat),
      (∀ fuel, n ≤ fuel →
        readDirLoop g fuel location (length : Int) ⟨c.atOffset (c.blockBytes * location), 0, g, []⟩
          = Outcome.ok st') ∧
      (length : Int) ≤ st'.readpos ∧ st'.cio = c.atOffset x' ∧ x' ≤ m :=
  loop_ends c m hc g location length child hok hchild length 0
    ⟨c.atOffset (c.blockBytes * location), 0, g, []⟩ ⟨rfl, rfl, hg⟩ (Nat.zero_le _)
    Scanned.start (by omega)

/-- The arguments with which `readDir` enters the record loop of a directory whose
extent is among the first `m` bytes of the track. -/
theorem readDir_loop_start (c : CueIO) (m : Nat) (hc : c.Covers m) (x location length : Nat)
    (r : IsoDirRecord_hdr) (hloc : le32 r.extentLoc = location)
    (hlen : le32 r.extentLength = length) (hi : length + 34 < 2147483648)
    (hd : c.blockBytes * location + length ≤ m) :
    i32 (le32 r.extentLength) = (length : Int) ∧
      ((c.atOffset x).seek (u32 (blockSize (c.atOffset x).trackMode * le32 r.extentLoc + 0))).2
        = c.atOffset (c.blockBytes * location) := by
  have hlt := hc.lt
  have hbs : blockSize (c.atOffset x).trackMode = (c.blockBytes : Int) :=
    blockSize_blockBytes c m hc
  constructor
  · rw [hlen]; unfold i32; omega
  · rw [hbs, hloc]
    have hu : u32 ((c.blockBytes : Int) * (location : Int) + 0) = c.blockBytes * location := by
      have : (c.blockBytes : Int) * (location : Int) = ((c.blockBytes * location : Nat) : Int) := by
        push_cast; rfl
      rw [this]
      generalize c.blockBytes * location = b at hd ⊢
      unfold u32; omega
    rw [hu, seek_onTrack c _ m hc (atOffset_onTrack c _) _ (by
      generalize c.blockBytes * location = b at hd ⊢
      omega)]

theorem dirOk_extent (c : CueIO) (m : Nat) (hc : c.Covers m) (child : Nat → Nat → Prop)
    (location length : Nat) (hok : c.DirOk m child location length) :
    c.blockBytes * location + length ≤ m := by
  obtain ⟨_, hd, hs, _⟩ := hok
  have hle := hc.le_length
  generalize c.blockBytes * location = b at hd hs ⊢
  omega

theorem dirEnds_of_loop (c : CueIO) (m : Nat) (hc : c.Covers m) (g : IsoDirRecord_hdr)
    (hg : g.bytes.length = 255) (location length : Nat) (child : Nat → Nat → Prop)
    (hok : c.DirOk m child location length) (hchild : ∀ l n, child l n → c.DirEnds m g l n) :
    c.DirEnds m g location length := by
  intro x r hx hnul hflag hloc hlen
  obtain ⟨n, st', x', hrun, _, hcio, hx'⟩ :=
    dirEnds_of_dirOk c m hc g hg location length child hok hchild
  obtain ⟨e1, e2⟩ := readDir_loop_start c m hc x location length r hloc hlen hok.1
    (dirOk_extent c m hc child location length hok)
  refine ⟨n + 1, FSEntry.mk (cString r.cutAtSemicolon.fileName) FSEntryType.FS_DIRECTORY
    (le32 r.extentLoc) (u64 (i32 (le32 r.extentLength))) (toUnixTime r.recTime) st'.children,
    x', hx', fun fuel hf => ?_⟩
  obtain ⟨f, rfl⟩ : ∃ f, fuel = f + 1 := ⟨fuel - 1, by omega⟩
  have h := readDir_directory g f (c.atOffset x) r st' hnul
    (by rw [cutAtSemicolon_flags]; exact hflag)
    (by rw [e1, e2, hloc]; exact hrun f (by omega))
  rw [h, hcio]

theorem nested_dirEnds (c : CueIO) (m : Nat) (hc : c.Covers m) (g : IsoDirRecord_hdr)
    (hg : g.bytes.length = 255) :
    ∀ (depth location length : Nat), c.Nested m depth location length →
      c.DirEnds m g location length := by
  intro depth
  induction depth with
  | zero =>
    intro location length h
    exact dirEnds_of_loop c m hc g hg location length (fun _ _ => False) h
      (fun _ _ hf => hf.elim)
  | succ d ih =>
    intro location length h
    exact dirEnds_of_loop c m hc g hg location length (c.Nested m d) h (fun l n hn => ih l n hn)

theorem nested_dirOk (c : CueIO) (m depth location length : Nat)
    (h : c.Nested m depth location length) :
    ∃ child : Nat → Nat → Prop, c.DirOk m child location length ∧
      ∀ l n, child l n → ∃ d, c.Nested m d l n := by
  cases depth with
  | zero => exact ⟨fun _ _ => False, h, fun _ _ hf => hf.elim⟩
  | succ d => exact ⟨c.Nested m d, h, fun l n hn => ⟨d, hn⟩⟩

/-- C28 (amended): in the four track modes that `read` handles block by block,
`readDir` ends normally on every record whose file name holds a NUL and which, if
it is a directory, points at an extent that can be scanned among the bytes of the
track that the image file holds, with subdirectories nested to a finite depth
(`Nested`): from some amount of fuel on, the run returns an entry, with the
stream on the track and the record cut at its last semicolon.  For a directory,
the record loop ends as well, in a state whose running offset `readpos` has
reached the declared length.  The subdirectories satisfy the same hypothesis one
level lower, so this holds of the loop of each directory of the tree. -/
theorem readDir_terminates (c : CueIO) (m : Nat) (hc : c.Covers m) (g : IsoDirRecord_hdr)
    (hg : g.bytes.length = 255) (depth x : Nat) (hx : x ≤ m)
    (r : IsoDirRecord_hdr) (hnul : 0 ∈ r.fileName)
    (hdir : r.flags &&& FSFLAG_DIRENT ≠ 0 →
      c.Nested m depth (le32 r.extentLoc) (le32 r.extentLength)) :
    (∃ (n : Nat) (e : FSEntry) (x' : Nat), x' ≤ m ∧
      ∀ fuel, n ≤ fuel →
        readDir g fuel (c.atOffset x) r = Outcome.ok (e, c.atOffset x', r.cutAtSemicolon)) ∧
    (r.flags &&& FSFLAG_DIRENT ≠ 0 →
      ∃ (n : Nat) (st' : DirLoop),
        (∀ fuel, n ≤ fuel →
          readDirLoop g fuel (le32 r.extentLoc) (i32 (le32 r.extentLength))
            ⟨((c.atOffset x).seek
                (u32 (blockSize (c.atOffset x).trackMode * le32 r.extentLoc + 0))).2, 0, g, []⟩
            = Outcome.ok st') ∧
        i32 (le32 r.extentLength) ≤ st'.readpos) := by
  constructor
  · by_cases hflag : r.flags &&& FSFLAG_DIRENT = 0
    · refine ⟨1, FSEntry.mk (cString r.cutAtSemicolon.fileName) FSEntryType.FS_FILE
        (le32 r.extentLoc) (u64 (i32 (le32 r.extentLength))) (toUnixTime r.recTime) [],
        x, hx, fun fuel hf => ?_⟩
      obtain ⟨f, rfl⟩ : ∃ f, fuel = f + 1 := ⟨fuel - 1, by omega⟩
      exact readDir_file g f _ r hnul (by rw [cutAtSemicolon_flags]; exact hflag)
    · exact nested_dirEnds c m hc g hg depth _ _ (hdir hflag) x r hx hnul hflag rfl rfl
  · intro hflag
    obtain ⟨child, hok, hch⟩ := nested_dirOk c m depth _ _ (hdir hflag)
    obtain ⟨n, st', x', hrun, hpos, _, _⟩ :=
      dirEnds_of_dirOk c m hc g hg _ _ child hok
        (fun l n hn => (hch l n hn).elim (fun d hd => nested_dirEnds c m hc g hg d l n hd))
    obtain ⟨e1, e2⟩ := readDir_loop_start c m hc x _ _ r rfl rfl hok.1
      (dirOk_extent c m hc child _ _ hok)
    refine ⟨n, st', fun fuel hf => ?_, by rw [e1]; exact hpos⟩
    rw [e1, e2]
    exact hrun fuel hf

/-! ## The archive's stream over an image with a nested directory -/

theorem exampleArchiveStream_covers : exampleArchiveStream.Covers 254 := by
  refine ⟨Or.inl rfl, by decide, by decide, by decide, by decide, ?_⟩
  intro y hy
  have hl : exampleArchiveStream.fileStream.image.length = 270 := by decide!
  have hb : exampleArchiveStream.blockBytes = 2048 := by decide
  have hs : exampleArchiveStream.lbaStart = 0 := rfl
  have hm : exampleArchiveStream.trackMode = MODE1_2352 := rfl
  unfold filePos
  rw [hl, hb, hs, hm]
  have hq : y / 2048 = 0 := by omega
  have hr : y % 2048 = y := by omega
  rw [hq, hr]
  have : (lbaToByteOffset MODE1_2352 (0 + 0)).toNat = 16 := by decide
  rw [this]; omega

theorem exampleArchiveStream_scanned (o : Nat) (h : exampleArchiveStream.Scanned 0 214 o) :
    o ∈ [0, 34, 68, 102, 138, 174, 214] := by
  induction h with
  | start => decide
  | next o _ ho ih =>
    simp only [List.mem_cons, List.mem_singleton, List.not_mem_nil, or_false] at ih
    rcases ih with rfl | rfl | rfl | rfl | rfl | rfl | rfl
    · decide!
    · decide!
    · decide!
    · decide!
    · decide!
    · decide!
    · omega

theorem exampleArchiveStream_sub_nested : exampleArchiveStream.Nested 254 0 0 0 := by
  refine ⟨by decide, by decide, by decide, ?_⟩
  intro o _ ho
  omega

theorem exampleArchiveStream_nested : exampleArchiveStream.Nested 254 1 0 214 := by
  refine ⟨by decide, by decide, by decide, ?_⟩
  intro o hs ho hz
  have hmem := exampleArchiveStream_scanned o hs
  simp only [List.mem_cons, List.mem_singleton, List.not_mem_nil, or_false] at hmem
  rcases hmem with rfl | rfl | rfl | rfl | rfl | rfl | rfl
  · exact ⟨by decide!, by decide!, fun _ h _ => absurd h (by decide!)⟩
  · exact ⟨by decide!, by decide!, fun _ h _ => absurd h (by decide!)⟩
  · exact ⟨by decide!, by decide!, fun h _ _ => absurd h (by decide!)⟩
  · exact ⟨by decide!, by decide!, fun _ h _ => absurd h (by decide!)⟩
  · refine ⟨by decide!, by decide!, fun _ _ _ => ?_⟩
    have e1 : le32 (exampleArchiveStream.recordAt 0 138).extentLoc = 0 := by decide!
    have e2 : le32 (exampleArchiveStream.recordAt 0 138).extentLength = 0 := by decide!
    rw [e1, e2]
    exact exampleArchiveStream_sub_nested
  · exact ⟨by decide!, by decide!, fun _ _ h => absurd rfl h⟩
  · omega

/-- Witness for C28: the archive's stream over `exampleImage`, whose directory holds
the subdirectory `SUB` and the file `A.DAT;1`, read from the state in which the
constructor leaves it, with the record `exampleRoot`. -/
theorem readDir_terminates_witness :
    exampleArchiveStream.atOffset 0 = exampleArchiveStream ∧
    ∃ (n : Nat) (e : FSEntry) (x' : Nat), x' ≤ 254 ∧
      ∀ fuel, n ≤ fuel →
        readDir ⟨List.replicate 255 0⟩ fuel (exampleArchiveStream.atOffset 0) exampleRoot
          = Outcome.ok (e, exampleArchiveStream.atOffset x', exampleRoot.cutAtSemicolon) :=
  ⟨by decide!,
    (readDir_terminates exampleArchiveStream 254 exampleArchiveStream_covers
      ⟨List.replicate 255 0⟩ (List.length_replicate 255 0) 1 0 (by decide) exampleRoot
      (by decide) (fun _ => exampleArchiveStream_nested)).1⟩

/-! ## A cooked stream over a complete image -/

theorem readDirLoop_of_filePass (g : IsoDirRecord_hdr) (f location : Nat) (length : Int)
    (st st' : DirLoop) (h : st.filePass length = some st') :
    readDirLoop g (f + 2) location length st = readDirLoop g (f + 1) location length st' := by
  unfold DirLoop.filePass at h
  cases h1 : st.alignEven.readHeader with
  | none => rw [h1] at h; cases h
  | some st1 =>
    rw [h1] at h
    simp only at h
    split at h
    · cases h
    split at h
    · cases h
    split at h
    swap
    · cases h
    rename_i h2 h3 h4
    cases h5 : st1.readName with
    | outOfFuel => rw [h5] at h; cases h
    | undefined => rw [h5] at h; cases h
    | ok st2 =>
      rw [h5] at h
      simp only at h
      split at h
      · cases h
      split at h
      · cases h
      split at h
      · cases h
      split at h
      · cases h
      rename_i h6 h7 h8 h9
      simp only [Option.some.injEq] at h
      rw [← h]
      have h6' : isalnum (st2.childDirRecord.fileName.getD 0 0) = true := by
        simpa using h6
      exact readDirLoop_child g (f + 1) location length st st1 st2 _ st2.cio
        st2.childDirRecord.cutAtSemicolon h1 h2 h3 h4 h5 h6'
        (readDir_file g f st2.cio st2.childDirRecord (by simpa using h7) (by simpa using h8)) h9

theorem eq_some_getD {α : Type} (x : Option α) (d : α) (h : x.isSome = true) :
    x = some (x.getD d) := by
  cases x with
  | none => cases h
  | some a => rfl

theorem eq_some_pair_getD {α β : Type} (x : Option (α × β)) (d : α × β) (b : β)
    (h : x.isSome = true) (hb : (x.getD d).2 = b) : x = some ((x.getD d).1, b) := by
  cases x with
  | none => cases h
  | some a => simp only [Option.getD_some] at hb ⊢; rw [← hb]

/-- A `seek` that passes the guard gives the same state from any two states of the
same track with a usable file stream. -/
theorem seek_eq_of_onTrack (c c' c'' : CueIO) (h' : c.OnTrack c') (h'' : c.OnTrack c'')
    (y : Nat) (hy : ¬ (y > u64 c.length)) (hm : c.trackMode.supported = true) :
    (c'.seek y).2 = (c''.seek y).2 := by
  rw [seek_of_le c' y (by rw [h'.length]; exact hy),
    seek_of_le c'' y (by rw [h''.length]; exact hy)]
  obtain ⟨a1, a2, a3, a4, a5, a6, a7, ⟨b1, b2, b3⟩⟩ := c'
  obtain ⟨d1, d2, d3, d4, d5, d6, d7, ⟨f1, f2, f3⟩⟩ := c''
  obtain ⟨e1, e2, e3, e4, e5, e6, e7⟩ := h'
  obtain ⟨k1, k2, k3, k4, k5, k6, k7⟩ := h''
  simp only at e1 e2 e3 e4 e5 e6 e7 k1 k2 k3 k4 k5 k6 k7
  subst e1 e2 e3 e4 e5 e6 e7 k2 k3 k4 k5
  have h0 := lbaToByteOffset_nonneg c.trackMode
    (u32 (↑c.lbaStart + ↑(u32 (↑y / ↑(u64 (blockSize c.trackMode)))))) hm
  have h1 := lbaToByteOffset_lt c.trackMode
    (u32 (↑c.lbaStart + ↑(u32 (↑y / ↑(u64 (blockSize c.trackMode))))))
  have h2 := u32_lt (↑y % ↑(u64 (blockSize c.trackMode)))
  have hnn : ¬ i64 ↑(u64 (lbaToByteOffset c.trackMode
      (u32 (↑c.lbaStart + ↑(u32 (↑y / ↑(u64 (blockSize c.trackMode))))))
      + ↑(u32 (↑y % ↑(u64 (blockSize c.trackMode)))))) < 0 := by
    rw [i64_u64_of_lt (by omega) (by omega)]
    omega
  simp only [k1, k6, k7, IfStream.seekg, Bool.false_eq_true, if_false, if_neg hnn]

theorem shifted_outOfFuel (n : Nat) :
    ∀ c : CueIO, shiftedCooked.OnTrack c →
      readDir ⟨List.replicate 255 0⟩ n c shiftedChild = Outcome.outOfFuel := by
  induction n using Nat.strong_induction_on with
  | _ n ih =>
    intro c hon
    cases n with
    | zero => rw [readDir]
    | succ n =>
      apply readDir_of_loop_outOfFuel _ _ _ _ (by decide!) (by decide!)
      have e1 : le32 shiftedChild.extentLoc = 0 := by decide!
      have e2 : i32 (le32 shiftedChild.extentLength) = 70 := by decide!
      have e3 : u32 (blockSize c.trackMode * ((0 : Nat) : Int) + 0) = 0 := by
        rw [hon.trackMode]; decide!
      have e4 : (c.seek 0).2 = (shiftedCooked.seek 0).2 :=
        seek_eq_of_onTrack shiftedCooked c shiftedCooked hon
          ⟨rfl, rfl, rfl, rfl, rfl, rfl, by decide!⟩ 0 (by decide!) (by decide!)
      rw [e1, e2, e3, e4]
      cases n with
      | zero => rw [readDirLoop]
      | succ n =>
        cases n with
        | zero => decide!
        | succ f =>
          rw [readDirLoop_of_filePass _ f 0 70 _ _
            (eq_some_getD _ (DirLoop.mk shiftedCooked 0 ⟨[]⟩ []) (by decide!))]
          refine readDirLoop_of_firstCall_outOfFuel _ f 0 70 _ _ shiftedChild
            (eq_some_pair_getD _ (shiftedCooked, shiftedChild) shiftedChild (by decide!)
              (by decide!)) ?_
          exact ih f (by omega) _
            ⟨by decide!, by decide!, by decide!, by decide!, by decide!, rfl, by decide!⟩

theorem shifted_root_outOfFuel (n : Nat) :
    readDir ⟨List.replicate 255 0⟩ n shiftedCooked twoFileRoot = Outcome.outOfFuel := by
  cases n with
  | zero => rw [readDir]
  | succ n =>
    apply readDir_of_loop_outOfFuel _ _ _ _ (by decide!) (by decide!)
    have e1 : le32 twoFileRoot.extentLoc = 0 := by decide!
    have e2 : i32 (le32 twoFileRoot.extentLength) = 2048 := by decide!
    have e3 : u32 (blockSize shiftedCooked.trackMode * ((0 : Nat) : Int) + 0) = 0 := by decide!
    rw [e1, e2, e3]
    cases n with
    | zero => rw [readDirLoop]
    | succ n =>
      cases n with
      | zero => decide!
      | succ f =>
        rw [readDirLoop_of_filePass _ f 0 2048 _ _
          (eq_some_getD _ (DirLoop.mk shiftedCooked 0 ⟨[]⟩ []) (by decide!))]
        refine readDirLoop_of_firstCall_outOfFuel _ f 0 2048 _ _ shiftedChild
          (eq_some_pair_getD _ (shiftedCooked, shiftedChild) shiftedChild (by decide!)
            (by decide!)) ?_
        exact shifted_outOfFuel f _
          ⟨by decide!, by decide!, by decide!, by decide!, by decide!, rfl, by decide!⟩

/-! ## More fuel does not change a finished run -/

theorem fuel_succ (g : IsoDirRecord_hdr) :
    ∀ n : Nat,
      (∀ (c : CueIO) (r : IsoDirRecord_hdr),
        readDir g n c r ≠ Outcome.outOfFuel → readDir g (n + 1) c r = readDir g n c r) ∧
      (∀ (location : Nat) (length : Int) (st : DirLoop),
        readDirLoop g n location length st ≠ Outcome.outOfFuel →
          readDirLoop g (n + 1) location length st = readDirLoop g n location length st) := by
  intro n
  induction n with
  | zero =>
    constructor
    · intro c r h
      rw [readDir] at h
      exact absurd rfl h
    · intro location length st h
      rw [readDirLoop] at h
      exact absurd rfl h
  | succ n ih =>
    obtain ⟨ihd, ihl⟩ := ih
    constructor
    · intro c r h
      rw [readDir] at h
      rw [readDir, readDir]
      split
      · rfl
      split
      · rfl
      rename_i h0 hf
      rw [if_neg h0, if_neg hf] at h
      cases hl : readDirLoop g n (le32 r.extentLoc) (i32 (le32 r.extentLength))
          ⟨(c.seek (u32 (blockSize c.trackMode * le32 r.extentLoc + 0))).2, 0, g, []⟩ with
      | outOfFuel => rw [hl] at h; exact absurd rfl h
      | undefined => rw [ihl _ _ _ (by rw [hl]; simp), hl]
      | ok st => rw [ihl _ _ _ (by rw [hl]; simp), hl]
    · intro location length st h
      rw [readDirLoop] at h
      rw [readDirLoop, readDirLoop]
      cases h1 : st.alignEven.readHeader with
      | none => rfl
      | some st1 =>
        rw [h1] at h
        simp only at h ⊢
        split
        · rfl
        rename_i h2
        rw [if_neg h2] at h
        split
        · rename_i h3
          rw [if_pos h3] at h
          cases h4 : st1.skipEmpty location with
          | none => rfl
          | some st2 =>
            rw [h4] at h
            simp only at h ⊢
            exact ihl _ _ _ h
        rename_i h3
        rw [if_neg h3] at h
        split
        · rename_i h4
          rw [if_pos h4] at h
          cases h5 : st1.readName with
          | outOfFuel => rfl
          | undefined => rfl
          | ok st2 =>
            rw [h5] at h
            simp only at h ⊢
            split
            · rename_i h6
              rw [if_pos h6] at h
              split
              · rename_i h7
                rw [if_pos h7] at h
                exact ihl _ _ _ h
              · rfl
            · rename_i h6
              rw [if_neg h6] at h
              cases h7 : readDir g n st2.cio st2.childDirRecord with
              | outOfFuel => rw [h7] at h; exact absurd rfl h
              | undefined => rw [ihd _ _ (by rw [h7]; simp), h7]
              | ok a =>
                obtain ⟨e, c', r'⟩ := a
                rw [h7] at h
                rw [ihd _ _ (by rw [h7]; simp), h7]
                simp only at h ⊢
                split
                · rename_i h8
                  rw [if_pos h8] at h
                  exact ihl _ _ _ h
                · rfl
        · rename_i h4
          rw [if_neg h4] at h
          split
          · rename_i h5
            rw [if_pos h5] at h
            exact ihl _ _ _ h
          · rfl

/-- A run of `readDir` that has finished gives the same result with more fuel. -/
theorem readDir_fuel_le (g : IsoDirRecord_hdr) (c : CueIO) (r : IsoDirRecord_hdr) (n k : Nat)
    (h : readDir g n c r ≠ Outcome.outOfFuel) : readDir g (n + k) c r = readDir g n c r := by
  induction k with
  | zero => rfl
  | succ k ih =>
    rw [← Nat.add_assoc, (fuel_succ g (n + k)).1 c r (by rw [ih]; exact h), ih]

/-- With any two amounts of fuel, two runs of `readDir` that have both finished
give the same result. -/
theorem readDir_fuel_eq (g : IsoDirRecord_hdr) (c : CueIO) (r : IsoDirRecord_hdr) (n n' : Nat)
    (h : readDir g n c r ≠ Outcome.outOfFuel) (h' : readDir g n' c r ≠ Outcome.outOfFuel) :
    readDir g n c r = readDir g n' c r := by
  rcases Nat.le_total n n' with hle | hle
  · obtain ⟨k, rfl⟩ := Nat.exists_eq_add_of_le hle
    exact (readDir_fuel_le g c r n k h).symm
  · obtain ⟨k, rfl⟩ := Nat.exists_eq_add_of_le hle
    exact readDir_fuel_le g c r n' k h'

/-! ## A directory in the last sector of the image -/

theorem readDirLoop_of_atCall_outOfFuel (g : IsoDirRecord_hdr) (f location : Nat) (length : Int)
    (st s : DirLoop) (h : st.atCall length = some s)
    (hr : readDir g f s.cio s.childDirRecord = Outcome.outOfFuel) :
    readDirLoop g (f + 1) location length st = Outcome.outOfFuel := by
  unfold DirLoop.atCall at h
  rw [readDirLoop]
  cases h1 : st.alignEven.readHeader with
  | none => rfl
  | some st1 =>
    rw [h1] at h
    simp only at h ⊢
    split at h
    · cases h
    split at h
    · cases h
    split at h
    swap
    · cases h
    rename_i h2 h3 h4
    rw [if_neg h2, if_neg h3, if_pos h4]
    cases h5 : st1.readName with
    | outOfFuel => rfl
    | undefined => rw [h5] at h; cases h
    | ok st2 =>
      rw [h5] at h
      simp only at h ⊢
      split at h
      · cases h
      rename_i h6
      simp only [Option.some.injEq] at h
      subst h
      rw [if_neg h6, hr]

theorem readDirLoop_of_atCall_ok (g : IsoDirRecord_hdr) (f location : Nat) (length : Int)
    (st s : DirLoop) (e : FSEntry) (c' : CueIO) (r' : IsoDirRecord_hdr)
    (h : st.atCall length = some s)
    (hr : readDir g f s.cio s.childDirRecord = Outcome.ok (e, c', r')) (hl : r'.length ≠ 0) :
    readDirLoop g (f + 1) location length st
      = readDirLoop g f location length (s.addChild s.cio.tell e c' r') := by
  unfold DirLoop.atCall at h
  cases h1 : st.alignEven.readHeader with
  | none => rw [h1] at h; cases h
  | some st1 =>
    rw [h1] at h
    simp only at h
    split at h
    · cases h
    split at h
    · cases h
    split at h
    swap
    · cases h
    rename_i h2 h3 h4
    cases h5 : st1.readName with
    | outOfFuel => rw [h5] at h; cases h
    | undefined => rw [h5] at h; cases h
    | ok st2 =>
      rw [h5] at h
      simp only at h
      split at h
      · cases h
      rename_i h6
      simp only [Option.some.injEq] at h
      subst h
      exact readDirLoop_child g f location length st st1 st2 e c' r' h1 h2 h3 h4 h5
        (by simpa using h6) hr hl

/-- A recursive call for `SUB` on the failed stream never returns: the reads deliver
nothing and the running offset stays 0. -/
theorem lastSector_failed_outOfFuel (n : Nat) :
    readDir ⟨List.replicate 255 0⟩ n (lastSectorFailed 0 36) lastSectorRecord
      = Outcome.outOfFuel := by
  cases n with
  | zero => rw [readDir]
  | succ n =>
    apply readDir_of_loop_outOfFuel _ _ _ _ (by decide!) (by decide!)
    have e1 : le32 lastSectorRecord.extentLoc = 1 := by decide!
    have e2 : i32 (le32 lastSectorRecord.extentLength) = 2048 := by decide!
    have e3 : ((lastSectorFailed 0 36).seek
        (u32 (blockSize (lastSectorFailed 0 36).trackMode * ((1 : Nat) : Int) + 0))).2
        = lastSectorFailed 1 0 := by decide!
    rw [e1, e2, e3]
    exact readDirLoop_emptyPass_fixed _ 1 2048 _ (by decide!) n

/-- The first recursive call for `SUB` either runs out of fuel or returns with the
failed stream. -/
theorem lastSector_first_call (f : Nat) :
    readDir ⟨List.replicate 255 0⟩ f lastSectorCall.cio lastSectorCall.childDirRecord
        = Outcome.outOfFuel ∨
      readDir ⟨List.replicate 255 0⟩ f lastSectorCall.cio lastSectorCall.childDirRecord
        = Outcome.ok (lastSectorEntry, lastSectorFailed 2 0, lastSectorRecord) := by
  by_cases h : readDir ⟨List.replicate 255 0⟩ f lastSectorCall.cio lastSectorCall.childDirRecord
      = Outcome.outOfFuel
  · exact Or.inl h
  · right
    have h70 : readDir ⟨List.replicate 255 0⟩ 70 lastSectorCall.cio lastSectorCall.childDirRecord
        = Outcome.ok (lastSectorEntry, lastSectorFailed 2 0, lastSectorRecord) := by decide!
    rw [readDir_fuel_eq _ _ _ f 70 h (by rw [h70]; simp), h70]

theorem lastSector_outOfFuel (n : Nat) :
    readDir ⟨List.replicate 255 0⟩ n lastSectorCio twoFileRoot = Outcome.outOfFuel := by
  cases n with
  | zero => rw [readDir]
  | succ n =>
    apply readDir_of_loop_outOfFuel _ _ _ _ (by decide!) (by decide!)
    have e1 : le32 twoFileRoot.extentLoc = 0 := by decide!
    have e2 : i32 (le32 twoFileRoot.extentLength) = 2048 := by decide!
    have e3 : u32 (blockSize lastSectorCio.trackMode * ((0 : Nat) : Int) + 0) = 0 := by decide!
    rw [e1, e2, e3]
    cases n with
    | zero => rw [readDirLoop]
    | succ f =>
      have hcall : (DirLoop.mk (lastSectorCio.seek 0).2 0 ⟨List.replicate 255 0⟩ []).atCall 2048
          = some lastSectorCall := by decide!
      rcases lastSector_first_call f with h | h
      · exact readDirLoop_of_atCall_outOfFuel _ f 0 2048 _ _ hcall h
      · have hres : lastSectorCall.addChild lastSectorCall.cio.tell lastSectorEntry
            (lastSectorFailed 2 0) lastSectorRecord = lastSectorResumed := by decide!
        rw [readDirLoop_of_atCall_ok _ f 0 2048 _ _ lastSectorEntry (lastSectorFailed 2 0)
          lastSectorRecord hcall h (by decide!), hres]
        cases f with
        | zero => rw [readDirLoop]
        | succ f =>
          exact readDirLoop_of_atCall_outOfFuel _ f 0 2048 lastSectorResumed
            lastSectorResumed (by decide!) (lastSector_failed_outOfFuel f)

/-! ## Runs of `readDir` that do not end: the inputs together -/

/-- C28 (the claim fails): `readDir` need not terminate; no amount of fuel lets these
four runs finish.  Over the `MODE1/2352` image `selfRefImage`, whose directory at
block 0 holds a record of itself, the recursion never ends.  Over the stream
`truncatedCio`, whose image file ends before the directory's block, the reads
deliver nothing, the running offset stays 0 and the record loop never reaches
the declared length 2048.  Over the `MODE1/2352` stream `lastSectorCio`, whose
image is complete and whose subdirectory `SUB` lies in the last sector, the last
header read of the loop of `SUB` reaches past the end of the file and the stream
fails; back in the parent nothing is read any more, the record buffer keeps the
record of `SUB`, and the call for `SUB` made again never returns.  Over the
`MODE1/2048` stream `shiftedCooked`, whose image is complete and whose only
directory holds one file, the stream is put back to the start of the directory
after the file's record and then moved on by one byte; the bytes read from there
decode as a directory at block 0, and the recursion never ends.  The same blocks
read through the `MODE1/2352` stream `shiftedRaw` give a run that ends with the
key `AB`. -/
theorem readDir_does_not_terminate :
    selfRefCio.trackMode.supported = true ∧
    (∀ fuel, readDir ⟨List.replicate 255 0⟩ fuel selfRefCio selfRefRoot = Outcome.outOfFuel) ∧
    truncatedCio.trackMode.supported = true ∧
    (∀ fuel, readDir ⟨List.replicate 255 0⟩ fuel truncatedCio twoFileRoot
      = Outcome.outOfFuel) ∧
    lastSectorCio.trackMode.supported = true ∧
    (∀ fuel, readDir ⟨List.replicate 255 0⟩ fuel lastSectorCio twoFileRoot
      = Outcome.outOfFuel) ∧
    shiftedCooked.trackMode.supported = true ∧
    (∀ fuel, readDir ⟨List.replicate 255 0⟩ fuel shiftedCooked twoFileRoot
      = Outcome.outOfFuel) ∧
    childKeys (readDir ⟨List.replicate 255 0⟩ 80 shiftedRaw twoFileRoot)
      = some [bytesOf "AB"] :=
  ⟨by decide, fun fuel => selfRef_outOfFuel fuel selfRefCio (by decide) rfl, by decide,
    truncated_outOfFuel, by decide!, lastSector_outOfFuel, by decide!, shifted_root_outOfFuel,
    by decide!⟩

end OpenApoc
